import Mathlib

/-!
# Campus-location directory of `university_guide.c`

A shallow embedding of the location hash table (`hashFunction`, `insertLocation`,
the search and delete loops), of its text-file persistence (`loadLocationData`,
`saveLocationToFile`, `rewriteLocationFile`) and of the menu functions that drive them
(`getInput`, `addLocationMenu`, `deleteLocationMenu`, `searchLocation`).

Conventions of the embedding.

* A C string is the list of its bytes (`List Nat`, each byte in `1..255`), without the
  terminating NUL.  A stream (a file's content, standard input) is a list of bytes that may
  contain any byte.
* `char` is the signed 8-bit type of the x86 targets the program is written for (it tests
  `_WIN32`): a byte `b ≥ 0x80` read through `char` has the value `b - 256`.
* `int` arithmetic is done in `Int`; `%` is C's truncating remainder `Int.tmod`.  In
  `hashFunction` the accumulator stays within `(-50, 50)`, so `hash * 31 + key[i]` never
  leaves the range of a 32-bit `int`.
* The global `hashTable[HASH_SIZE]` is a list of 50 chains; a chain is the list of the nodes
  reached through `next`, head first.  An access `hashTable[index]` with `index` outside
  `0..49` has no defined behaviour: the functions that perform it return `none`.
* `malloc` is taken to succeed.
* `printf` output is kept as a list of message tags (`Msg`); `clearScreen` has no effect on
  the modelled state.
-/

namespace UniversityGuide

/-! ## Constants -/

/-- From `#define MAX_NAME_LENGTH 100`. -/
abbrev MAX_NAME_LENGTH : Nat := 100

/-- From `#define MAX_LINE_LENGTH 256`. -/
abbrev MAX_LINE_LENGTH : Nat := 256

/-- From `#define MAX_ID_LENGTH 15`. -/
abbrev MAX_ID_LENGTH : Nat := 15

/-- From `#define HASH_SIZE 50`. -/
abbrev HASH_SIZE : Nat := 50

/-- The bytes of an ASCII string literal. -/
def ascii (s : String) : List Nat := s.toList.map Char.toNat

/-! ## Data structures -/

/-- The user roles of `typedef enum { ROLE_UNKNOWN, ROLE_STUDENT, ROLE_ADMIN } UserRole`. -/
inductive UserRole where
  | ROLE_UNKNOWN
  | ROLE_STUDENT
  | ROLE_ADMIN
deriving DecidableEq, Repr

/-- The payload of `struct LocationNode`; the `next` pointer is the tail of the chain the
node sits in. -/
structure LocationNode where
  key : List Nat
  building : List Nat
  floor : List Nat
  room : List Nat
  description : List Nat
deriving DecidableEq, Repr

/-- The global `LocationNode *hashTable[HASH_SIZE]`: one chain per slot. -/
abbrev HashTable := List (List LocationNode)

/-- The table of a freshly started program, and the table after the clearing loop of
`loadLocationData`: every slot is `NULL`. -/
def emptyTable : HashTable := List.replicate HASH_SIZE []

/-- A node fits `struct LocationNode`: `key`, `floor`, `room` are `char[15]`, `building`
and `description` are `char[100]`, each holding a NUL-terminated string. -/
def LocationNode.Fits (n : LocationNode) : Prop :=
  n.key.length < MAX_ID_LENGTH ∧ n.building.length < MAX_NAME_LENGTH ∧
  n.floor.length < MAX_ID_LENGTH ∧ n.room.length < MAX_ID_LENGTH ∧
  n.description.length < MAX_NAME_LENGTH

/-- All nodes of the table, slot 0 first and head to tail within a slot: the order in which
`viewAllLocations` and `rewriteLocationFile` walk the table. -/
def allEntries (hashTable : HashTable) : List LocationNode := hashTable.flatten

/-! ## C library functions used by the program -/

/-- The value of a byte read through the (signed) `char` type. -/
def charValue (b : Nat) : Int := if b < 128 then (b : Int) else (b : Int) - 256

/-- The C function `isspace` in the "C" locale: space, `\t`, `\n`, `\v`, `\f`, `\r`. -/
def isspace (c : Nat) : Bool := c == 32 || (9 ≤ c && c ≤ 13)

/-- The C string held by a buffer: its bytes up to the first NUL. -/
def cstr (buf : List Nat) : List Nat := buf.takeWhile (fun c => c != 0)

/-- The read loop of `fgets`: at most `room` bytes are taken from the stream, stopping after
a newline.  Returns the bytes stored and the rest of the stream. -/
def fgetsRead : Nat → List Nat → List Nat × List Nat
  | 0, s => ([], s)
  | _ + 1, [] => ([], [])
  | room + 1, c :: s =>
    if c = 10 then ([c], s)
    else ((c :: (fgetsRead room s).1), (fgetsRead room s).2)

/-- The C function `fgets(buf, n, stream)`: `none` (NULL) at end of file, otherwise the
bytes stored in `buf` (at most `n - 1`) and the rest of the stream. -/
def fgets (n : Nat) (stream : List Nat) : Option (List Nat × List Nat) :=
  match stream with
  | [] => none
  | _ :: _ => some (fgetsRead (n - 1) stream)

/-- The C function `strtok` with delimiter `";"`, on the text not yet consumed: leading
delimiters are skipped; `none` (NULL) when nothing is left; otherwise the token, which runs
up to the next delimiter, and the text after that delimiter. -/
def strtok (s : List Nat) : Option (List Nat × List Nat) :=
  match s.dropWhile (fun c => c == 59) with
  | [] => none
  | c :: t => some ((c :: t).takeWhile (fun x => x != 59), ((c :: t).dropWhile (fun x => x != 59)).drop 1)

/-- The copy `strncpy(dst, src, size - 1); dst[size - 1] = 0` into a field of `size` bytes:
the first `size - 1` bytes of `src`. -/
def strncpyField (size : Nat) (src : List Nat) : List Nat := src.take (size - 1)

/-! ## Utility functions -/

/-- From `normalizeString`: the trailing bytes for which `isspace` holds are cut off. -/
def normalizeString (str : List Nat) : List Nat := (str.reverse.dropWhile isspace).reverse

/-! ## Hash table -/

/-- From `hashFunction`: `hash = (hash * 31 + key[i]) % HASH_SIZE` over the bytes of the
key, each read as a `char`. -/
def hashFunction (key : List Nat) : Int :=
  key.foldl (fun hash c => Int.tmod (hash * 31 + charValue c) HASH_SIZE) 0

/-- The index designates one of the `HASH_SIZE` slots of `hashTable`. -/
def validIndex (index : Int) : Prop := 0 ≤ index ∧ index < HASH_SIZE

instance (index : Int) : Decidable (validIndex index) := by
  unfold validIndex; exact inferInstance

/-- The read `hashTable[index]`: `none` when the index is outside the array. -/
def bucketAt (hashTable : HashTable) (index : Int) : Option (List LocationNode) :=
  if validIndex index then hashTable[index.toNat]? else none

/-- From `insertLocation`: the fields are copied with `strncpy` into a new node, which
becomes the head of the chain of slot `hashFunction(key)`. -/
def insertLocation (key building floor room desc : List Nat) (hashTable : HashTable) :
    Option HashTable :=
  let index := hashFunction key
  let newNode : LocationNode :=
    { key := strncpyField MAX_ID_LENGTH key
      building := strncpyField MAX_NAME_LENGTH building
      floor := strncpyField MAX_ID_LENGTH floor
      room := strncpyField MAX_ID_LENGTH room
      description := strncpyField MAX_NAME_LENGTH desc }
  match bucketAt hashTable index with
  | none => none
  | some chain => some (hashTable.set index.toNat (newNode :: chain))

/-- The outcome of a search: the node found, or no node. -/
inductive SearchResult where
  | found (node : LocationNode)
  | notFound
deriving DecidableEq, Repr

/-- The scan `while (current) { if (strcmp(current->key, key) == 0) ... }` of
`searchLocation` (and of the duplicate check of `addLocationMenu`): the first node of the
chain whose key equals `key`. -/
def searchChain (key : List Nat) : List LocationNode → SearchResult
  | [] => SearchResult.notFound
  | current :: next =>
    if current.key = key then SearchResult.found current else searchChain key next

/-- Lines 456-472 of `searchLocation`: the chain of slot `hashFunction(key)` is scanned. -/
def searchByKey (key : List Nat) (hashTable : HashTable) : Option SearchResult :=
  (bucketAt hashTable (hashFunction key)).map (searchChain key)

/-- The unlink loop of `deleteLocationMenu` on one chain: `none` when no node has the key
(`found == 0`), otherwise the chain without the first node that has it. -/
def unlinkFirst (keyToDelete : List Nat) : List LocationNode → Option (List LocationNode)
  | [] => none
  | current :: next =>
    if current.key = keyToDelete then some next
    else (unlinkFirst keyToDelete next).map (fun rest => current :: rest)

/-- Lines 578-599 of `deleteLocationMenu`: the in-memory delete.  Returns `found` and the
table after the loop. -/
def deleteNode (keyToDelete : List Nat) (hashTable : HashTable) : Option (Bool × HashTable) :=
  let index := hashFunction keyToDelete
  match bucketAt hashTable index with
  | none => none
  | some chain =>
    match unlinkFirst keyToDelete chain with
    | none => some (false, hashTable)
    | some chain1 => some (true, hashTable.set index.toNat chain1)

/-! ## The data file and the program state -/

/-- The file `university_data.txt`: its content (`none` when the file does not exist) and
whether `fopen` succeeds for reading and for writing. -/
structure DataFile where
  content : Option (List Nat)
  canRead : Bool
  canWrite : Bool
deriving DecidableEq, Repr

/-- The messages the location functions print. -/
inductive Msg where
  | loadWarning
  | writeError
  | searchFound (node : LocationNode)
  | searchNotFound (key : List Nat)
  | keyEmpty
  | keyExists
  | addSuccess (key : List Nat)
  | addUnauthorized
  | deleteSuccess (key : List Nat)
  | deleteNotFound (key : List Nat)
  | deleteUnauthorized
deriving DecidableEq, Repr

/-- The state the location functions read and write: the global table, the data file,
what is left of standard input, the string held by the static buffer of `getInput`, the
role of the logged-in user and the messages printed so far. -/
structure State where
  hashTable : HashTable
  file : DataFile
  stdin : List Nat
  buffer : List Nat
  currentUserRole : UserRole
  output : List Msg
deriving DecidableEq, Repr

/-- Appends one message to the output. -/
def State.print (s : State) (m : Msg) : State := { s with output := s.output ++ [m] }

/-- What `getInput` returns: a pointer to its static buffer, or the literal `""`. -/
inductive InputPtr where
  | staticBuffer
  | emptyLiteral
deriving DecidableEq, Repr

/-- From `getInput`: one `fgets` of at most `MAX_NAME_LENGTH - 1` bytes into the static
buffer, then `normalizeString`; the pointer returned designates the static buffer itself. -/
def getInput (s : State) : InputPtr × State :=
  match fgets MAX_NAME_LENGTH s.stdin with
  | some (chunk, rest) =>
    (InputPtr.staticBuffer, { s with stdin := rest, buffer := normalizeString (cstr chunk) })
  | none => (InputPtr.emptyLiteral, s)

/-- The string a pointer returned by `getInput` designates in state `s`. -/
def deref (s : State) : InputPtr → List Nat
  | InputPtr.staticBuffer => s.buffer
  | InputPtr.emptyLiteral => []

/-! ## Persistence -/

/-- The output of `fprintf(fp, "%s;%s;%s;%s;%s\n", ...)`. -/
def formatLine (key building floor room desc : List Nat) : List Nat :=
  key ++ [59] ++ building ++ [59] ++ floor ++ [59] ++ room ++ [59] ++ desc ++ [10]

/-- The line `rewriteLocationFile` prints for a node. -/
def formatNode (n : LocationNode) : List Nat :=
  formatLine n.key n.building n.floor n.room n.description

/-- The two header lines `rewriteLocationFile` prints first. -/
def fileHeader : List Nat :=
  ascii "# Location Data File\n" ++ ascii "# Format: key;building;floor;room;description\n"

/-- The five `strtok` calls of `loadLocationData`; `none` when one of them returns NULL. -/
def splitFields (line : List Nat) :
    Option (List Nat × List Nat × List Nat × List Nat × List Nat) :=
  match strtok line with
  | none => none
  | some (key, r1) =>
    match strtok r1 with
    | none => none
    | some (building, r2) =>
      match strtok r2 with
      | none => none
      | some (floor, r3) =>
        match strtok r3 with
        | none => none
        | some (room, r4) =>
          match strtok r4 with
          | none => none
          | some (description, _) => some (key, building, floor, room, description)

/-- The body of the `while (fgets(...))` loop of `loadLocationData` for one buffer read. -/
def processLine (line : List Nat) (hashTable : HashTable) : Option HashTable :=
  let text := cstr line
  if text.head? = some 35 ∨ text.length < 5 then some hashTable
  else
    match splitFields text with
    | none => some hashTable
    | some (key, building, floor, room, description) =>
      insertLocation (normalizeString key) (normalizeString building) (normalizeString floor)
        (normalizeString room) (normalizeString description) hashTable

/-- The loop `while (fgets(line, MAX_LINE_LENGTH, fp) != NULL)` of `loadLocationData`.
Every round consumes at least one byte, so `fuel` above the length of the stream is never
used up. -/
def loadLoop : Nat → List Nat → HashTable → Option HashTable
  | 0, _, _ => none
  | fuel + 1, stream, hashTable =>
    match fgets MAX_LINE_LENGTH stream with
    | none => some hashTable
    | some (line, rest) =>
      match processLine line hashTable with
      | none => none
      | some t => loadLoop fuel rest t

/-- The read loop of `loadLocationData` on a whole stream. -/
def loadLines (stream : List Nat) (hashTable : HashTable) : Option HashTable :=
  loadLoop (stream.length + 1) stream hashTable

/-- From `loadLocationData`: the table is cleared; when the file cannot be opened a warning
is printed; otherwise the file is read line by line into the cleared table. -/
def loadLocationData (s : State) : Option State :=
  match (if s.file.canRead then s.file.content else none) with
  | none => some ({ s with hashTable := emptyTable }.print Msg.loadWarning)
  | some text =>
    match loadLines text emptyTable with
    | none => none
    | some t => some { s with hashTable := t }

/-- From `saveLocationToFile`: one line is appended to the file and the table is reloaded;
when the file cannot be opened an error is printed and nothing else happens. -/
def saveLocationToFile (key building floor room desc : List Nat) (s : State) : Option State :=
  if s.file.canWrite then
    loadLocationData
      { s with file := { s.file with
          content := some (s.file.content.getD [] ++ formatLine key building floor room desc) } }
  else some (s.print Msg.writeError)

/-- From `rewriteLocationFile`: the file is replaced by the header and one line per node,
slot by slot; when the file cannot be opened an error is printed and nothing else happens. -/
def rewriteLocationFile (s : State) : State :=
  if s.file.canWrite then
    { s with file := { s.file with
        content := some (fileHeader ++ (allEntries s.hashTable).flatMap formatNode) } }
  else s.print Msg.writeError

/-! ## Menu functions -/

/-- Lines 456-476 of `searchLocation`, for the key read at line 454. -/
def searchLocationFor (key : List Nat) (s : State) : Option State :=
  match searchByKey key s.hashTable with
  | none => none
  | some (SearchResult.found node) => some (s.print (Msg.searchFound node))
  | some SearchResult.notFound => some (s.print (Msg.searchNotFound key))

/-- From `searchLocation`. -/
def searchLocation (s : State) : Option State :=
  let r := getInput s
  searchLocationFor (deref r.2 r.1) r.2

/-- The `do { ... } while(1)` loop of `addLocationMenu` that asks for a key until it is
non-empty and not found in the table; returns the content of `key_buffer`.  `none` when the
fuel runs out (at end of input the loop never ends), when the table is indexed outside its
bounds, or when `strcpy` writes past the `MAX_ID_LENGTH` bytes of `key_buffer`. -/
def askKey : Nat → State → Option (List Nat × State)
  | 0, _ => none
  | fuel + 1, s =>
    let r := getInput s
    let key := deref r.2 r.1
    if key = [] then askKey fuel (r.2.print Msg.keyEmpty)
    else
      match searchByKey key r.2.hashTable with
      | none => none
      | some (SearchResult.found _) => askKey fuel (r.2.print Msg.keyExists)
      | some SearchResult.notFound =>
        if key.length < MAX_ID_LENGTH then some (key, r.2) else none

/-- From `addLocationMenu`.  The four pointers returned by `getInput` for building, floor,
room and description are read only when `saveLocationToFile` is called, after the last
`getInput`. -/
def addLocationMenu (s : State) : Option State :=
  if s.currentUserRole ≠ UserRole.ROLE_ADMIN then some (s.print Msg.addUnauthorized)
  else
    match askKey (s.stdin.length + 1) s with
    | none => none
    | some (key_buffer, s1) =>
      let building := getInput s1
      let floor := getInput building.2
      let room := getInput floor.2
      let description := getInput room.2
      let s5 := description.2
      match saveLocationToFile key_buffer (deref s5 building.1) (deref s5 floor.1)
          (deref s5 room.1) (deref s5 description.1) s5 with
      | none => none
      | some s6 => some (s6.print (Msg.addSuccess key_buffer))

/-- Lines 578-607 of `deleteLocationMenu`, for the key read at line 576. -/
def deleteLocationFor (keyToDelete : List Nat) (s : State) : Option State :=
  match deleteNode keyToDelete s.hashTable with
  | none => none
  | some (true, t) =>
    some ((rewriteLocationFile { s with hashTable := t }).print (Msg.deleteSuccess keyToDelete))
  | some (false, _) => some (s.print (Msg.deleteNotFound keyToDelete))

/-- From `deleteLocationMenu`. -/
def deleteLocationMenu (s : State) : Option State :=
  if s.currentUserRole ≠ UserRole.ROLE_ADMIN then some (s.print Msg.deleteUnauthorized)
  else
    let r := getInput s
    deleteLocationFor (deref r.2 r.1) r.2

/-! ## Definitions used to state the properties -/

/-- The hash of the specification, in its words: the left fold
`h := (h * 31 + byte) mod N` over the bytes of the key, started at 0, with `N = 50`. -/
def hashFold (key : List Nat) : Nat :=
  key.foldl (fun h byte => (h * 31 + byte) % HASH_SIZE) 0

/-- A table has the shape of the global array: `HASH_SIZE` slots. -/
def WellSized (hashTable : HashTable) : Prop := hashTable.length = HASH_SIZE

instance (hashTable : HashTable) : Decidable (WellSized hashTable) := by
  unfold WellSized; exact inferInstance

/-- A table-level operation: an `insertLocation` call or the in-memory delete of
`deleteLocationMenu`. -/
inductive TableOp where
  | insert (key building floor room desc : List Nat)
  | delete (key : List Nat)
deriving DecidableEq, Repr

/-- The key a table-level operation is called with. -/
def TableOp.key : TableOp → List Nat
  | TableOp.insert key _ _ _ _ => key
  | TableOp.delete key => key

/-- The key a table-level operation stores or looks for: `insertLocation` stores the key
cut by `strncpy`, the delete compares with the key as given. -/
def TableOp.storedKey : TableOp → List Nat
  | TableOp.insert key _ _ _ _ => strncpyField MAX_ID_LENGTH key
  | TableOp.delete key => key

/-- Runs one table-level operation. -/
def applyOp (op : TableOp) (hashTable : HashTable) : Option HashTable :=
  match op with
  | TableOp.insert key building floor room desc =>
    insertLocation key building floor room desc hashTable
  | TableOp.delete key => (deleteNode key hashTable).map (fun r => r.2)

/-- Runs a sequence of table-level operations, first to last. -/
def applyOps : List TableOp → HashTable → Option HashTable
  | [], hashTable => some hashTable
  | op :: ops, hashTable =>
    match applyOp op hashTable with
    | none => none
    | some t => applyOps ops t

/-- In the chain, `e` is the first node that carries its key. -/
def FirstMatch (e : LocationNode) (chain : List LocationNode) : Prop :=
  ∃ front back, chain = front ++ e :: back ∧ ∀ n ∈ front, n.key ≠ e.key

/-- The state of a session of an administrator: the table as given, the data file with the
given content, readable and writable, the given bytes waiting on standard input, nothing
printed yet. -/
def adminSession (hashTable : HashTable) (fileContent : Option (List Nat))
    (input : List Nat) : State :=
  { hashTable := hashTable
    file := { content := fileContent, canRead := true, canWrite := true }
    stdin := input
    buffer := []
    currentUserRole := UserRole.ROLE_ADMIN
    output := [] }

/-- A piece of a file ends where a line ends: it is empty or its last byte is a newline. -/
def LineAligned (text : List Nat) : Prop := text = [] ∨ text.getLast? = some 10

instance (text : List Nat) : Decidable (LineAligned text) := by
  unfold LineAligned; exact inferInstance

/-- The text does not end in a byte for which `isspace` holds. -/
def NoTrailingSpace (text : List Nat) : Prop := ∀ c, text.getLast? = some c → isspace c = false

/-- The text does not begin with a byte for which `isspace` holds. -/
def NoLeadingSpace (text : List Nat) : Prop := ∀ c, text.head? = some c → isspace c = false

/-- A field of an entry line: not empty, and free of `;`, newline and NUL. -/
def FieldText (text : List Nat) : Prop := text ≠ [] ∧ ∀ c ∈ text, c ≠ 59 ∧ c ≠ 10 ∧ c ≠ 0

instance (text : List Nat) : Decidable (FieldText text) := by
  unfold FieldText; exact inferInstance

/-- In the words of the specification, for a field of `size` bytes: `field` is the parsed
text `parsed` with its trailing whitespace removed (`parsed` is `trimmed` followed by
whitespace only, and `trimmed` does not end in whitespace), cut to the first `size - 1`
bytes. -/
def TrimmedThenCut (size : Nat) (parsed field : List Nat) : Prop :=
  ∃ trimmed tail, parsed = trimmed ++ tail ∧ (∀ c ∈ tail, isspace c = true) ∧
    NoTrailingSpace trimmed ∧ field = trimmed.take (size - 1)

/-- The buffers the `fgets` loop of `loadLocationData` reads from a stream, in order (with
the fuel of `loadLoop`). -/
def fileBuffers : Nat → List Nat → List (List Nat)
  | 0, _ => []
  | fuel + 1, stream =>
    match fgets MAX_LINE_LENGTH stream with
    | none => []
    | some (line, rest) => line :: fileBuffers fuel rest

/-- The number of tokens `strtok` with delimiter `";"` finds in a text: the maximal runs
of bytes other than `;`.  The flag tells whether the byte before was part of a token. -/
def tokenCount : Bool → List Nat → Nat
  | _, [] => 0
  | inside, c :: s =>
    if c = 59 then tokenCount false s
    else (if inside then 0 else 1) + tokenCount true s

/-- The state with the content of the data file replaced. -/
def State.withFileContent (s : State) (text : List Nat) : State :=
  { s with file := { s.file with content := some text } }

/-- The text `line`, followed in the file by `rest`, is one line: it ends with its only
newline, or it has no newline and the file ends with it. -/
def SingleLine (line rest : List Nat) : Prop :=
  (∃ body, line = body ++ [10] ∧ ∀ c ∈ body, c ≠ 10) ∨ (rest = [] ∧ ∀ c ∈ line, c ≠ 10)

instance (text : List Nat) : Decidable (NoTrailingSpace text) :=
  decidable_of_iff (∀ c ∈ text.getLast?, isspace c = false) (by simp [NoTrailingSpace])

instance (n : LocationNode) : Decidable n.Fits := by
  unfold LocationNode.Fits; exact inferInstance

/-- A node that `rewriteLocationFile` writes as a line which `loadLocationData` reads back
as the same node: its fields fit the node, are not empty, hold no `;`, newline or NUL and
no trailing whitespace, its key does not begin with `#` and hashes to a slot of the table. -/
def Reloadable (n : LocationNode) : Prop :=
  n.Fits ∧
  (FieldText n.key ∧ FieldText n.building ∧ FieldText n.floor ∧ FieldText n.room ∧
    FieldText n.description) ∧
  (NoTrailingSpace n.key ∧ NoTrailingSpace n.building ∧ NoTrailingSpace n.floor ∧
    NoTrailingSpace n.room ∧ NoTrailingSpace n.description) ∧
  n.key.head? ≠ some 35 ∧ validIndex (hashFunction n.key)

instance (n : LocationNode) : Decidable (Reloadable n) := by
  unfold Reloadable; exact inferInstance

/-- The table after the node is put at the head of the chain of slot `hashFunction(key)`,
for a key that hashes to a slot. -/
def pushNode (hashTable : HashTable) (n : LocationNode) : HashTable :=
  hashTable.set (hashFunction n.key).toNat (n :: hashTable.getD (hashFunction n.key).toNat [])

/-- The state of a session of an administrator for whom the data file, with the given
content, can be read but cannot be opened for writing. -/
def readOnlySession (hashTable : HashTable) (fileContent : Option (List Nat))
    (input : List Nat) : State :=
  { hashTable := hashTable
    file := { content := fileContent, canRead := true, canWrite := false }
    stdin := input
    buffer := []
    currentUserRole := UserRole.ROLE_ADMIN
    output := [] }

/-- An example node: the computer lab, key `c_lab` (slot 17). -/
def computerLab : LocationNode :=
  { key := ascii "c_lab"
    building := ascii "Engineering Hall"
    floor := ascii "2nd"
    room := ascii "204"
    description := ascii "Computer Lab" }

/-- An example node with the same key `c_lab`: the chemistry lab. -/
def chemistryLab : LocationNode :=
  { key := ascii "c_lab"
    building := ascii "Science Block"
    floor := ascii "3rd"
    room := ascii "310"
    description := ascii "Chemistry Lab" }

/-- An example node: the library, key `library` (slot 7). -/
def centralLibrary : LocationNode :=
  { key := ascii "library"
    building := ascii "Main Block"
    floor := ascii "1st"
    room := ascii "101"
    description := ascii "Central Library" }

/-- An example state: the chain of slot 17 holds the chemistry lab, then the computer
lab, slot 7 holds the library, and the data file, which holds the lines of the computer lab
and of the library, cannot be opened for writing. -/
def readOnlyExample : State :=
  readOnlySession ((emptyTable.set 17 [chemistryLab, computerLab]).set 7 [centralLibrary])
    (some (ascii "c_lab;Engineering Hall;2nd;204;Computer Lab\n" ++
      ascii "library;Main Block;1st;101;Central Library\n")) []

/-- An example state: the data file holds one line whose fields carry whitespace on both
sides. -/
def paddedLineExample : State :=
  adminSession emptyTable
    (some (ascii "c_lab ; Engineering Hall \t;2nd ;204 ;Computer Lab\r\n")) []

/-- The node `loadLocationData` stores for the line of `paddedLineExample`. -/
def paddedLineNode : LocationNode :=
  { key := ascii "c_lab"
    building := ascii " Engineering Hall"
    floor := ascii "2nd"
    room := ascii "204"
    description := ascii "Computer Lab" }

/-! ## Definitions used to state the properties of the table and of the menus -/

/-- A text free of `;`, newline and NUL. -/
def CleanText (text : List Nat) : Prop := ∀ c ∈ text, c ≠ 59 ∧ c ≠ 10 ∧ c ≠ 0

instance (text : List Nat) : Decidable (CleanText text) := by
  unfold CleanText; exact inferInstance

/-- A node that `rewriteLocationFile` writes as a line which `loadLocationData` reads back
as the same node: its fields fit the node, hold no `;`, newline or NUL and no trailing
whitespace, its key, building, floor and room are not empty (the description may be), and
its key does not begin with `#` and hashes to a slot of the table. -/
def Rereadable (n : LocationNode) : Prop :=
  n.Fits ∧
  (FieldText n.key ∧ FieldText n.building ∧ FieldText n.floor ∧ FieldText n.room ∧
    CleanText n.description) ∧
  (NoTrailingSpace n.key ∧ NoTrailingSpace n.building ∧ NoTrailingSpace n.floor ∧
    NoTrailingSpace n.room ∧ NoTrailingSpace n.description) ∧
  n.key.head? ≠ some 35 ∧ validIndex (hashFunction n.key)

instance (n : LocationNode) : Decidable (Rereadable n) := by
  unfold Rereadable; exact inferInstance

/-- A text in which a newline can only be the last byte, as in a buffer filled by
`fgets`. -/
def NewlineLast (text : List Nat) : Prop := ∀ front back, text = front ++ 10 :: back → back = []

/-- A text as `loadLocationData` tokenizes it: a newline can only be its last byte and it
holds no NUL. -/
def BufferText (text : List Nat) : Prop := NewlineLast text ∧ ∀ c ∈ text, c ≠ 0

/-- The call of `insertLocation` the loop body of `loadLocationData` makes for one buffer
read, if it makes one. -/
def lineInsert (line : List Nat) : Option TableOp :=
  let text := cstr line
  if text.head? = some 35 ∨ text.length < 5 then none
  else
    match splitFields text with
    | none => none
    | some (key, building, floor, room, description) =>
      some (TableOp.insert (normalizeString key) (normalizeString building)
        (normalizeString floor) (normalizeString room) (normalizeString description))

/-- The calls of `insertLocation` the read loop of `loadLocationData` makes on a stream, in
order (with the fuel of `loadLoop`). -/
def fileInserts : Nat → List Nat → List TableOp
  | 0, _ => []
  | fuel + 1, stream =>
    match fgets MAX_LINE_LENGTH stream with
    | none => []
    | some (line, rest) => (lineInsert line).toList ++ fileInserts fuel rest

/-- The calls of `insertLocation` that loading a file makes. -/
def insertsOfFile (text : List Nat) : List TableOp := fileInserts (text.length + 1) text

/-- The arguments of an insert are free of `;`, newline and NUL. -/
def CleanOp : TableOp → Prop
  | TableOp.insert key building floor room desc =>
    CleanText key ∧ CleanText building ∧ CleanText floor ∧ CleanText room ∧ CleanText desc
  | TableOp.delete _ => True

/-- The key of an insert is at most 14 bytes long, so that `insertLocation` stores it
whole; nothing is asked of a delete. -/
def ShortKey : TableOp → Prop
  | TableOp.insert key _ _ _ _ => key.length < MAX_ID_LENGTH
  | TableOp.delete _ => True

instance (op : TableOp) : Decidable (ShortKey op) := by
  cases op <;> unfold ShortKey <;> exact inferInstance

/-- Every node sits in the slot that the hash of its stored key designates. -/
def Placed (hashTable : HashTable) : Prop :=
  ∀ (i : Nat) (chain : List LocationNode), hashTable[i]? = some chain →
    ∀ n ∈ chain, hashFunction n.key = (i : Int)

/-- The tables reachable from the empty table by `insertLocation` calls, in-memory deletes
and loads (a load clears the table first) in which every inserted key is at most 14 bytes
long and every key, inserted or deleted, hashes to a slot of the table, so that no call
indexes the table outside its bounds. -/
inductive ReachableShort : HashTable → Prop where
  | start : ReachableShort emptyTable
  | step (op : TableOp) (t t1 : HashTable) : ReachableShort t → ShortKey op →
      validIndex (hashFunction op.key) → applyOp op t = some t1 → ReachableShort t1
  | load (text : List Nat) (t1 : HashTable) :
      (∀ op ∈ insertsOfFile text, ShortKey op ∧ validIndex (hashFunction op.key)) →
      loadLines text emptyTable = some t1 → ReachableShort t1

/-- A text without newline. -/
def NewlineFree (text : List Nat) : Prop := ∀ c ∈ text, c ≠ 10

instance (text : List Nat) : Decidable (NewlineFree text) := by
  unfold NewlineFree; exact inferInstance

/-- A node whose fields fit `struct LocationNode` and hold no newline. -/
def LineNode (n : LocationNode) : Prop :=
  n.Fits ∧ NewlineFree n.key ∧ NewlineFree n.building ∧ NewlineFree n.floor ∧
  NewlineFree n.room ∧ NewlineFree n.description

/-- The tables the program can hold: the empty table of the start, the tables
`loadLocationData` builds from a file, and those obtained from them by the in-memory delete
of `deleteLocationMenu` and by `insertLocation` calls whose arguments hold no newline (as
do all the calls the program makes, which are those of `loadLocationData`). -/
inductive ProgramReachable : HashTable → Prop where
  | start : ProgramReachable emptyTable
  | load (text : List Nat) (t1 : HashTable) : loadLines text emptyTable = some t1 →
      ProgramReachable t1
  | delete (K : List Nat) (t t1 : HashTable) (found : Bool) : ProgramReachable t →
      deleteNode K t = some (found, t1) → ProgramReachable t1
  | insert (key building floor room desc : List Nat) (t t1 : HashTable) :
      ProgramReachable t → NewlineFree (key ++ building ++ floor ++ room ++ desc) →
      insertLocation key building floor room desc t = some t1 → ProgramReachable t1

/-- A node as `loadLocationData` stores it from a line whose key is at most 14 bytes long:
the fields fit the node and hold no `;`, newline or NUL, and the key has no trailing
whitespace. -/
def GoodNode (n : LocationNode) : Prop :=
  n.Fits ∧ (CleanText n.key ∧ CleanText n.building ∧ CleanText n.floor ∧ CleanText n.room ∧
    CleanText n.description) ∧ NoTrailingSpace n.key

/-- The stored keys of the table are pairwise distinct. -/
def DistinctKeys (hashTable : HashTable) : Prop :=
  ((allEntries hashTable).map LocationNode.key).Nodup

instance (hashTable : HashTable) : Decidable (DistinctKeys hashTable) := by
  unfold DistinctKeys; exact inferInstance

/-- A table of `HASH_SIZE` slots in which every node sits in the slot of its stored key, is
a node as the loader stores it from a line with a short key, and no two nodes have the same
key. -/
def GoodTable (hashTable : HashTable) : Prop :=
  WellSized hashTable ∧ Placed hashTable ∧ (∀ n ∈ allEntries hashTable, GoodNode n) ∧
  DistinctKeys hashTable

/-- The file can be read and written, the table is a `GoodTable`, and the file ends where a
line ends and loads into a `GoodTable` whose keys are all keys of the table. -/
def FileTracks (s : State) : Prop :=
  s.file.canRead = true ∧ s.file.canWrite = true ∧ GoodTable s.hashTable ∧
  ∃ text t, s.file.content = some text ∧ LineAligned text ∧
    loadLines text emptyTable = some t ∧ GoodTable t ∧
    ∀ n ∈ allEntries t, n.key ∈ (allEntries s.hashTable).map LocationNode.key

/-- The line `addLocationMenu` appends to the file once its key loop has ended in state
`s1` with `key_buffer` filled: the four remaining `getInput` calls, whose pointers are read
after the last of them, and the text of the `fprintf` of `saveLocationToFile`. -/
def addedLine (key_buffer : List Nat) (s1 : State) : List Nat :=
  let building := getInput s1
  let floor := getInput building.2
  let room := getInput floor.2
  let description := getInput room.2
  let s5 := description.2
  formatLine key_buffer (deref s5 building.1) (deref s5 floor.1) (deref s5 room.1)
    (deref s5 description.1)

/-- The key `deleteLocationMenu` reads with `getInput` in state `s`. -/
def typedKey (s : State) : List Nat := deref (getInput s).2 (getInput s).1

/-- The states reached from `s0` by calls of `addLocationMenu` and `deleteLocationMenu`, in
any number and order, each of which returns without indexing the table outside its bounds
and without writing past `key_buffer`.  A step is
* a call of `addLocationMenu` by an administrator whose key loop ends with a key that
  passes the duplicate check, is at most 14 bytes long (it fits `key_buffer`), hashes to a
  slot of the table and holds no `;`, the line then appended to the file being shorter than
  the `MAX_LINE_LENGTH` bytes of the read buffer of `loadLocationData`;
* a call of `addLocationMenu` by another user, which is refused;
* a call of `deleteLocationMenu` by an administrator in which the key read hashes to a slot
  of the table;
* a call of `deleteLocationMenu` by another user, which is refused.
A call in which a typed key of 15 bytes or more is copied to `key_buffer`, or in which a
typed key hashes outside the table, has no defined result and is not a step, and neither is
a call whose key loop never ends. -/
inductive FacadeRun (s0 : State) : State → Prop where
  | start : FacadeRun s0 s0
  | add (s s1 s2 : State) (key : List Nat) : FacadeRun s0 s →
      s.currentUserRole = UserRole.ROLE_ADMIN →
      askKey (s.stdin.length + 1) s = some (key, s1) →
      key.length < MAX_ID_LENGTH → validIndex (hashFunction key) → (∀ c ∈ key, c ≠ 59) →
      (addedLine key s1).length < MAX_LINE_LENGTH →
      addLocationMenu s = some s2 → FacadeRun s0 s2
  | addRefused (s s2 : State) : FacadeRun s0 s →
      s.currentUserRole ≠ UserRole.ROLE_ADMIN →
      addLocationMenu s = some s2 → FacadeRun s0 s2
  | delete (s s2 : State) : FacadeRun s0 s → s.currentUserRole = UserRole.ROLE_ADMIN →
      validIndex (hashFunction (typedKey s)) →
      deleteLocationMenu s = some s2 → FacadeRun s0 s2
  | deleteRefused (s s2 : State) : FacadeRun s0 s →
      s.currentUserRole ≠ UserRole.ROLE_ADMIN →
      deleteLocationMenu s = some s2 → FacadeRun s0 s2

/-- An example session of an administrator: the file holds the line of the computer lab,
the table is the one loaded from it, and the administrator will type the key `gym`, four
more lines for the new location, and then the key `c_lab`. -/
def facadeExample : State :=
  adminSession (emptyTable.set 17 [computerLab])
    (some (ascii "c_lab;Engineering Hall;2nd;204;Computer Lab\n"))
    (ascii "gym\nSports Hall\nGround\nG1\nGymnasium\nc_lab\n")

/-- The example session after `addLocationMenu`. -/
def facadeExampleAdded : State := (addLocationMenu facadeExample).getD facadeExample

/-- The example session after `addLocationMenu` and then `deleteLocationMenu`. -/
def facadeExampleDeleted : State :=
  (deleteLocationMenu facadeExampleAdded).getD facadeExampleAdded

/-- An example session of an administrator: the chain of slot 17 holds the chemistry lab,
then the computer lab, both with key `c_lab`, slot 7 holds the library, and there is no data
file yet. -/
def twoLabsExample : State :=
  adminSession ((emptyTable.set 17 [chemistryLab, computerLab]).set 7 [centralLibrary]) none []

/-! # Theorems -/

/-! ## The hash function -/

theorem hashFunction_append (s : List Nat) (b : Nat) :
    hashFunction (s ++ [b]) = Int.tmod (hashFunction s * 31 + charValue b) HASH_SIZE := by
  simp [hashFunction, List.foldl_append]

theorem charValue_of_lt {b : Nat} (h : b < 128) : charValue b = (b : Int) := by
  simp [charValue, h]

/-- On keys made of bytes below `0x80` the code computes the fold of the specification. -/
theorem hashFunction_eq_hashFold (key : List Nat) (h : ∀ b ∈ key, b < 128) :
    hashFunction key = (hashFold key : Int) := by
  induction key using List.reverseRecOn with
  | nil => rfl
  | append_singleton s b ih =>
    have hs : ∀ x ∈ s, x < 128 := fun x hx => h x (by simp [hx])
    have hb : b < 128 := h b (by simp)
    rw [hashFunction_append, ih hs, charValue_of_lt hb]
    have : hashFold (s ++ [b]) = (hashFold s * 31 + b) % HASH_SIZE := by
      simp [hashFold, List.foldl_append]
    rw [this, Int.tmod_eq_emod (by positivity) (by decide)]
    push_cast
    rfl

theorem hashFold_lt (key : List Nat) : hashFold key < HASH_SIZE := by
  induction key using List.reverseRecOn with
  | nil => decide
  | append_singleton s b _ =>
    simp only [hashFold, List.foldl_append, List.foldl_cons, List.foldl_nil]
    exact Nat.mod_lt _ (by decide)

/-- On keys made of bytes below `0x80` the hash designates a slot of the table. -/
theorem validIndex_hashFunction (key : List Nat) (h : ∀ b ∈ key, b < 128) :
    validIndex (hashFunction key) := by
  rw [hashFunction_eq_hashFold key h]
  refine ⟨by positivity, ?_⟩
  exact_mod_cast hashFold_lt key

/-! ## Slots of the table -/

theorem toNat_lt_of_validIndex {i : Int} (h : validIndex i) : i.toNat < HASH_SIZE := by
  obtain ⟨h0, h1⟩ := h
  omega

theorem bucketAt_of_valid {t : HashTable} {i : Int} (ht : WellSized t) (hi : validIndex i) :
    ∃ chain, bucketAt t i = some chain ∧ t[i.toNat]? = some chain := by
  have hlt : i.toNat < t.length := by rw [ht]; exact toNat_lt_of_validIndex hi
  refine ⟨t[i.toNat], ?_, ?_⟩
  · simp [bucketAt, hi, List.getElem?_eq_getElem hlt]
  · exact List.getElem?_eq_getElem hlt

theorem bucketAt_eq_some {t : HashTable} {i : Int} {chain : List LocationNode}
    (h : bucketAt t i = some chain) : validIndex i ∧ t[i.toNat]? = some chain := by
  unfold bucketAt at h
  split at h
  · exact ⟨by assumption, h⟩
  · cases h

theorem bucketAt_set_same {t : HashTable} {i : Int} (ht : WellSized t) (hi : validIndex i)
    (c : List LocationNode) : bucketAt (t.set i.toNat c) i = some c := by
  have hlt : i.toNat < t.length := by rw [ht]; exact toNat_lt_of_validIndex hi
  simp [bucketAt, hi, List.getElem?_set_self hlt]

theorem bucketAt_set_other {t : HashTable} {i j : Int} (hi : validIndex i) (hj : validIndex j)
    (hij : i ≠ j) (c : List LocationNode) : bucketAt (t.set i.toNat c) j = bucketAt t j := by
  have hne : i.toNat ≠ j.toNat := by
    obtain ⟨h0, _⟩ := hi
    obtain ⟨h1, _⟩ := hj
    omega
  simp [bucketAt, hj, List.getElem?_set_ne hne]

theorem wellSized_set {t : HashTable} (ht : WellSized t) (i : Nat) (c : List LocationNode) :
    WellSized (t.set i c) := by
  simpa [WellSized] using ht

theorem wellSized_emptyTable : WellSized emptyTable := by
  simp [WellSized, emptyTable]

/-- With a valid index `insertLocation` puts the new node in front of the chain. -/
theorem insertLocation_of_valid {t : HashTable} (ht : WellSized t)
    (key building floor room desc : List Nat) (hi : validIndex (hashFunction key)) :
    ∃ chain, bucketAt t (hashFunction key) = some chain ∧
      insertLocation key building floor room desc t =
        some (t.set (hashFunction key).toNat
          ({ key := strncpyField MAX_ID_LENGTH key
             building := strncpyField MAX_NAME_LENGTH building
             floor := strncpyField MAX_ID_LENGTH floor
             room := strncpyField MAX_ID_LENGTH room
             description := strncpyField MAX_NAME_LENGTH desc } :: chain)) := by
  obtain ⟨chain, hb, _⟩ := bucketAt_of_valid ht hi
  exact ⟨chain, hb, by simp [insertLocation, hb]⟩

theorem strncpyField_of_lt {n : Nat} {s : List Nat} (h : s.length < n) :
    strncpyField n s = s := by
  unfold strncpyField
  exact List.take_of_length_le (by omega)

/-! ## Chains -/

theorem searchChain_of_firstMatch {e : LocationNode} {chain : List LocationNode}
    (h : FirstMatch e chain) : searchChain e.key chain = SearchResult.found e := by
  obtain ⟨front, back, rfl, hfront⟩ := h
  induction front with
  | nil => simp [searchChain]
  | cons n front ih =>
    have hn : n.key ≠ e.key := hfront n (by simp)
    simp only [List.cons_append, searchChain, hn, if_false]
    exact ih (fun m hm => hfront m (by simp [hm]))

theorem firstMatch_cons {e n : LocationNode} {chain : List LocationNode}
    (h : FirstMatch e chain) (hn : n.key ≠ e.key) : FirstMatch e (n :: chain) := by
  obtain ⟨front, back, rfl, hfront⟩ := h
  refine ⟨n :: front, back, rfl, ?_⟩
  intro m hm
  rcases List.mem_cons.1 hm with rfl | hm
  · exact hn
  · exact hfront m hm

theorem firstMatch_unlinkFirst {e : LocationNode} {k : List Nat} :
    ∀ {chain rest : List LocationNode}, FirstMatch e chain → k ≠ e.key →
      unlinkFirst k chain = some rest → FirstMatch e rest := by
  intro chain
  induction chain with
  | nil => intro rest _ _ h; simp [unlinkFirst] at h
  | cons n chain ih =>
    intro rest hfm hk h
    obtain ⟨front, back, hc, hfront⟩ := hfm
    by_cases hnk : n.key = k
    · simp only [unlinkFirst, hnk, if_true, Option.some.injEq] at h
      subst h
      cases front with
      | nil =>
        simp only [List.nil_append, List.cons.injEq] at hc
        exact absurd (hc.1 ▸ hnk).symm hk
      | cons m front =>
        simp only [List.cons_append, List.cons.injEq] at hc
        exact ⟨front, back, hc.2, fun x hx => hfront x (by simp [hx])⟩
    · simp only [unlinkFirst, hnk, if_false, Option.map_eq_some'] at h
      obtain ⟨rest1, h1, rfl⟩ := h
      cases front with
      | nil =>
        simp only [List.nil_append, List.cons.injEq] at hc
        obtain ⟨rfl, rfl⟩ := hc
        exact ⟨[], rest1, rfl, by simp⟩
      | cons m front =>
        simp only [List.cons_append, List.cons.injEq] at hc
        obtain ⟨rfl, rfl⟩ := hc
        have hfm1 : FirstMatch e (front ++ e :: back) :=
          ⟨front, back, rfl, fun x hx => hfront x (by simp [hx])⟩
        exact firstMatch_cons (ih hfm1 hk h1) (hfront n (by simp))

/-! ## Lookup after insert -/

/-- One table-level operation on another key keeps `e` the first match of its chain. -/
theorem applyOp_keeps_firstMatch {e : LocationNode} {i : Int} (hi : validIndex i)
    {t : HashTable} (ht : WellSized t) {chain : List LocationNode}
    (hb : bucketAt t i = some chain) (hfm : FirstMatch e chain) (op : TableOp)
    (hop : op.storedKey ≠ e.key) (hv : validIndex (hashFunction op.key)) :
    ∃ t1 chain1, applyOp op t = some t1 ∧ WellSized t1 ∧ bucketAt t1 i = some chain1 ∧
      FirstMatch e chain1 := by
  cases op with
  | insert key building floor room desc =>
    simp only [TableOp.key] at hv
    simp only [TableOp.storedKey] at hop
    obtain ⟨c, hc, hins⟩ := insertLocation_of_valid ht key building floor room desc hv
    by_cases hij : hashFunction key = i
    · subst hij
      rw [hb] at hc
      cases hc
      exact ⟨_, _, hins, wellSized_set ht _ _, bucketAt_set_same ht hv _,
        firstMatch_cons hfm hop⟩
    · exact ⟨_, chain, hins, wellSized_set ht _ _,
        by rw [bucketAt_set_other hv hi hij, hb], hfm⟩
  | delete key =>
    simp only [TableOp.key] at hv
    simp only [TableOp.storedKey] at hop
    obtain ⟨c, hc, _⟩ := bucketAt_of_valid ht hv
    cases hu : unlinkFirst key c with
    | none =>
      exact ⟨t, chain, by simp [applyOp, deleteNode, hc, hu], ht, hb, hfm⟩
    | some c1 =>
      refine ⟨t.set (hashFunction key).toNat c1, ?_⟩
      by_cases hij : hashFunction key = i
      · subst hij
        rw [hb] at hc
        cases hc
        exact ⟨c1, by simp [applyOp, deleteNode, hb, hu], wellSized_set ht _ _,
          bucketAt_set_same ht hv _, firstMatch_unlinkFirst hfm hop hu⟩
      · exact ⟨chain, by simp [applyOp, deleteNode, hc, hu], wellSized_set ht _ _,
          by rw [bucketAt_set_other hv hi hij, hb], hfm⟩

theorem applyOps_keeps_firstMatch {e : LocationNode} {i : Int} (hi : validIndex i)
    (ops : List TableOp) :
    ∀ {t : HashTable}, WellSized t → ∀ {chain : List LocationNode},
      bucketAt t i = some chain → FirstMatch e chain →
      (∀ op ∈ ops, op.storedKey ≠ e.key ∧ validIndex (hashFunction op.key)) →
      ∃ t1 chain1, applyOps ops t = some t1 ∧ WellSized t1 ∧ bucketAt t1 i = some chain1 ∧
        FirstMatch e chain1 := by
  induction ops with
  | nil => intro t ht chain hb hfm _; exact ⟨t, chain, rfl, ht, hb, hfm⟩
  | cons op ops ih =>
    intro t ht chain hb hfm hops
    obtain ⟨hop, hv⟩ := hops op (by simp)
    obtain ⟨t1, chain1, h1, ht1, hb1, hfm1⟩ := applyOp_keeps_firstMatch hi ht hb hfm op hop hv
    obtain ⟨t2, chain2, h2, ht2, hb2, hfm2⟩ :=
      ih ht1 hb1 hfm1 (fun o ho => hops o (by simp [ho]))
    exact ⟨t2, chain2, by simp [applyOps, h1, h2], ht2, hb2, hfm2⟩

/-- C1 (amended): for every table, every entry whose fields fit the node (key, floor, room
below 15 bytes, building, description below 100 bytes) and whose key hashes to a slot of the
table, after `insertLocation` and any further table-level inserts and deletes whose keys
hash to a slot and whose stored key (for an insert: the key cut to 14 bytes) differs from
`K`, the search for `K` finds a node whose five fields are exactly those of the entry. -/
theorem lookup_after_insert (t : HashTable) (K b f r d : List Nat) (ops : List TableOp)
    (ht : WellSized t) (hi : validIndex (hashFunction K))
    (hK : K.length < MAX_ID_LENGTH) (hb : b.length < MAX_NAME_LENGTH)
    (hf : f.length < MAX_ID_LENGTH) (hr : r.length < MAX_ID_LENGTH)
    (hd : d.length < MAX_NAME_LENGTH)
    (hops : ∀ op ∈ ops, op.storedKey ≠ K ∧ validIndex (hashFunction op.key)) :
    ∃ t1 t2, insertLocation K b f r d t = some t1 ∧ applyOps ops t1 = some t2 ∧
      searchByKey K t2 =
        some (SearchResult.found
          { key := K, building := b, floor := f, room := r, description := d }) := by
  obtain ⟨chain, _, hins⟩ := insertLocation_of_valid ht K b f r d hi
  rw [strncpyField_of_lt hK, strncpyField_of_lt hb, strncpyField_of_lt hf,
    strncpyField_of_lt hr, strncpyField_of_lt hd] at hins
  have hfm : FirstMatch { key := K, building := b, floor := f, room := r, description := d }
      ({ key := K, building := b, floor := f, room := r, description := d } :: chain) :=
    ⟨[], chain, rfl, by simp⟩
  obtain ⟨t2, chain2, h2, _, hb2, hfm2⟩ :=
    applyOps_keeps_firstMatch hi ops (wellSized_set ht _ _) (bucketAt_set_same ht hi _) hfm hops
  refine ⟨_, t2, hins, h2, ?_⟩
  simp only [searchByKey, hb2, Option.map_some']
  exact congrArg some (searchChain_of_firstMatch hfm2)

/-- C1 (witness): `c_lab` is inserted into the empty table, then `library` is inserted and
deleted and the absent key `gym` is deleted; the search for `c_lab` returns the entry. -/
theorem lookup_after_insert_witness :
    ∃ t1 t2,
      insertLocation (ascii "c_lab") (ascii "Engineering Hall") (ascii "2nd") (ascii "204")
        (ascii "Computer Lab") emptyTable = some t1 ∧
      applyOps
        [TableOp.insert (ascii "library") (ascii "Main Block") (ascii "1st") (ascii "101")
          (ascii "Central Library"), TableOp.delete (ascii "library"),
          TableOp.delete (ascii "gym")] t1 = some t2 ∧
      searchByKey (ascii "c_lab") t2 =
        some (SearchResult.found
          { key := ascii "c_lab", building := ascii "Engineering Hall", floor := ascii "2nd",
            room := ascii "204", description := ascii "Computer Lab" }) :=
  lookup_after_insert emptyTable (ascii "c_lab") (ascii "Engineering Hall") (ascii "2nd")
    (ascii "204") (ascii "Computer Lab") _ wellSized_emptyTable (by decide) (by decide)
    (by decide) (by decide) (by decide) (by decide) (by decide)

/-- C1 (counterexample): an entry whose key has 15 bytes is inserted into the empty table
and nothing else is done; the insert stores the key cut to `physics_lab_on`, and the search
for the key `physics_lab_one` finds no node. -/
theorem lookup_fails_for_long_key :
    (insertLocation (ascii "physics_lab_one") (ascii "Science Block") (ascii "1st")
        (ascii "101") (ascii "Physics Lab") emptyTable).map allEntries =
      some [{ key := ascii "physics_lab_on", building := ascii "Science Block",
              floor := ascii "1st", room := ascii "101", description := ascii "Physics Lab" }] ∧
    (insertLocation (ascii "physics_lab_one") (ascii "Science Block") (ascii "1st")
        (ascii "101") (ascii "Physics Lab") emptyTable).bind
      (searchByKey (ascii "physics_lab_one")) = some SearchResult.notFound := by
  decide

/-! ## Shadowing -/

/-- C5 (amended): for every table and two entries with the same key `K`, all of whose fields
fit the node and whose key hashes to a slot of the table, after the two inserts the chain of
that slot is the second entry, then the first, then the previous chain, and the search for
`K` returns the second entry. -/
theorem shadowing_after_two_inserts (t : HashTable) (K b1 f1 r1 d1 b2 f2 r2 d2 : List Nat)
    (ht : WellSized t) (hi : validIndex (hashFunction K)) (hK : K.length < MAX_ID_LENGTH)
    (hb1 : b1.length < MAX_NAME_LENGTH) (hf1 : f1.length < MAX_ID_LENGTH)
    (hr1 : r1.length < MAX_ID_LENGTH) (hd1 : d1.length < MAX_NAME_LENGTH)
    (hb2 : b2.length < MAX_NAME_LENGTH) (hf2 : f2.length < MAX_ID_LENGTH)
    (hr2 : r2.length < MAX_ID_LENGTH) (hd2 : d2.length < MAX_NAME_LENGTH) :
    ∃ chain t1 t2, bucketAt t (hashFunction K) = some chain ∧
      insertLocation K b1 f1 r1 d1 t = some t1 ∧ insertLocation K b2 f2 r2 d2 t1 = some t2 ∧
      bucketAt t2 (hashFunction K) =
        some ({ key := K, building := b2, floor := f2, room := r2, description := d2 } ::
          { key := K, building := b1, floor := f1, room := r1, description := d1 } :: chain) ∧
      searchByKey K t2 =
        some (SearchResult.found
          { key := K, building := b2, floor := f2, room := r2, description := d2 }) := by
  obtain ⟨chain, hc, h1⟩ := insertLocation_of_valid ht K b1 f1 r1 d1 hi
  obtain ⟨chain1, hc1, h2⟩ :=
    insertLocation_of_valid (wellSized_set ht (hashFunction K).toNat
      ({ key := strncpyField MAX_ID_LENGTH K
         building := strncpyField MAX_NAME_LENGTH b1
         floor := strncpyField MAX_ID_LENGTH f1
         room := strncpyField MAX_ID_LENGTH r1
         description := strncpyField MAX_NAME_LENGTH d1 } :: chain)) K b2 f2 r2 d2 hi
  rw [bucketAt_set_same ht hi] at hc1
  cases hc1
  rw [strncpyField_of_lt hK, strncpyField_of_lt hb1, strncpyField_of_lt hf1,
    strncpyField_of_lt hr1, strncpyField_of_lt hd1] at h1 h2
  rw [strncpyField_of_lt hb2, strncpyField_of_lt hf2,
    strncpyField_of_lt hr2, strncpyField_of_lt hd2] at h2
  refine ⟨chain, _, _, hc, h1, h2, ?_, ?_⟩
  · exact bucketAt_set_same (wellSized_set ht _ _) hi _
  · rw [searchByKey, bucketAt_set_same (wellSized_set ht _ _) hi]
    simp [searchChain]

/-- C5 (witness): two entries with key `c_lab` inserted into the empty table. -/
theorem shadowing_after_two_inserts_witness :
    ∃ chain t1 t2, bucketAt emptyTable (hashFunction (ascii "c_lab")) = some chain ∧
      insertLocation (ascii "c_lab") (ascii "Engineering Hall") (ascii "2nd") (ascii "204")
        (ascii "Computer Lab") emptyTable = some t1 ∧
      insertLocation (ascii "c_lab") (ascii "Science Block") (ascii "3rd") (ascii "310")
        (ascii "Chemistry Lab") t1 = some t2 ∧
      bucketAt t2 (hashFunction (ascii "c_lab")) =
        some ({ key := ascii "c_lab", building := ascii "Science Block", floor := ascii "3rd",
                room := ascii "310", description := ascii "Chemistry Lab" } ::
          { key := ascii "c_lab", building := ascii "Engineering Hall", floor := ascii "2nd",
            room := ascii "204", description := ascii "Computer Lab" } :: chain) ∧
      searchByKey (ascii "c_lab") t2 =
        some (SearchResult.found
          { key := ascii "c_lab", building := ascii "Science Block", floor := ascii "3rd",
            room := ascii "310", description := ascii "Chemistry Lab" }) :=
  shadowing_after_two_inserts emptyTable (ascii "c_lab") (ascii "Engineering Hall")
    (ascii "2nd") (ascii "204") (ascii "Computer Lab") (ascii "Science Block") (ascii "3rd")
    (ascii "310") (ascii "Chemistry Lab") wellSized_emptyTable (by decide) (by decide)
    (by decide) (by decide) (by decide) (by decide) (by decide) (by decide) (by decide)
    (by decide)

/-- C5 (counterexample): two entries with the same 15-byte key and different other fields
are inserted into the empty table; the search for that key returns no node, hence not the
second entry. -/
theorem shadowing_fails_for_long_key :
    (insertLocation (ascii "admin_office_02") (ascii "Main Block") (ascii "1st") (ascii "12")
        (ascii "Registrar") emptyTable).bind
      (fun t1 =>
        (insertLocation (ascii "admin_office_02") (ascii "Annex") (ascii "2nd") (ascii "21")
          (ascii "Accounts") t1).bind
        (searchByKey (ascii "admin_office_02")))
      = some SearchResult.notFound := by
  decide

/-! ## The hash function on bytes above `0x7f` -/

/-- C6 (the code at the failing input): for the key `"é"` in UTF-8 (bytes `0xC3 0xA9`) the
hash is `-28`, which is no slot of the table, and `insertLocation` and the search index the
table outside its bounds. -/
theorem hashFunction_negative_index :
    hashFunction [0xC3, 0xA9] = -28 ∧ ¬ validIndex (hashFunction [0xC3, 0xA9]) ∧
      insertLocation [0xC3, 0xA9] (ascii "Cafeteria") (ascii "1st") (ascii "5")
        (ascii "Cafe") emptyTable = none ∧
      searchByKey [0xC3, 0xA9] emptyTable = none := by
  decide

/-- C7 (the code at the failing input): for the one-byte key `0x80` the code returns `-28`
where the fold of the specification gives `28`, and appending the byte `0x80` to the key
`"a"` gives `29` where the step `(hash("a") * 31 + 0x80) mod 50` gives `35`. -/
theorem hashFunction_differs_from_hashFold :
    hashFunction [0x80] = -28 ∧ hashFold [0x80] = 28 ∧
      hashFunction ([97] ++ [0x80]) = 29 ∧ hashFunction [97] = 47 ∧
      (47 * 31 + 0x80) % 50 = 35 := by
  decide

/-! ## Adding through the menu -/

set_option maxRecDepth 100000

/-- C2 (the code at the failing input): starting from an empty data file, `addLocationMenu`
is run for ("library", "Main Block", "1st", "101", "Central Library") and then for
("gym", "Sports Complex", "Ground", "G2", "Fitness Centre"), and the file is loaded again;
the table then holds two entries whose building, floor and room repeat the description
(the floor and room cut to 14 bytes), not the tuples that were entered. -/
theorem addLocationMenu_roundtrip_loses_fields :
    (((addLocationMenu (adminSession emptyTable (some [])
        (ascii "library\nMain Block\n1st\n101\nCentral Library\n" ++
          ascii "gym\nSports Complex\nGround\nG2\nFitness Centre\n"))).bind
        addLocationMenu).bind loadLocationData).map (fun s => allEntries s.hashTable) =
      some [{ key := ascii "library", building := ascii "Central Library",
              floor := ascii "Central Librar", room := ascii "Central Librar",
              description := ascii "Central Library" },
            { key := ascii "gym", building := ascii "Fitness Centre",
              floor := ascii "Fitness Centre", room := ascii "Fitness Centre",
              description := ascii "Fitness Centre" }] := by
  decide

/-- C3 (the code at the failing input): for the input ("c_lab", "Engineering Hall", "2nd",
"204", "Computer Lab") `addLocationMenu` reports success, the line it writes is
`c_lab;Computer Lab;Computer Lab;Computer Lab;Computer Lab`, and the search for `c_lab`
returns "Computer Lab" as building, floor and room. -/
theorem addLocationMenu_writes_description_four_times :
    (addLocationMenu (adminSession emptyTable (some [])
        (ascii "c_lab\nEngineering Hall\n2nd\n204\nComputer Lab\n"))).map
      (fun s => (s.output, s.file.content, searchByKey (ascii "c_lab") s.hashTable)) =
      some ([Msg.addSuccess (ascii "c_lab")],
        some (ascii "c_lab;Computer Lab;Computer Lab;Computer Lab;Computer Lab\n"),
        some (SearchResult.found
          { key := ascii "c_lab", building := ascii "Computer Lab",
            floor := ascii "Computer Lab", room := ascii "Computer Lab",
            description := ascii "Computer Lab" })) := by
  decide

/-! ## Delete -/

theorem unlinkFirst_eq_some {k : List Nat} :
    ∀ {chain rest : List LocationNode}, unlinkFirst k chain = some rest →
      ∃ front n back, chain = front ++ n :: back ∧ n.key = k ∧ rest = front ++ back ∧
        ∀ x ∈ front, x.key ≠ k := by
  intro chain
  induction chain with
  | nil => intro rest h; simp [unlinkFirst] at h
  | cons m chain ih =>
    intro rest h
    by_cases hm : m.key = k
    · simp only [unlinkFirst, hm, if_true, Option.some.injEq] at h
      exact ⟨[], m, chain, rfl, hm, by simp [h], by simp⟩
    · simp only [unlinkFirst, hm, if_false, Option.map_eq_some'] at h
      obtain ⟨rest1, h1, rfl⟩ := h
      obtain ⟨front, n, back, rfl, hn, rfl, hfront⟩ := ih h1
      refine ⟨m :: front, n, back, rfl, hn, rfl, ?_⟩
      intro x hx
      rcases List.mem_cons.1 hx with rfl | hx
      · exact hm
      · exact hfront x hx

theorem unlinkFirst_of_mem {k : List Nat} :
    ∀ {chain : List LocationNode}, (∃ n ∈ chain, n.key = k) →
      ∃ rest, unlinkFirst k chain = some rest := by
  intro chain
  induction chain with
  | nil => rintro ⟨n, hn, _⟩; cases hn
  | cons m chain ih =>
    rintro ⟨n, hn, hk⟩
    by_cases hm : m.key = k
    · exact ⟨chain, by simp [unlinkFirst, hm]⟩
    · rcases List.mem_cons.1 hn with rfl | hn
      · exact absurd hk hm
      · obtain ⟨rest, hrest⟩ := ih ⟨n, hn, hk⟩
        exact ⟨m :: rest, by simp [unlinkFirst, hm, hrest]⟩

theorem searchChain_notFound {k : List Nat} :
    ∀ {chain : List LocationNode}, (∀ n ∈ chain, n.key ≠ k) →
      searchChain k chain = SearchResult.notFound := by
  intro chain
  induction chain with
  | nil => intro _; rfl
  | cons m chain ih =>
    intro h
    have hm : m.key ≠ k := h m (by simp)
    simp only [searchChain, hm, if_false]
    exact ih (fun n hn => h n (by simp [hn]))

theorem table_split {t : HashTable} {i : Nat} {chain : List LocationNode}
    (h : t[i]? = some chain) (c : List LocationNode) :
    t = t.take i ++ chain :: t.drop (i + 1) ∧ t.set i c = t.take i ++ c :: t.drop (i + 1) := by
  obtain ⟨hlt, hget⟩ := List.getElem?_eq_some.1 h
  constructor
  · conv_lhs => rw [← List.take_append_drop i t, List.drop_eq_getElem_cons hlt, hget]
  · exact List.set_eq_take_cons_drop c hlt

/-- C4 (amended): for every state whose table holds at most one node with key `K`, when
`K` is found in the chain of its slot and the file can be opened for writing, the delete
reports success, a following search for `K` finds nothing, and the file written consists of
the two header lines and the lines of the remaining nodes, none of which has key `K`. -/
theorem delete_removes_unique_key (s : State) (K : List Nat)
    (hw : s.file.canWrite = true)
    (hpresent : ∃ chain, bucketAt s.hashTable (hashFunction K) = some chain ∧
      ∃ n ∈ chain, n.key = K)
    (huniq : (allEntries s.hashTable).countP (fun n => decide (n.key = K)) ≤ 1) :
    ∃ s1, deleteLocationFor K s = some s1 ∧
      s1.output = s.output ++ [Msg.deleteSuccess K] ∧
      searchByKey K s1.hashTable = some SearchResult.notFound ∧
      s1.file.content = some (fileHeader ++ (allEntries s1.hashTable).flatMap formatNode) ∧
      ∀ n ∈ allEntries s1.hashTable, n.key ≠ K := by
  obtain ⟨chain, hb, hmem⟩ := hpresent
  obtain ⟨hv, hget⟩ := bucketAt_eq_some hb
  obtain ⟨rest, hrest⟩ := unlinkFirst_of_mem hmem
  obtain ⟨front, n, back, rfl, hn, rfl, -⟩ := unlinkFirst_eq_some hrest
  obtain ⟨hsplit, hset⟩ := table_split hget (front ++ back)
  have hlt : (hashFunction K).toNat < s.hashTable.length :=
    (List.getElem?_eq_some.1 hget).1
  -- every node other than the one unlinked has another key
  have hall : ∀ m ∈ allEntries (s.hashTable.set (hashFunction K).toNat (front ++ back)),
      m.key ≠ K := by
    rw [hsplit] at huniq
    simp only [allEntries, List.flatten_append, List.flatten_cons, List.countP_append,
      List.countP_cons, hn, decide_True, if_true] at huniq
    intro m hm
    rw [hset] at hm
    simp only [allEntries, List.flatten_append, List.flatten_cons, List.mem_append] at hm
    have hzero : ∀ l : List LocationNode,
        List.countP (fun n => decide (n.key = K)) l = 0 → m ∈ l → m.key ≠ K := by
      intro l hl hml
      have := (List.countP_eq_zero.1 hl) m hml
      simpa using this
    rcases hm with hm | (hm | hm) | hm
    · exact hzero _ (by omega) hm
    · exact hzero _ (by omega) hm
    · exact hzero _ (by omega) hm
    · exact hzero _ (by omega) hm
  have hdel : deleteNode K s.hashTable =
      some (true, s.hashTable.set (hashFunction K).toNat (front ++ back)) := by
    simp [deleteNode, hb, hrest]
  refine ⟨_, by simp only [deleteLocationFor, hdel]; rfl, ?_, ?_, ?_, ?_⟩
  · simp [rewriteLocationFile, hw, State.print]
  · have hb1 : bucketAt (s.hashTable.set (hashFunction K).toNat (front ++ back))
        (hashFunction K) = some (front ++ back) := by
      simp [bucketAt, hv, List.getElem?_set_self hlt]
    simp only [rewriteLocationFile, hw, if_true, State.print, searchByKey, hb1,
      Option.map_some']
    refine congrArg some (searchChain_notFound ?_)
    intro m hm
    refine hall m ?_
    rw [hset]
    simp only [allEntries, List.flatten_append, List.flatten_cons, List.mem_append]
    exact Or.inr (Or.inl (List.mem_append.1 hm))
  · simp [rewriteLocationFile, hw, State.print]
  · simpa [rewriteLocationFile, hw, State.print] using hall

/-- C4 (witness): the table holds the single entry `c_lab` and no data file exists yet. -/
theorem delete_removes_unique_key_witness :
    ∃ s1, deleteLocationFor (ascii "c_lab")
        (adminSession (emptyTable.set 17
          [{ key := ascii "c_lab", building := ascii "Engineering Hall", floor := ascii "2nd",
             room := ascii "204", description := ascii "Computer Lab" }]) none []) = some s1 ∧
      s1.output = [] ++ [Msg.deleteSuccess (ascii "c_lab")] ∧
      searchByKey (ascii "c_lab") s1.hashTable = some SearchResult.notFound ∧
      s1.file.content = some (fileHeader ++ (allEntries s1.hashTable).flatMap formatNode) ∧
      ∀ n ∈ allEntries s1.hashTable, n.key ≠ ascii "c_lab" :=
  delete_removes_unique_key
    (adminSession (emptyTable.set 17
      [{ key := ascii "c_lab", building := ascii "Engineering Hall", floor := ascii "2nd",
         room := ascii "204", description := ascii "Computer Lab" }]) none [])
    (ascii "c_lab") (by decide)
    ⟨[{ key := ascii "c_lab", building := ascii "Engineering Hall", floor := ascii "2nd",
        room := ascii "204", description := ascii "Computer Lab" }], by decide,
      { key := ascii "c_lab", building := ascii "Engineering Hall", floor := ascii "2nd",
        room := ascii "204", description := ascii "Computer Lab" }, by decide, by decide⟩
    (by decide)

/-- C4 (counterexample): the data file holds two lines with the key `c_lab`; after
`loadLocationData`, `deleteLocationMenu` for `c_lab` reports success, yet the search for
`c_lab` still finds a node and the rewritten file still holds a line with key `c_lab`. -/
theorem delete_leaves_duplicate_key :
    ((loadLocationData (adminSession emptyTable
        (some (ascii "c_lab;Engineering Hall;2nd;204;Computer Lab\n" ++
          ascii "c_lab;Science Block;3rd;310;Chemistry Lab\n"))
        (ascii "c_lab\n"))).bind deleteLocationMenu).map
      (fun s => (s.output, searchByKey (ascii "c_lab") s.hashTable, s.file.content)) =
      some ([Msg.deleteSuccess (ascii "c_lab")],
        some (SearchResult.found
          { key := ascii "c_lab", building := ascii "Engineering Hall", floor := ascii "2nd",
            room := ascii "204", description := ascii "Computer Lab" }),
        some (fileHeader ++ ascii "c_lab;Engineering Hall;2nd;204;Computer Lab\n")) := by
  decide

/-! ## Reading the file -/

theorem fgetsRead_append (m : Nat) (s : List Nat) :
    (fgetsRead m s).1 ++ (fgetsRead m s).2 = s := by
  induction s generalizing m with
  | nil => cases m <;> simp [fgetsRead]
  | cons c s ih =>
    cases m with
    | zero => simp [fgetsRead]
    | succ m =>
      by_cases hc : c = 10
      · simp [fgetsRead, hc]
      · simp [fgetsRead, hc, ih m]

theorem fgetsRead_rest_length (m : Nat) (c : Nat) (s : List Nat) :
    (fgetsRead (m + 1) (c :: s)).2.length ≤ s.length := by
  have h := congrArg List.length (fgetsRead_append (m + 1) (c :: s))
  have h1 : 1 ≤ (fgetsRead (m + 1) (c :: s)).1.length := by
    by_cases hc : c = 10 <;> simp [fgetsRead, hc]
  simp only [List.length_append, List.length_cons] at h
  omega

theorem loadLoop_nil (fuel : Nat) (t : HashTable) : loadLoop (fuel + 1) [] t = some t := by
  simp [loadLoop, fgets]

theorem loadLoop_cons (fuel : Nat) (c : Nat) (s : List Nat) (t : HashTable) :
    loadLoop (fuel + 1) (c :: s) t =
      (processLine (fgetsRead 255 (c :: s)).1 t).bind
        (loadLoop fuel (fgetsRead 255 (c :: s)).2) := by
  simp only [loadLoop, fgets]
  cases processLine (fgetsRead (MAX_LINE_LENGTH - 1) (c :: s)).1 t <;> rfl

theorem loadLoop_fuel : ∀ (f1 f2 : Nat) (s : List Nat) (t : HashTable),
    s.length < f1 → s.length < f2 → loadLoop f1 s t = loadLoop f2 s t := by
  intro f1
  induction f1 with
  | zero => intro f2 s t h; omega
  | succ f1 ih =>
    intro f2 s t h1 h2
    cases f2 with
    | zero => omega
    | succ f2 =>
      cases s with
      | nil => rw [loadLoop_nil, loadLoop_nil]
      | cons c s =>
        rw [loadLoop_cons, loadLoop_cons]
        have hlen : (fgetsRead 255 (c :: s)).2.length ≤ s.length := fgetsRead_rest_length 254 c s
        simp only [List.length_cons] at h1 h2
        cases processLine (fgetsRead 255 (c :: s)).1 t with
        | none => rfl
        | some t1 =>
          simp only [Option.some_bind]
          exact ih f2 _ t1 (by omega) (by omega)

theorem loadLines_nil (t : HashTable) : loadLines [] t = some t := by
  simp [loadLines, loadLoop_nil]

theorem loadLines_cons (c : Nat) (s : List Nat) (t : HashTable) :
    loadLines (c :: s) t =
      (processLine (fgetsRead 255 (c :: s)).1 t).bind
        (loadLines (fgetsRead 255 (c :: s)).2) := by
  unfold loadLines
  rw [List.length_cons, loadLoop_cons]
  have hlen : (fgetsRead 255 (c :: s)).2.length ≤ s.length := fgetsRead_rest_length 254 c s
  cases processLine (fgetsRead 255 (c :: s)).1 t with
  | none => rfl
  | some t1 =>
    simp only [Option.some_bind]
    exact loadLoop_fuel _ _ _ t1 (by omega) (by omega)

/-- Reading inside a piece that ends with a newline never runs into what follows it. -/
theorem fgetsRead_lineAligned (rest : List Nat) :
    ∀ (m : Nat) (front : List Nat), front ≠ [] → front.getLast? = some 10 →
      fgetsRead m (front ++ rest) = ((fgetsRead m front).1, (fgetsRead m front).2 ++ rest) ∧
        LineAligned (fgetsRead m front).2 := by
  intro m front
  induction front generalizing m with
  | nil => intro h; exact absurd rfl h
  | cons c front ih =>
    intro _ hlast
    cases m with
    | zero => exact ⟨by simp [fgetsRead], Or.inr hlast⟩
    | succ m =>
      by_cases hc : c = 10
      · subst hc
        refine ⟨by simp [fgetsRead], ?_⟩
        cases front with
        | nil => exact Or.inl (by simp [fgetsRead])
        | cons d front =>
          refine Or.inr ?_
          simpa [fgetsRead, List.getLast?_cons_cons] using hlast
      · cases front with
        | nil => simp at hlast; exact absurd hlast hc
        | cons d front =>
          have hlast1 : (d :: front).getLast? = some 10 := by
            simpa [List.getLast?_cons_cons] using hlast
          obtain ⟨h1, h2⟩ := ih m (by simp) hlast1
          refine ⟨?_, ?_⟩
          · simp only [List.cons_append] at h1 ⊢
            simp [fgetsRead, hc, h1]
          · simpa [fgetsRead, hc] using h2

/-- The read loop on a piece that ends at a line end, followed by more text: the piece is
read on its own, then the rest. -/
theorem loadLines_append (rest : List Nat) :
    ∀ (n : Nat) (front : List Nat) (t : HashTable), front.length ≤ n → LineAligned front →
      loadLines (front ++ rest) t = (loadLines front t).bind (loadLines rest) := by
  intro n
  induction n with
  | zero =>
    intro front t hlen _
    have : front = [] := List.length_eq_zero.1 (by omega)
    subst this
    simp [loadLines_nil]
  | succ n ih =>
    intro front t hlen hal
    cases front with
    | nil => simp [loadLines_nil]
    | cons c front =>
      have hlast : (c :: front).getLast? = some 10 := by
        rcases hal with h | h
        · cases h
        · exact h
      obtain ⟨h1, h2⟩ := fgetsRead_lineAligned rest 255 (c :: front) (by simp) hlast
      have hlen2 : (fgetsRead 255 (c :: front)).2.length ≤ front.length :=
        fgetsRead_rest_length 254 c front
      rw [List.cons_append, loadLines_cons, loadLines_cons]
      rw [← List.cons_append, h1]
      cases processLine (fgetsRead 255 (c :: front)).1 t with
      | none => rfl
      | some t1 =>
        simp only [Option.some_bind]
        exact ih _ t1 (by simp only [List.length_cons] at hlen; omega) h2

/-! ## Lines that do not yield five fields -/

theorem tokenCount_flag (s : List Nat) :
    tokenCount true s ≤ tokenCount false s ∧ tokenCount false s ≤ tokenCount true s + 1 := by
  cases s with
  | nil => simp [tokenCount]
  | cons c s =>
    by_cases hc : c = 59
    · simp [tokenCount, hc]
    · simp only [tokenCount, hc, if_false]
      constructor
      · simp
      · simp [Nat.add_comm]

theorem tokenCount_suffix (a s : List Nat) :
    tokenCount false s ≤ tokenCount false (a ++ s) := by
  induction a with
  | nil => simp
  | cons c a ih =>
    by_cases hc : c = 59
    · simpa [tokenCount, hc] using ih
    · have := (tokenCount_flag (a ++ s)).2
      simp only [List.cons_append, tokenCount, hc, if_false]
      simp
      omega

theorem tokenCount_front (a s : List Nat) (inside : Bool) :
    tokenCount inside a ≤ tokenCount inside (a ++ s) := by
  induction a generalizing inside with
  | nil => simp [tokenCount]
  | cons c a ih =>
    by_cases hc : c = 59
    · simpa [tokenCount, hc] using ih false
    · simp only [List.cons_append, tokenCount, hc, if_false]
      exact Nat.add_le_add_left (ih true) _

theorem tokenCount_after_token (s : List Nat) :
    tokenCount true s = tokenCount false ((s.dropWhile (fun x => x != 59)).drop 1) := by
  induction s with
  | nil => rfl
  | cons c s ih =>
    by_cases hc : c = 59
    · simp [tokenCount, hc, List.dropWhile_cons]
    · simp [tokenCount, hc, List.dropWhile_cons, ih]

theorem strtok_none {s : List Nat} (h : strtok s = none) : tokenCount false s = 0 := by
  induction s with
  | nil => rfl
  | cons c s ih =>
    by_cases hc : c = 59
    · have h1 : strtok (c :: s) = strtok s := by simp [strtok, List.dropWhile_cons, hc]
      rw [h1] at h
      simpa [tokenCount, hc] using ih h
    · simp [strtok, List.dropWhile_cons, hc] at h

theorem strtok_some {s tok rest : List Nat} (h : strtok s = some (tok, rest)) :
    tokenCount false s = tokenCount false rest + 1 := by
  induction s with
  | nil => simp [strtok] at h
  | cons c s ih =>
    by_cases hc : c = 59
    · have h1 : strtok (c :: s) = strtok s := by simp [strtok, List.dropWhile_cons, hc]
      rw [h1] at h
      simpa [tokenCount, hc] using ih h
    · simp only [strtok, List.dropWhile_cons, beq_iff_eq, hc, if_false, bne_iff_ne, ne_eq,
        not_false_eq_true, if_true, Option.some.injEq, Prod.mk.injEq] at h
      obtain ⟨-, rfl⟩ := h
      simp only [tokenCount, hc, if_false]
      rw [tokenCount_after_token]
      simp [Nat.add_comm]

theorem splitFields_none {s : List Nat} (h : splitFields s = none) : tokenCount false s < 5 := by
  unfold splitFields at h
  cases h1 : strtok s with
  | none => rw [strtok_none h1]; decide
  | some p1 =>
    obtain ⟨k, r1⟩ := p1
    rw [strtok_some h1]
    simp only [h1] at h
    cases h2 : strtok r1 with
    | none => rw [strtok_none h2]; decide
    | some p2 =>
      obtain ⟨b, r2⟩ := p2
      rw [strtok_some h2]
      simp only [h2] at h
      cases h3 : strtok r2 with
      | none => rw [strtok_none h3]; decide
      | some p3 =>
        obtain ⟨f, r3⟩ := p3
        rw [strtok_some h3]
        simp only [h3] at h
        cases h4 : strtok r3 with
        | none => rw [strtok_none h4]; decide
        | some p4 =>
          obtain ⟨r, r4⟩ := p4
          rw [strtok_some h4]
          simp only [h4] at h
          cases h5 : strtok r4 with
          | none => rw [strtok_none h5]; decide
          | some p5 =>
            obtain ⟨d, r5⟩ := p5
            simp [h5] at h

theorem splitFields_of_few_tokens {s : List Nat} (h : tokenCount false s < 5) :
    splitFields s = none := by
  cases h1 : strtok s with
  | none => simp [splitFields, h1]
  | some p1 =>
    obtain ⟨k, r1⟩ := p1
    rw [strtok_some h1] at h
    cases h2 : strtok r1 with
    | none => simp [splitFields, h1, h2]
    | some p2 =>
      obtain ⟨b, r2⟩ := p2
      rw [strtok_some h2] at h
      cases h3 : strtok r2 with
      | none => simp [splitFields, h1, h2, h3]
      | some p3 =>
        obtain ⟨f, r3⟩ := p3
        rw [strtok_some h3] at h
        cases h4 : strtok r3 with
        | none => simp [splitFields, h1, h2, h3, h4]
        | some p4 =>
          obtain ⟨r, r4⟩ := p4
          rw [strtok_some h4] at h
          cases h5 : strtok r4 with
          | none => simp [splitFields, h1, h2, h3, h4, h5]
          | some p5 =>
            obtain ⟨d, r5⟩ := p5
            rw [strtok_some h5] at h
            omega

theorem tokenCount_cstr (buf : List Nat) : tokenCount false (cstr buf) ≤ tokenCount false buf := by
  have h := List.takeWhile_append_dropWhile (fun c => c != 0) buf
  have h1 := tokenCount_front (buf.takeWhile (fun c => c != 0))
    (buf.dropWhile (fun c => c != 0)) false
  rw [h] at h1
  exact h1

theorem processLine_of_few_tokens {line : List Nat} (t : HashTable)
    (h : tokenCount false line < 5) : processLine line t = some t := by
  have h1 : splitFields (cstr line) = none :=
    splitFields_of_few_tokens (lt_of_le_of_lt (tokenCount_cstr line) h)
  unfold processLine
  simp only [h1]
  split <;> rfl

theorem loadLines_of_few_tokens :
    ∀ (n : Nat) (text : List Nat) (t : HashTable), text.length ≤ n →
      tokenCount false text < 5 → loadLines text t = some t := by
  intro n
  induction n with
  | zero =>
    intro text t hlen _
    have : text = [] := List.length_eq_zero.1 (by omega)
    subst this
    exact loadLines_nil t
  | succ n ih =>
    intro text t hlen h
    cases text with
    | nil => exact loadLines_nil t
    | cons c s =>
      have happ := fgetsRead_append 255 (c :: s)
      have hlen2 : (fgetsRead 255 (c :: s)).2.length ≤ s.length := fgetsRead_rest_length 254 c s
      have h1 : tokenCount false (fgetsRead 255 (c :: s)).1 < 5 := by
        have := tokenCount_front (fgetsRead 255 (c :: s)).1 (fgetsRead 255 (c :: s)).2 false
        rw [happ] at this
        omega
      have h2 : tokenCount false (fgetsRead 255 (c :: s)).2 < 5 := by
        have := tokenCount_suffix (fgetsRead 255 (c :: s)).1 (fgetsRead 255 (c :: s)).2
        rw [happ] at this
        omega
      rw [loadLines_cons, processLine_of_few_tokens t h1, Option.some_bind]
      exact ih _ t (by simp only [List.length_cons] at hlen; omega) h2

theorem loadLines_skips_line (front line rest : List Nat) (t : HashTable)
    (hfront : LineAligned front) (hline : LineAligned line ∨ rest = [])
    (hfields : splitFields line = none) :
    loadLines (front ++ line ++ rest) t = loadLines (front ++ rest) t := by
  have hskip : ∀ t1, loadLines line t1 = some t1 := fun t1 =>
    loadLines_of_few_tokens _ line t1 le_rfl (splitFields_none hfields)
  rw [List.append_assoc, loadLines_append _ _ front t le_rfl hfront,
    loadLines_append _ _ front t le_rfl hfront]
  congr 1
  funext t1
  rcases hline with hline | hrest
  · rw [loadLines_append _ _ line t1 le_rfl hline, hskip, Option.some_bind]
  · subst hrest
    rw [List.append_nil, hskip, loadLines_nil]

/-- C10: for every file content `front ++ line ++ rest` in which `line` starts at a line
start and ends at a line end (or at the end of the file), if the five `strtok` calls do not
all find a field in `line`, then the table `loadLocationData` builds is the one it builds
from the file `front ++ rest`, with that line removed: the line inserts nothing and the
lines before and after it are read as they are without it. -/
theorem loadLocationData_skips_line (s : State) (front line rest : List Nat)
    (hfront : LineAligned front) (hline : LineAligned line ∨ rest = [])
    (hfields : splitFields line = none) :
    (loadLocationData (s.withFileContent (front ++ line ++ rest))).map (fun s1 => s1.hashTable) =
      (loadLocationData (s.withFileContent (front ++ rest))).map (fun s1 => s1.hashTable) := by
  unfold loadLocationData State.withFileContent
  by_cases hr : s.file.canRead = true
  · simp only [hr, if_true, loadLines_skips_line front line rest emptyTable hfront hline hfields]
    cases loadLines (front ++ rest) emptyTable <;> rfl
  · simp [hr, State.print]

/-- C10 (witness): a header line, the three-field line `lobby;Main Block;Ground` and one
entry line. -/
theorem loadLocationData_skips_line_witness :
    (loadLocationData ((adminSession emptyTable none []).withFileContent
        (ascii "# Location Data File\n" ++ ascii "lobby;Main Block;Ground\n" ++
          ascii "c_lab;Engineering Hall;2nd;204;Computer Lab\n"))).map (fun s1 => s1.hashTable) =
      (loadLocationData ((adminSession emptyTable none []).withFileContent
        (ascii "# Location Data File\n" ++
          ascii "c_lab;Engineering Hall;2nd;204;Computer Lab\n"))).map (fun s1 => s1.hashTable) :=
  loadLocationData_skips_line (adminSession emptyTable none []) (ascii "# Location Data File\n")
    (ascii "lobby;Main Block;Ground\n") (ascii "c_lab;Engineering Hall;2nd;204;Computer Lab\n")
    (by decide) (by decide) (by decide)

/-! ## Trimming of the fields read from the file -/

theorem noTrailingSpace_normalizeString (text : List Nat) :
    NoTrailingSpace (normalizeString text) := by
  intro c hc
  unfold normalizeString at hc
  rw [List.getLast?_reverse] at hc
  have h := List.head?_dropWhile_not isspace text.reverse
  rw [hc] at h
  exact h

theorem normalizeString_of_noTrailingSpace {text : List Nat} (h : NoTrailingSpace text) :
    normalizeString text = text := by
  unfold normalizeString
  cases hr : text.reverse with
  | nil =>
    have : text = [] := List.reverse_eq_nil_iff.1 hr
    simp [this]
  | cons c r =>
    have hlast : text.getLast? = some c := by
      rw [List.getLast?_eq_head?_reverse, hr]
      rfl
    have hc := h c hlast
    rw [List.dropWhile_cons, hc]
    simp only [Bool.false_eq_true, if_false]
    rw [← hr, List.reverse_reverse]

theorem normalizeString_split (text : List Nat) :
    ∃ tail, text = normalizeString text ++ tail ∧ ∀ c ∈ tail, isspace c = true := by
  refine ⟨(text.reverse.takeWhile isspace).reverse, ?_, ?_⟩
  · unfold normalizeString
    rw [← List.reverse_append, List.takeWhile_append_dropWhile, List.reverse_reverse]
  · intro c hc
    exact List.mem_takeWhile_imp (List.mem_reverse.1 hc)

/-- What `loadLocationData` stores for a parsed field is, in the words of the
specification, the field with its trailing whitespace removed, cut to the capacity. -/
theorem trimmedThenCut_stored (size : Nat) (parsed : List Nat) :
    TrimmedThenCut size parsed (strncpyField size (normalizeString parsed)) := by
  obtain ⟨tail, h1, h2⟩ := normalizeString_split parsed
  exact ⟨normalizeString parsed, tail, h1, h2, noTrailingSpace_normalizeString parsed, rfl⟩

theorem trimmedThenCut_unique {size : Nat} {parsed f1 f2 : List Nat}
    (h1 : TrimmedThenCut size parsed f1) (h2 : TrimmedThenCut size parsed f2) : f1 = f2 := by
  have key : ∀ {field : List Nat}, TrimmedThenCut size parsed field →
      field = (normalizeString parsed).take (size - 1) := by
    rintro field ⟨trimmed, tail, hp, hsp, htrim, hf⟩
    have hn : normalizeString parsed = trimmed := by
      rw [hp]
      unfold normalizeString
      rw [List.reverse_append]
      have hdrop : ∀ (a b : List Nat), (∀ c ∈ a, isspace c = true) →
          (a ++ b).dropWhile isspace = b.dropWhile isspace := by
        intro a b ha
        induction a with
        | nil => rfl
        | cons c a ih =>
          rw [List.cons_append, List.dropWhile_cons, ha c (by simp)]
          exact ih (fun x hx => ha x (by simp [hx]))
      rw [hdrop _ _ (fun c hc => hsp c (List.mem_reverse.1 hc))]
      exact normalizeString_of_noTrailingSpace htrim
    rw [hf, hn]
  rw [key h1, key h2]

theorem trimmedThenCut_keeps_front {size : Nat} {parsed field : List Nat}
    (h : TrimmedThenCut size parsed field) :
    (field.length + 1 < size → NoTrailingSpace field) ∧ ∃ rest, parsed = field ++ rest := by
  obtain ⟨trimmed, tail, hp, -, htrim, hf⟩ := h
  constructor
  · intro hlen
    have hfull : field = trimmed := by
      rw [hf] at hlen ⊢
      rw [List.length_take] at hlen
      exact List.take_of_length_le (by omega)
    rw [hfull]
    exact htrim
  · refine ⟨trimmed.drop (size - 1) ++ tail, ?_⟩
    rw [hf, ← List.append_assoc, List.take_append_drop, hp]

theorem insertLocation_allEntries {P : LocationNode → Prop} {key building floor room desc : List Nat}
    {t t1 : HashTable} (h : insertLocation key building floor room desc t = some t1)
    (ht : ∀ n ∈ allEntries t, P n)
    (hnew : P { key := strncpyField MAX_ID_LENGTH key
                building := strncpyField MAX_NAME_LENGTH building
                floor := strncpyField MAX_ID_LENGTH floor
                room := strncpyField MAX_ID_LENGTH room
                description := strncpyField MAX_NAME_LENGTH desc }) :
    ∀ n ∈ allEntries t1, P n := by
  unfold insertLocation at h
  cases hb : bucketAt t (hashFunction key) with
  | none => simp [hb] at h
  | some chain =>
    simp only [hb, Option.some.injEq] at h
    subst h
    obtain ⟨_, hget⟩ := bucketAt_eq_some hb
    intro n hn
    obtain ⟨l, hl, hnl⟩ := List.mem_flatten.1 hn
    rcases List.mem_or_eq_of_mem_set hl with hl | rfl
    · exact ht n (List.mem_flatten.2 ⟨l, hl, hnl⟩)
    · rcases List.mem_cons.1 hnl with rfl | hnc
      · exact hnew
      · exact ht n (List.mem_flatten.2 ⟨chain, List.getElem?_mem hget, hnc⟩)

/-- The fields of a node as the loader leaves them. -/
theorem processLine_allEntries {P : LocationNode → Prop}
    (hP : ∀ key building floor room desc : List Nat,
      P { key := strncpyField MAX_ID_LENGTH (normalizeString key)
          building := strncpyField MAX_NAME_LENGTH (normalizeString building)
          floor := strncpyField MAX_ID_LENGTH (normalizeString floor)
          room := strncpyField MAX_ID_LENGTH (normalizeString room)
          description := strncpyField MAX_NAME_LENGTH (normalizeString desc) })
    {line : List Nat} {t t1 : HashTable} (h : processLine line t = some t1)
    (ht : ∀ n ∈ allEntries t, P n) : ∀ n ∈ allEntries t1, P n := by
  unfold processLine at h
  simp only at h
  split at h
  · cases h; exact ht
  · split at h
    · cases h; exact ht
    · exact insertLocation_allEntries h ht (hP _ _ _ _ _)

theorem loadLoop_allEntries {P : LocationNode → Prop}
    (hP : ∀ key building floor room desc : List Nat,
      P { key := strncpyField MAX_ID_LENGTH (normalizeString key)
          building := strncpyField MAX_NAME_LENGTH (normalizeString building)
          floor := strncpyField MAX_ID_LENGTH (normalizeString floor)
          room := strncpyField MAX_ID_LENGTH (normalizeString room)
          description := strncpyField MAX_NAME_LENGTH (normalizeString desc) }) :
    ∀ (fuel : Nat) (stream : List Nat) (t t1 : HashTable), loadLoop fuel stream t = some t1 →
      (∀ n ∈ allEntries t, P n) → ∀ n ∈ allEntries t1, P n := by
  intro fuel
  induction fuel with
  | zero => intro stream t t1 h; simp [loadLoop] at h
  | succ fuel ih =>
    intro stream t t1 h ht
    cases stream with
    | nil =>
      rw [loadLoop_nil] at h
      cases h
      exact ht
    | cons c s =>
      rw [loadLoop_cons] at h
      cases hp : processLine (fgetsRead 255 (c :: s)).1 t with
      | none => simp [hp] at h
      | some t2 =>
        rw [hp, Option.some_bind] at h
        exact ih _ t2 t1 h (processLine_allEntries hP hp ht)

theorem allEntries_emptyTable : allEntries emptyTable = [] := by
  decide

theorem processLine_source {line : List Nat} {t t1 : HashTable}
    (h : processLine line t = some t1) :
    ∀ n ∈ allEntries t1, n ∈ allEntries t ∨
      ∃ k b f r d, splitFields (cstr line) = some (k, b, f, r, d) ∧
        n = { key := strncpyField MAX_ID_LENGTH (normalizeString k)
              building := strncpyField MAX_NAME_LENGTH (normalizeString b)
              floor := strncpyField MAX_ID_LENGTH (normalizeString f)
              room := strncpyField MAX_ID_LENGTH (normalizeString r)
              description := strncpyField MAX_NAME_LENGTH (normalizeString d) } := by
  unfold processLine at h
  simp only at h
  split at h
  · cases h
    exact fun n hn => Or.inl hn
  · cases hs : splitFields (cstr line) with
    | none =>
      simp only [hs] at h
      cases h
      exact fun n hn => Or.inl hn
    | some p =>
      obtain ⟨k, b, f, r, d⟩ := p
      simp only [hs] at h
      intro n hn
      have hsrc := insertLocation_allEntries
        (P := fun m => m ∈ allEntries t ∨
          m = { key := strncpyField MAX_ID_LENGTH (normalizeString k)
                building := strncpyField MAX_NAME_LENGTH (normalizeString b)
                floor := strncpyField MAX_ID_LENGTH (normalizeString f)
                room := strncpyField MAX_ID_LENGTH (normalizeString r)
                description := strncpyField MAX_NAME_LENGTH (normalizeString d) })
        h (fun m hm => Or.inl hm) (Or.inr rfl) n hn
      rcases hsrc with hold | hnew
      · exact Or.inl hold
      · exact Or.inr ⟨k, b, f, r, d, rfl, hnew⟩

theorem loadLoop_source : ∀ (fuel : Nat) (stream : List Nat) (t t1 : HashTable),
    loadLoop fuel stream t = some t1 →
    ∀ n ∈ allEntries t1, n ∈ allEntries t ∨
      ∃ line ∈ fileBuffers fuel stream, ∃ k b f r d,
        splitFields (cstr line) = some (k, b, f, r, d) ∧
        n = { key := strncpyField MAX_ID_LENGTH (normalizeString k)
              building := strncpyField MAX_NAME_LENGTH (normalizeString b)
              floor := strncpyField MAX_ID_LENGTH (normalizeString f)
              room := strncpyField MAX_ID_LENGTH (normalizeString r)
              description := strncpyField MAX_NAME_LENGTH (normalizeString d) } := by
  intro fuel
  induction fuel with
  | zero => intro stream t t1 h; simp [loadLoop] at h
  | succ fuel ih =>
    intro stream t t1 h n hn
    unfold loadLoop at h
    unfold fileBuffers
    cases hf : fgets MAX_LINE_LENGTH stream with
    | none =>
      simp only [hf, Option.some.injEq] at h
      subst h
      exact Or.inl hn
    | some p =>
      obtain ⟨line, rest⟩ := p
      simp only [hf] at h ⊢
      cases hp : processLine line t with
      | none => simp [hp] at h
      | some t2 =>
        simp only [hp] at h
        rcases ih rest t2 t1 h n hn with hold | ⟨l, hl, hrest⟩
        · rcases processLine_source hp n hold with hold1 | hnew
          · exact Or.inl hold1
          · exact Or.inr ⟨line, by simp, hnew⟩
        · exact Or.inr ⟨l, by simp [hl], hrest⟩

/-- C8 (amended): for every file, every node of the table `loadLocationData` builds comes
from a buffer read from the file: the five `strtok` calls on that buffer give five parsed
fields, and each stored field is the parsed field in the same position with its trailing
whitespace removed by `normalizeString` and then cut by `strncpy` to the capacity of the
field (14 bytes for key, floor and room, 99 for building and description) which is, in the
words of the specification, `TrimmedThenCut`.  It follows that a stored field shorter than
its capacity has no trailing whitespace, and that every stored field is the beginning of
the parsed field, so that leading whitespace is kept. -/
theorem loaded_fields_right_trimmed (s s1 : State) (h : loadLocationData s = some s1) :
    ∀ n ∈ allEntries s1.hashTable,
      ∃ text line k b f r d, s.file.content = some text ∧
        line ∈ fileBuffers (text.length + 1) text ∧
        splitFields (cstr line) = some (k, b, f, r, d) ∧
        n = { key := strncpyField MAX_ID_LENGTH (normalizeString k)
              building := strncpyField MAX_NAME_LENGTH (normalizeString b)
              floor := strncpyField MAX_ID_LENGTH (normalizeString f)
              room := strncpyField MAX_ID_LENGTH (normalizeString r)
              description := strncpyField MAX_NAME_LENGTH (normalizeString d) } ∧
        (TrimmedThenCut MAX_ID_LENGTH k n.key ∧ TrimmedThenCut MAX_NAME_LENGTH b n.building ∧
          TrimmedThenCut MAX_ID_LENGTH f n.floor ∧ TrimmedThenCut MAX_ID_LENGTH r n.room ∧
          TrimmedThenCut MAX_NAME_LENGTH d n.description) ∧
        ((n.key.length + 1 < MAX_ID_LENGTH → NoTrailingSpace n.key) ∧
          (n.building.length + 1 < MAX_NAME_LENGTH → NoTrailingSpace n.building) ∧
          (n.floor.length + 1 < MAX_ID_LENGTH → NoTrailingSpace n.floor) ∧
          (n.room.length + 1 < MAX_ID_LENGTH → NoTrailingSpace n.room) ∧
          (n.description.length + 1 < MAX_NAME_LENGTH → NoTrailingSpace n.description)) ∧
        ((∃ rest, k = n.key ++ rest) ∧ (∃ rest, b = n.building ++ rest) ∧
          (∃ rest, f = n.floor ++ rest) ∧ (∃ rest, r = n.room ++ rest) ∧
          (∃ rest, d = n.description ++ rest)) := by
  unfold loadLocationData at h
  cases hc : (if s.file.canRead then s.file.content else none) with
  | none =>
    simp only [hc, Option.some.injEq] at h
    subst h
    simp [State.print, allEntries_emptyTable]
  | some text =>
    have hcontent : s.file.content = some text := by
      by_cases hr : s.file.canRead = true
      · simpa [hr] using hc
      · simp [hr] at hc
    simp only [hc] at h
    cases hl : loadLines text emptyTable with
    | none => simp [hl] at h
    | some t =>
      simp only [hl, Option.some.injEq] at h
      subst h
      intro n hn
      rcases loadLoop_source _ text emptyTable t hl n hn with hold | ⟨line, hline, k, b, f, r, d, hs, hnode⟩
      · rw [allEntries_emptyTable] at hold
        cases hold
      · have hk := trimmedThenCut_stored MAX_ID_LENGTH k
        have hb := trimmedThenCut_stored MAX_NAME_LENGTH b
        have hf := trimmedThenCut_stored MAX_ID_LENGTH f
        have hr := trimmedThenCut_stored MAX_ID_LENGTH r
        have hd := trimmedThenCut_stored MAX_NAME_LENGTH d
        subst hnode
        exact ⟨text, line, k, b, f, r, d, hcontent, hline, hs, rfl, ⟨hk, hb, hf, hr, hd⟩,
          ⟨(trimmedThenCut_keeps_front hk).1, (trimmedThenCut_keeps_front hb).1,
            (trimmedThenCut_keeps_front hf).1, (trimmedThenCut_keeps_front hr).1,
            (trimmedThenCut_keeps_front hd).1⟩,
          ⟨(trimmedThenCut_keeps_front hk).2, (trimmedThenCut_keeps_front hb).2,
            (trimmedThenCut_keeps_front hf).2, (trimmedThenCut_keeps_front hr).2,
            (trimmedThenCut_keeps_front hd).2⟩⟩

/-- C8 (witness): the line `c_lab ; Engineering Hall \t;2nd ;204 ;Computer Lab\r\n` is
stored as (`c_lab`, ` Engineering Hall`, `2nd`, `204`, `Computer Lab`). -/
theorem loaded_fields_right_trimmed_witness :
    ∃ text line k b f r d, paddedLineExample.file.content = some text ∧
      line ∈ fileBuffers (text.length + 1) text ∧
      splitFields (cstr line) = some (k, b, f, r, d) ∧
      paddedLineNode =
        { key := strncpyField MAX_ID_LENGTH (normalizeString k)
          building := strncpyField MAX_NAME_LENGTH (normalizeString b)
          floor := strncpyField MAX_ID_LENGTH (normalizeString f)
          room := strncpyField MAX_ID_LENGTH (normalizeString r)
          description := strncpyField MAX_NAME_LENGTH (normalizeString d) } ∧
      (TrimmedThenCut MAX_ID_LENGTH k paddedLineNode.key ∧
        TrimmedThenCut MAX_NAME_LENGTH b paddedLineNode.building ∧
        TrimmedThenCut MAX_ID_LENGTH f paddedLineNode.floor ∧
        TrimmedThenCut MAX_ID_LENGTH r paddedLineNode.room ∧
        TrimmedThenCut MAX_NAME_LENGTH d paddedLineNode.description) ∧
      ((paddedLineNode.key.length + 1 < MAX_ID_LENGTH → NoTrailingSpace paddedLineNode.key) ∧
        (paddedLineNode.building.length + 1 < MAX_NAME_LENGTH →
          NoTrailingSpace paddedLineNode.building) ∧
        (paddedLineNode.floor.length + 1 < MAX_ID_LENGTH →
          NoTrailingSpace paddedLineNode.floor) ∧
        (paddedLineNode.room.length + 1 < MAX_ID_LENGTH →
          NoTrailingSpace paddedLineNode.room) ∧
        (paddedLineNode.description.length + 1 < MAX_NAME_LENGTH →
          NoTrailingSpace paddedLineNode.description)) ∧
      ((∃ rest, k = paddedLineNode.key ++ rest) ∧ (∃ rest, b = paddedLineNode.building ++ rest) ∧
        (∃ rest, f = paddedLineNode.floor ++ rest) ∧ (∃ rest, r = paddedLineNode.room ++ rest) ∧
        (∃ rest, d = paddedLineNode.description ++ rest)) :=
  loaded_fields_right_trimmed paddedLineExample
    { paddedLineExample with hashTable := emptyTable.set 17 [paddedLineNode] }
    (by decide) paddedLineNode (by decide)

/-- C8 (counterexample): the file holds the line
`c_lab; Engineering Hall; 2nd; 204; Computer Lab`; the node `loadLocationData` stores has a
building, a floor, a room and a description that begin with a space. -/
theorem loaded_fields_keep_leading_space :
    (loadLocationData (adminSession emptyTable
        (some (ascii "c_lab; Engineering Hall; 2nd; 204; Computer Lab\n")) [])).map
      (fun s => allEntries s.hashTable) =
      some [{ key := ascii "c_lab", building := 32 :: ascii "Engineering Hall",
              floor := 32 :: ascii "2nd", room := 32 :: ascii "204",
              description := 32 :: ascii "Computer Lab" }] ∧
    isspace 32 = true ∧ ¬ NoLeadingSpace (32 :: ascii "Engineering Hall") := by
  refine ⟨by decide, by decide, ?_⟩
  intro h
  exact absurd (h 32 rfl) (by decide)

/-! ## Lines of five fields -/

theorem fgetsRead_line (tail : List Nat) :
    ∀ (m : Nat) (body : List Nat), (∀ c ∈ body, c ≠ 10) → body.length < m →
      fgetsRead m (body ++ 10 :: tail) = (body ++ [10], tail) := by
  intro m body
  induction body generalizing m with
  | nil =>
    intro _ hlen
    cases m with
    | zero => simp at hlen
    | succ m => simp [fgetsRead]
  | cons c body ih =>
    intro hbody hlen
    cases m with
    | zero => simp at hlen
    | succ m =>
      have hc : c ≠ 10 := hbody c (by simp)
      have := ih m (fun x hx => hbody x (by simp [hx]))
        (by simp only [List.length_cons] at hlen; omega)
      simp [fgetsRead, hc, this]

theorem takeWhile_field (text tail : List Nat) (h : ∀ c ∈ text, c ≠ 59) :
    (text ++ 59 :: tail).takeWhile (fun x => x != 59) = text ∧
      (text ++ 59 :: tail).dropWhile (fun x => x != 59) = 59 :: tail := by
  induction text with
  | nil => simp [List.takeWhile_cons, List.dropWhile_cons]
  | cons c text ih =>
    have hc : c ≠ 59 := h c (by simp)
    obtain ⟨h1, h2⟩ := ih (fun x hx => h x (by simp [hx]))
    simp [List.takeWhile_cons, List.dropWhile_cons, hc, h1, h2]

theorem takeWhile_last_field (text : List Nat) (h : ∀ c ∈ text, c ≠ 59) :
    text.takeWhile (fun x => x != 59) = text := by
  induction text with
  | nil => rfl
  | cons c text ih =>
    have hc : c ≠ 59 := h c (by simp)
    simp [List.takeWhile_cons, hc, ih (fun x hx => h x (by simp [hx]))]

theorem strtok_field (text tail : List Nat) (hne : text ≠ []) (h : ∀ c ∈ text, c ≠ 59) :
    strtok (text ++ 59 :: tail) = some (text, tail) := by
  cases text with
  | nil => exact absurd rfl hne
  | cons c text =>
    have hc : c ≠ 59 := h c (by simp)
    obtain ⟨h1, h2⟩ := takeWhile_field (c :: text) tail h
    simp only [List.cons_append] at h1 h2
    simp [strtok, List.dropWhile_cons, hc, h1, h2]

theorem strtok_last_field (text : List Nat) (hne : text ≠ []) (h : ∀ c ∈ text, c ≠ 59) :
    ∃ tail, strtok text = some (text, tail) := by
  cases text with
  | nil => exact absurd rfl hne
  | cons c text =>
    have hc : c ≠ 59 := h c (by simp)
    have h1 := takeWhile_last_field (c :: text) h
    refine ⟨((c :: text).dropWhile (fun x => x != 59)).drop 1, ?_⟩
    simp only [strtok, List.dropWhile_cons, beq_iff_eq, hc, if_false]
    rw [h1]

theorem normalizeString_newline (text : List Nat) :
    normalizeString (text ++ [10]) = normalizeString text := by
  simp [normalizeString, List.dropWhile_cons, isspace]

theorem cstr_of_no_nul (buf : List Nat) (h : ∀ c ∈ buf, c ≠ 0) : cstr buf = buf := by
  unfold cstr
  rw [List.takeWhile_eq_self_iff]
  intro c hc
  simpa using h c hc

theorem splitFields_formatLine (k b f r d : List Nat) (hk : FieldText k) (hb : FieldText b)
    (hf : FieldText f) (hr : FieldText r) (hd : FieldText d) :
    splitFields (formatLine k b f r d) = some (k, b, f, r, d ++ [10]) := by
  have e : formatLine k b f r d =
      k ++ 59 :: (b ++ 59 :: (f ++ 59 :: (r ++ 59 :: (d ++ [10])))) := by
    simp [formatLine, List.append_assoc]
  have hd1 : ∀ c ∈ d ++ [10], c ≠ 59 := by
    intro c hc
    rcases List.mem_append.1 hc with hc | hc
    · exact (hd.2 c hc).1
    · simp at hc; subst hc; decide
  obtain ⟨tail, h5⟩ := strtok_last_field (d ++ [10]) (by simp) hd1
  rw [e]
  simp only [splitFields, strtok_field k _ hk.1 (fun c hc => (hk.2 c hc).1),
    strtok_field b _ hb.1 (fun c hc => (hb.2 c hc).1),
    strtok_field f _ hf.1 (fun c hc => (hf.2 c hc).1),
    strtok_field r _ hr.1 (fun c hc => (hr.2 c hc).1), h5]

theorem processLine_formatLine (k b f r d : List Nat) (t : HashTable) (hk : FieldText k)
    (hb : FieldText b) (hf : FieldText f) (hr : FieldText r) (hd : FieldText d)
    (hcomment : k.head? ≠ some 35) :
    processLine (formatLine k b f r d) t =
      insertLocation (normalizeString k) (normalizeString b) (normalizeString f)
        (normalizeString r) (normalizeString d) t := by
  have e : formatLine k b f r d =
      k ++ 59 :: (b ++ 59 :: (f ++ 59 :: (r ++ 59 :: (d ++ [10])))) := by
    simp [formatLine, List.append_assoc]
  have hnul : ∀ c ∈ formatLine k b f r d, c ≠ 0 := by
    intro c hc
    rw [e] at hc
    simp only [List.mem_append, List.mem_cons, List.mem_singleton, List.mem_nil_iff,
      or_false] at hc
    rcases hc with hc | rfl | hc | rfl | hc | rfl | hc | rfl | hc | rfl
    · exact (hk.2 c hc).2.2
    · decide
    · exact (hb.2 c hc).2.2
    · decide
    · exact (hf.2 c hc).2.2
    · decide
    · exact (hr.2 c hc).2.2
    · decide
    · exact (hd.2 c hc).2.2
    · decide
  have hhead : (formatLine k b f r d).head? ≠ some 35 := by
    rw [e]
    cases k with
    | nil => exact absurd rfl hk.1
    | cons c k => simpa using hcomment
  have hlen : ¬ (formatLine k b f r d).length < 5 := by
    have h1 := List.length_pos.2 hk.1
    have h2 := List.length_pos.2 hb.1
    have h3 := List.length_pos.2 hf.1
    rw [e]
    simp only [List.length_append, List.length_cons]
    omega
  unfold processLine
  simp only [cstr_of_no_nul _ hnul, hhead, hlen, or_self, if_false,
    splitFields_formatLine k b f r d hk hb hf hr hd, normalizeString_newline]

theorem loadLines_entry_line (front k b f r d rest : List Nat) (t : HashTable)
    (hfront : LineAligned front) (hk : FieldText k) (hb : FieldText b) (hf : FieldText f)
    (hr : FieldText r) (hd : FieldText d) (hcomment : k.head? ≠ some 35)
    (hlen : (formatLine k b f r d).length < MAX_LINE_LENGTH) :
    loadLines (front ++ formatLine k b f r d ++ rest) t =
      ((loadLines front t).bind
        (insertLocation (normalizeString k) (normalizeString b) (normalizeString f)
          (normalizeString r) (normalizeString d))).bind (loadLines rest) := by
  have e : formatLine k b f r d = (k ++ [59] ++ b ++ [59] ++ f ++ [59] ++ r ++ [59] ++ d) ++ [10] :=
    rfl
  have hbody : ∀ c ∈ k ++ [59] ++ b ++ [59] ++ f ++ [59] ++ r ++ [59] ++ d, c ≠ 10 := by
    intro c hc
    simp only [List.mem_append, List.mem_singleton] at hc
    rcases hc with (((((((hc | rfl) | hc) | rfl) | hc) | rfl) | hc) | rfl) | hc
    · exact (hk.2 c hc).2.1
    · decide
    · exact (hb.2 c hc).2.1
    · decide
    · exact (hf.2 c hc).2.1
    · decide
    · exact (hr.2 c hc).2.1
    · decide
    · exact (hd.2 c hc).2.1
  have hread : fgetsRead 255 (formatLine k b f r d ++ rest) = (formatLine k b f r d, rest) := by
    rw [e, List.append_assoc, List.singleton_append]
    refine fgetsRead_line rest 255 _ hbody ?_
    rw [e, List.length_append, List.length_singleton] at hlen
    exact Nat.lt_of_succ_lt_succ hlen
  have hline : ∀ t1, loadLines (formatLine k b f r d ++ rest) t1 =
      (insertLocation (normalizeString k) (normalizeString b) (normalizeString f)
        (normalizeString r) (normalizeString d) t1).bind (loadLines rest) := by
    intro t1
    cases hcons : formatLine k b f r d ++ rest with
    | nil => rw [e] at hcons; simp at hcons
    | cons c s =>
      rw [loadLines_cons, ← hcons, hread]
      simp only [processLine_formatLine k b f r d t1 hk hb hf hr hd hcomment]
  rw [List.append_assoc, loadLines_append _ _ front t le_rfl hfront, Option.bind_assoc]
  congr 1
  funext t1
  exact hline t1

theorem splitFields_entry (k b f r last : List Nat) (hk : FieldText k) (hb : FieldText b)
    (hf : FieldText f) (hr : FieldText r) (hne : last ≠ []) (hlast : ∀ c ∈ last, c ≠ 59) :
    splitFields (k ++ 59 :: (b ++ 59 :: (f ++ 59 :: (r ++ 59 :: last)))) =
      some (k, b, f, r, last) := by
  obtain ⟨tail, h5⟩ := strtok_last_field last hne hlast
  simp only [splitFields, strtok_field k _ hk.1 (fun c hc => (hk.2 c hc).1),
    strtok_field b _ hb.1 (fun c hc => (hb.2 c hc).1),
    strtok_field f _ hf.1 (fun c hc => (hf.2 c hc).1),
    strtok_field r _ hr.1 (fun c hc => (hr.2 c hc).1), h5]

/-- The loop body of `loadLocationData` on a buffer that holds four non-empty fields and a
last token, separated by `;`. -/
theorem processLine_entry (k b f r last : List Nat) (t : HashTable) (hk : FieldText k)
    (hb : FieldText b) (hf : FieldText f) (hr : FieldText r) (hne : last ≠ [])
    (hlast : ∀ c ∈ last, c ≠ 59 ∧ c ≠ 0) (hcomment : k.head? ≠ some 35) :
    processLine (k ++ 59 :: (b ++ 59 :: (f ++ 59 :: (r ++ 59 :: last)))) t =
      insertLocation (normalizeString k) (normalizeString b) (normalizeString f)
        (normalizeString r) (normalizeString last) t := by
  have hnul : ∀ c ∈ k ++ 59 :: (b ++ 59 :: (f ++ 59 :: (r ++ 59 :: last))), c ≠ 0 := by
    intro c hc
    simp only [List.mem_append, List.mem_cons] at hc
    rcases hc with hc | rfl | hc | rfl | hc | rfl | hc | rfl | hc
    · exact (hk.2 c hc).2.2
    · decide
    · exact (hb.2 c hc).2.2
    · decide
    · exact (hf.2 c hc).2.2
    · decide
    · exact (hr.2 c hc).2.2
    · decide
    · exact (hlast c hc).2
  have hhead : (k ++ 59 :: (b ++ 59 :: (f ++ 59 :: (r ++ 59 :: last)))).head? ≠ some 35 := by
    cases k with
    | nil => exact absurd rfl hk.1
    | cons c k => simpa using hcomment
  have hlen : ¬ (k ++ 59 :: (b ++ 59 :: (f ++ 59 :: (r ++ 59 :: last)))).length < 5 := by
    have h1 := List.length_pos.2 hk.1
    have h2 := List.length_pos.2 hb.1
    have h3 := List.length_pos.2 hf.1
    simp only [List.length_append, List.length_cons]
    omega
  unfold processLine
  simp only [cstr_of_no_nul _ hnul, hhead, hlen, or_self, if_false,
    splitFields_entry k b f r last hk hb hf hr hne (fun c hc => (hlast c hc).1)]

theorem fgetsRead_last_line :
    ∀ (m : Nat) (line : List Nat), (∀ c ∈ line, c ≠ 10) → line.length ≤ m →
      fgetsRead m line = (line, []) := by
  intro m line
  induction line generalizing m with
  | nil => intro _ _; cases m <;> rfl
  | cons c line ih =>
    intro hline hlen
    cases m with
    | zero => simp at hlen
    | succ m =>
      have hc : c ≠ 10 := hline c (by simp)
      have := ih m (fun x hx => hline x (by simp [hx]))
        (by simp only [List.length_cons] at hlen; omega)
      simp [fgetsRead, hc, this]

theorem loadLines_last_line (body : List Nat) (t : HashTable) (hne : body ≠ [])
    (hbody : ∀ c ∈ body, c ≠ 10) (hlen : body.length < MAX_LINE_LENGTH) :
    loadLines body t = processLine body t := by
  have hread : fgetsRead 255 body = (body, []) :=
    fgetsRead_last_line 255 body hbody (by simp only [MAX_LINE_LENGTH] at hlen; omega)
  cases hb : body with
  | nil => exact absurd hb hne
  | cons c s =>
    rw [loadLines_cons, ← hb, hread]
    cases processLine body t with
    | none => rfl
    | some t1 => simp [loadLines_nil]

theorem loadLines_newline_line (body rest : List Nat) (t : HashTable)
    (hbody : ∀ c ∈ body, c ≠ 10) (hlen : (body ++ [10]).length < MAX_LINE_LENGTH) :
    loadLines (body ++ [10] ++ rest) t = (processLine (body ++ [10]) t).bind (loadLines rest) := by
  have hread : fgetsRead 255 (body ++ [10] ++ rest) = (body ++ [10], rest) := by
    rw [List.append_assoc, List.singleton_append]
    refine fgetsRead_line rest 255 body hbody ?_
    simp only [MAX_LINE_LENGTH, List.length_append, List.length_singleton] at hlen
    omega
  cases hb : body ++ [10] ++ rest with
  | nil => simp at hb
  | cons c s => rw [loadLines_cons, ← hb, hread]

/-- C9 (amended): take a file content `front ++ line ++ rest` that can be read, where
`front` ends at a line end and `line` is `key;building;floor;room;description` plus newline,
at most 255 bytes long, with key, building, floor and room non-empty, all five fields free
of `;`, newline and NUL (the description may be empty) and a key that does not begin with
`#`.  The table `loadLocationData` builds is the table built from `front`, on which
`insertLocation` is called once with the five fields in that order, each with its trailing
whitespace removed (and cut by `insertLocation` to the capacity of the node), and on which
the lines of `rest` are then read.  When the description is not empty the same holds for
such a line without its newline at the end of the file. -/
theorem loadLocationData_entry_line (s : State) (front k b f r d rest : List Nat)
    (hread : s.file.canRead = true) (hfront : LineAligned front) (hk : FieldText k)
    (hb : FieldText b) (hf : FieldText f) (hr : FieldText r) (hd : CleanText d)
    (hcomment : k.head? ≠ some 35)
    (hlen : (formatLine k b f r d).length < MAX_LINE_LENGTH) :
    (loadLocationData (s.withFileContent (front ++ formatLine k b f r d ++ rest))).map
        (fun s1 => s1.hashTable) =
      ((loadLines front emptyTable).bind
        (insertLocation (normalizeString k) (normalizeString b) (normalizeString f)
          (normalizeString r) (normalizeString d))).bind (loadLines rest) ∧
    (d ≠ [] →
      (loadLocationData (s.withFileContent
          (front ++ (k ++ [59] ++ b ++ [59] ++ f ++ [59] ++ r ++ [59] ++ d)))).map
          (fun s1 => s1.hashTable) =
        (loadLines front emptyTable).bind
          (insertLocation (normalizeString k) (normalizeString b) (normalizeString f)
            (normalizeString r) (normalizeString d))) := by
  have hbody : ∀ c ∈ k ++ [59] ++ b ++ [59] ++ f ++ [59] ++ r ++ [59] ++ d, c ≠ 10 := by
    intro c hc
    simp only [List.mem_append, List.mem_singleton] at hc
    rcases hc with (((((((hc | rfl) | hc) | rfl) | hc) | rfl) | hc) | rfl) | hc
    · exact (hk.2 c hc).2.1
    · decide
    · exact (hb.2 c hc).2.1
    · decide
    · exact (hf.2 c hc).2.1
    · decide
    · exact (hr.2 c hc).2.1
    · decide
    · exact (hd c hc).2.1
  have e : formatLine k b f r d =
      (k ++ [59] ++ b ++ [59] ++ f ++ [59] ++ r ++ [59] ++ d) ++ [10] := rfl
  have eline : (k ++ [59] ++ b ++ [59] ++ f ++ [59] ++ r ++ [59] ++ d) ++ [10] =
      k ++ 59 :: (b ++ 59 :: (f ++ 59 :: (r ++ 59 :: (d ++ [10])))) := by
    simp [List.append_assoc]
  have ebody : k ++ [59] ++ b ++ [59] ++ f ++ [59] ++ r ++ [59] ++ d =
      k ++ 59 :: (b ++ 59 :: (f ++ 59 :: (r ++ 59 :: d))) := by
    simp [List.append_assoc]
  have hload : ∀ text : List Nat,
      (loadLocationData (s.withFileContent text)).map (fun s1 => s1.hashTable) =
        loadLines text emptyTable := by
    intro text
    unfold loadLocationData State.withFileContent
    simp only [hread, if_true]
    cases loadLines text emptyTable <;> rfl
  constructor
  · rw [hload, List.append_assoc, loadLines_append _ _ front emptyTable le_rfl hfront,
      Option.bind_assoc]
    congr 1
    funext t1
    rw [e] at hlen ⊢
    rw [loadLines_newline_line _ rest t1 hbody hlen, eline,
      processLine_entry k b f r (d ++ [10]) t1 hk hb hf hr (by simp)
        (by
          intro c hc
          rcases List.mem_append.1 hc with hc | hc
          · exact ⟨(hd c hc).1, (hd c hc).2.2⟩
          · simp at hc; subst hc; decide)
        hcomment,
      normalizeString_newline]
  · intro hne
    rw [hload, loadLines_append _ _ front emptyTable le_rfl hfront]
    congr 1
    funext t1
    have hlen1 : (k ++ [59] ++ b ++ [59] ++ f ++ [59] ++ r ++ [59] ++ d).length
        < MAX_LINE_LENGTH := by
      rw [e, List.length_append, List.length_singleton] at hlen
      omega
    rw [loadLines_last_line _ t1 (by simp [hk.1]) hbody hlen1, ebody,
      processLine_entry k b f r d t1 hk hb hf hr hne
        (fun c hc => ⟨(hd c hc).1, (hd c hc).2.2⟩) hcomment]

/-- C9 (witness): a header line, the entry line of `c_lab`, whose description is empty, and
the entry line of `library`. -/
theorem loadLocationData_entry_line_witness :
    (loadLocationData ((adminSession emptyTable none []).withFileContent
        (ascii "# Location Data File\n" ++
          formatLine (ascii "c_lab") (ascii " Engineering Hall ") (ascii "2nd") (ascii "204")
            [] ++
          ascii "library;Main Block;1st;101;Central Library\n"))).map
        (fun s1 => s1.hashTable) =
      ((loadLines (ascii "# Location Data File\n") emptyTable).bind
        (insertLocation (normalizeString (ascii "c_lab"))
          (normalizeString (ascii " Engineering Hall ")) (normalizeString (ascii "2nd"))
          (normalizeString (ascii "204")) (normalizeString []))).bind
        (loadLines (ascii "library;Main Block;1st;101;Central Library\n")) :=
  (loadLocationData_entry_line (adminSession emptyTable none []) (ascii "# Location Data File\n")
    (ascii "c_lab") (ascii " Engineering Hall ") (ascii "2nd") (ascii "204")
    [] (ascii "library;Main Block;1st;101;Central Library\n")
    (by decide) (by decide) (by decide) (by decide) (by decide) (by decide) (by decide)
    (by decide) (by decide)).1

/-- C9 (counterexample): the only line of the file is `c_lab;;2nd;204;Computer Lab`, five
fields of which the building is empty; `loadLocationData` inserts no entry. -/
theorem loadLocationData_drops_line_with_empty_field :
    formatLine (ascii "c_lab") [] (ascii "2nd") (ascii "204") (ascii "Computer Lab") =
      ascii "c_lab;;2nd;204;Computer Lab\n" ∧
    (loadLocationData (adminSession emptyTable
        (some (ascii "c_lab;;2nd;204;Computer Lab\n")) [])).map
      (fun s => allEntries s.hashTable) = some [] := by
  decide

/-! ## Comment lines and short lines -/

theorem fgetsRead_singleLine {line rest : List Nat} (hline : SingleLine line rest)
    (hlen : line.length < MAX_LINE_LENGTH) :
    fgetsRead 255 (line ++ rest) = (line, rest) := by
  rcases hline with ⟨body, rfl, hbody⟩ | ⟨rfl, hno⟩
  · rw [List.append_assoc, List.singleton_append]
    refine fgetsRead_line rest 255 body hbody ?_
    rw [List.length_append, List.length_singleton] at hlen
    exact Nat.lt_of_succ_lt_succ hlen
  · rw [List.append_nil]
    exact fgetsRead_last_line 255 line hno (Nat.le_of_lt_succ hlen)

theorem processLine_comment {line : List Nat} (t : HashTable) (h : line.head? = some 35) :
    processLine line t = some t := by
  cases line with
  | nil => cases h
  | cons c line =>
    simp only [List.head?_cons, Option.some.injEq] at h
    subst h
    simp [processLine, cstr, List.takeWhile_cons]

/-- A comment line that fits the read buffer is read in one piece and skipped. -/
theorem loadLines_comment_line {line rest : List Nat} (t : HashTable)
    (hhead : line.head? = some 35) (hlen : line.length < MAX_LINE_LENGTH)
    (hline : SingleLine line rest) : loadLines (line ++ rest) t = loadLines rest t := by
  have hread := fgetsRead_singleLine hline hlen
  cases hcons : line ++ rest with
  | nil =>
    cases line with
    | nil => cases hhead
    | cons c l => cases hcons
  | cons c s =>
    rw [loadLines_cons, ← hcons, hread]
    simp only [processLine_comment t hhead, Option.some_bind]

theorem tokenCount_le_length (s : List Nat) :
    2 * tokenCount false s ≤ s.length + 1 ∧ 2 * tokenCount true s ≤ s.length := by
  induction s with
  | nil => simp [tokenCount]
  | cons c s ih =>
    obtain ⟨h1, h2⟩ := ih
    by_cases hc : c = 59
    · simp only [tokenCount, hc, if_true, List.length_cons]
      constructor <;> omega
    · simp only [tokenCount, hc, if_false, List.length_cons]
      constructor <;> simp <;> omega

theorem splitFields_short_line {line : List Nat} (h : line.length ≤ 5) :
    splitFields line = none := by
  have := (tokenCount_le_length line).1
  exact splitFields_of_few_tokens (by omega)

theorem allEntries_set_cons {t : HashTable} {i : Nat} {chain : List LocationNode}
    (h : t[i]? = some chain) (n : LocationNode) :
    (allEntries (t.set i (n :: chain))).Perm (n :: allEntries t) := by
  obtain ⟨hsplit, hset⟩ := table_split h (n :: chain)
  rw [hset]
  conv_rhs => rw [hsplit]
  simp only [allEntries, List.flatten_append, List.flatten_cons, List.cons_append]
  exact List.perm_middle

theorem insertLocation_allEntries_perm {t t1 : HashTable} {key building floor room desc : List Nat}
    (h : insertLocation key building floor room desc t = some t1) :
    (allEntries t1).Perm
      ({ key := strncpyField MAX_ID_LENGTH key
         building := strncpyField MAX_NAME_LENGTH building
         floor := strncpyField MAX_ID_LENGTH floor
         room := strncpyField MAX_ID_LENGTH room
         description := strncpyField MAX_NAME_LENGTH desc } :: allEntries t) := by
  unfold insertLocation at h
  cases hb : bucketAt t (hashFunction key) with
  | none => simp [hb] at h
  | some chain =>
    simp only [hb, Option.some.injEq] at h
    subst h
    exact allEntries_set_cons (bucketAt_eq_some hb).2 _

/-- C11 (amended): for every file, (1) a line that is empty or shorter than 5 characters
(at most 5 bytes with its newline), or that begins with `#` and is at most 255 bytes long
with its newline, inserts no entry and does not change what the other lines produce: the
table `loadLocationData` builds is the one it builds from the file without that line; (2) a
readable file made of the line `# header`, any 3-character line and one 5-field entry line
(non-empty fields free of `;`, newline and NUL, key not beginning with `#` and hashing to a
slot, at most 255 bytes) loads as a table with exactly one entry. -/
theorem loadLocationData_skips_comments_and_short_lines (s : State) :
    (∀ front line rest : List Nat, LineAligned front →
      ((line.length ≤ 5 ∧ (LineAligned line ∨ rest = [])) ∨
        (line.head? = some 35 ∧ line.length < MAX_LINE_LENGTH ∧ SingleLine line rest)) →
      (loadLocationData (s.withFileContent (front ++ line ++ rest))).map
          (fun s1 => s1.hashTable) =
        (loadLocationData (s.withFileContent (front ++ rest))).map (fun s1 => s1.hashTable)) ∧
    (∀ (x y z : Nat) (k b f r d : List Nat), s.file.canRead = true →
      FieldText k → FieldText b → FieldText f → FieldText r → FieldText d →
      k.head? ≠ some 35 → (formatLine k b f r d).length < MAX_LINE_LENGTH →
      validIndex (hashFunction (normalizeString k)) →
      (loadLocationData (s.withFileContent
          (ascii "# header\n" ++ [x, y, z, 10] ++ formatLine k b f r d))).map
        (fun s1 => (allEntries s1.hashTable).length) = some 1) := by
  constructor
  · intro front line rest hfront hskip
    have hlines : loadLines (front ++ line ++ rest) emptyTable =
        loadLines (front ++ rest) emptyTable := by
      rcases hskip with ⟨hshort, hline⟩ | ⟨hhead, hlen, hline⟩
      · exact loadLines_skips_line front line rest emptyTable hfront hline
          (splitFields_short_line hshort)
      · rw [List.append_assoc, loadLines_append _ _ front _ le_rfl hfront,
          loadLines_append _ _ front _ le_rfl hfront]
        congr 1
        funext t1
        exact loadLines_comment_line t1 hhead hlen hline
    unfold loadLocationData State.withFileContent
    by_cases hr : s.file.canRead = true
    · simp only [hr, if_true, hlines]
      cases loadLines (front ++ rest) emptyTable <;> rfl
    · simp [hr, State.print]
  · intro x y z k b f r d hread hk hb hf hr hd hcomment hlen hvalid
    have h1 : loadLines (ascii "# header\n" ++ [x, y, z, 10] ++ formatLine k b f r d) emptyTable =
        loadLines ([x, y, z, 10] ++ formatLine k b f r d) emptyTable := by
      rw [List.append_assoc]
      exact loadLines_comment_line emptyTable (by decide) (by decide)
        (Or.inl ⟨ascii "# header", by decide, by decide⟩)
    have h2 : loadLines ([x, y, z, 10] ++ formatLine k b f r d) emptyTable =
        loadLines (formatLine k b f r d) emptyTable := by
      have := loadLines_skips_line [] [x, y, z, 10] (formatLine k b f r d) emptyTable
        (Or.inl rfl) (Or.inl (Or.inr (by simp)))
        (splitFields_short_line (by simp))
      simpa using this
    have h3 := loadLines_entry_line [] k b f r d [] emptyTable (Or.inl rfl) hk hb hf hr hd
      hcomment hlen
    simp only [List.nil_append, List.append_nil, loadLines_nil, Option.some_bind] at h3
    obtain ⟨chain, _, hins⟩ := insertLocation_of_valid wellSized_emptyTable (normalizeString k)
      (normalizeString b) (normalizeString f) (normalizeString r) (normalizeString d) hvalid
    have hperm := insertLocation_allEntries_perm hins
    have hone : (allEntries (emptyTable.set (hashFunction (normalizeString k)).toNat
        ({ key := strncpyField MAX_ID_LENGTH (normalizeString k)
           building := strncpyField MAX_NAME_LENGTH (normalizeString b)
           floor := strncpyField MAX_ID_LENGTH (normalizeString f)
           room := strncpyField MAX_ID_LENGTH (normalizeString r)
           description := strncpyField MAX_NAME_LENGTH (normalizeString d) } :: chain))).length
        = 1 := by
      rw [hperm.length_eq, allEntries_emptyTable]
      rfl
    unfold loadLocationData State.withFileContent
    simp only [hread, if_true, h1, h2, h3, hins, Option.bind_eq_bind]
    have hl : loadLines [] = fun t => some t := funext loadLines_nil
    simp only [hl, Option.some_bind, Option.map_some', hone]

/-- C11 (witness): the file made of `# header`, the line `abc` and the entry line of
`c_lab` loads as a table with exactly one entry. -/
theorem loadLocationData_skips_comments_and_short_lines_witness :
    (loadLocationData ((adminSession emptyTable none []).withFileContent
        (ascii "# header\n" ++ [97, 98, 99, 10] ++
          formatLine (ascii "c_lab") (ascii "Engineering Hall") (ascii "2nd") (ascii "204")
            (ascii "Computer Lab")))).map
      (fun s1 => (allEntries s1.hashTable).length) = some 1 :=
  (loadLocationData_skips_comments_and_short_lines (adminSession emptyTable none [])).2
    97 98 99 (ascii "c_lab") (ascii "Engineering Hall") (ascii "2nd") (ascii "204")
    (ascii "Computer Lab") (by decide) (by decide) (by decide) (by decide) (by decide)
    (by decide) (by decide) (by decide) (by decide)

/-- C11 (counterexample): the file is one line of 298 bytes that begins with `#`:
`#`, 254 times `x`, then `c_lab;Engineering Hall;2nd;204;Computer Lab`; `fgets` reads it in
two pieces and `loadLocationData` inserts an entry for the second piece. -/
theorem loadLocationData_reads_tail_of_long_comment :
    (35 :: List.replicate 254 120 ++
        ascii "c_lab;Engineering Hall;2nd;204;Computer Lab\n").head? = some 35 ∧
    (∀ c ∈ (35 :: List.replicate 254 120 ++
        ascii "c_lab;Engineering Hall;2nd;204;Computer Lab"), c ≠ 10) ∧
    (loadLocationData (adminSession emptyTable
        (some (35 :: List.replicate 254 120 ++
          ascii "c_lab;Engineering Hall;2nd;204;Computer Lab\n")) [])).map
      (fun s => allEntries s.hashTable) =
      some [{ key := ascii "c_lab", building := ascii "Engineering Hall", floor := ascii "2nd",
              room := ascii "204", description := ascii "Computer Lab" }] := by
  decide

/-! ## Rewriting the file -/

theorem flatMap_range_getD (f : List LocationNode → List Nat) :
    ∀ (t : HashTable),
      (List.range t.length).flatMap (fun i => f (t.getD i [])) = t.flatMap f := by
  intro t
  induction t with
  | nil => rfl
  | cons chain t ih =>
    rw [List.length_cons, List.range_succ_eq_map, List.flatMap_cons, List.flatMap_cons]
    congr 1
    rw [List.flatMap_map]
    simpa using ih

theorem flatMap_allEntries (t : HashTable) :
    (allEntries t).flatMap formatNode = t.flatMap (fun chain => chain.flatMap formatNode) := by
  induction t with
  | nil => rfl
  | cons chain t ih =>
    simp only [allEntries, List.flatten_cons, List.flatMap_append, List.flatMap_cons] at ih ⊢
    rw [ih]

/-- C12: for every table of `HASH_SIZE` slots, when the file can be opened for writing,
`rewriteLocationFile` changes nothing but the file content, which becomes the two header
lines followed by the line `key;building;floor;room;description` of every node, slot 0 to
slot 49 and head to tail within a slot; for the empty table the content is the two header
lines alone; the table is left as it was. -/
theorem rewriteLocationFile_content (s : State) (hw : s.file.canWrite = true)
    (hsize : WellSized s.hashTable) :
    rewriteLocationFile s =
      { s with file := { s.file with
          content := some (fileHeader ++
            (List.range HASH_SIZE).flatMap
              (fun i => (s.hashTable.getD i []).flatMap formatNode)) } } ∧
    fileHeader =
      ascii "# Location Data File\n# Format: key;building;floor;room;description\n" ∧
    (∀ n : LocationNode, formatNode n =
      n.key ++ [59] ++ n.building ++ [59] ++ n.floor ++ [59] ++ n.room ++ [59] ++
        n.description ++ [10]) ∧
    (s.hashTable = emptyTable → (rewriteLocationFile s).file.content = some fileHeader) ∧
    (rewriteLocationFile s).hashTable = s.hashTable := by
  have hflat : (allEntries s.hashTable).flatMap formatNode =
      (List.range HASH_SIZE).flatMap (fun i => (s.hashTable.getD i []).flatMap formatNode) := by
    rw [flatMap_allEntries, ← flatMap_range_getD, hsize]
  refine ⟨?_, by decide, fun n => rfl, ?_, ?_⟩
  · simp only [rewriteLocationFile, hw, if_true, hflat]
  · intro hempty
    simp [rewriteLocationFile, hw, hempty, allEntries_emptyTable]
  · simp [rewriteLocationFile, hw]

/-- C12 (witness): the table that holds `library` in slot 7 and `c_lab` in slot 17. -/
theorem rewriteLocationFile_content_witness :
    (rewriteLocationFile (adminSession
        ((emptyTable.set 17
          [{ key := ascii "c_lab", building := ascii "Engineering Hall", floor := ascii "2nd",
             room := ascii "204", description := ascii "Computer Lab" }]).set 7
          [{ key := ascii "library", building := ascii "Main Block", floor := ascii "1st",
             room := ascii "101", description := ascii "Central Library" }])
        none [])).file.content =
      some (ascii "# Location Data File\n# Format: key;building;floor;room;description\n" ++
        ascii "library;Main Block;1st;101;Central Library\n" ++
        ascii "c_lab;Engineering Hall;2nd;204;Computer Lab\n") := by
  have h := (rewriteLocationFile_content (adminSession
        ((emptyTable.set 17
          [{ key := ascii "c_lab", building := ascii "Engineering Hall", floor := ascii "2nd",
             room := ascii "204", description := ascii "Computer Lab" }]).set 7
          [{ key := ascii "library", building := ascii "Main Block", floor := ascii "1st",
             room := ascii "101", description := ascii "Central Library" }])
        none []) (by decide) (by decide)).1
  rw [h]
  decide

/-! ## Reading back a rewritten file -/

theorem formatLine_length (k b f r d : List Nat) :
    (formatLine k b f r d).length = k.length + b.length + f.length + r.length + d.length + 5 := by
  simp only [formatLine, List.length_append, List.length_singleton]
  omega

theorem bucketAt_getD {t : HashTable} {i : Int} {chain : List LocationNode}
    (h : bucketAt t i = some chain) : t.getD i.toNat [] = chain := by
  have := (bucketAt_eq_some h).2
  simp [List.getD, this]

/-- The line written for a reloadable node is read back as that node, put at the head of
its chain. -/
theorem loadLines_formatNode {n : LocationNode} (hn : Reloadable n) (rest : List Nat)
    {t : HashTable} (ht : WellSized t) :
    loadLines (formatNode n ++ rest) t = loadLines rest (pushNode t n) := by
  obtain ⟨hfits, ⟨hk, hb, hf, hr, hd⟩, ⟨tk, tb, tf, tr, td⟩, hcomment, hvalid⟩ := hn
  obtain ⟨fk, fb, ff, fr, fd⟩ := hfits
  have hlen : (formatLine n.key n.building n.floor n.room n.description).length
      < MAX_LINE_LENGTH := by
    rw [formatLine_length]
    simp only [MAX_ID_LENGTH, MAX_NAME_LENGTH, MAX_LINE_LENGTH] at *
    omega
  have h := loadLines_entry_line [] n.key n.building n.floor n.room n.description rest t
    (Or.inl rfl) hk hb hf hr hd hcomment hlen
  simp only [List.nil_append, loadLines_nil, Option.some_bind] at h
  rw [normalizeString_of_noTrailingSpace tk, normalizeString_of_noTrailingSpace tb,
    normalizeString_of_noTrailingSpace tf, normalizeString_of_noTrailingSpace tr,
    normalizeString_of_noTrailingSpace td] at h
  obtain ⟨chain, hc, hins⟩ := insertLocation_of_valid ht n.key n.building n.floor n.room
    n.description hvalid
  rw [strncpyField_of_lt fk, strncpyField_of_lt fb, strncpyField_of_lt ff,
    strncpyField_of_lt fr, strncpyField_of_lt fd] at hins
  rw [formatNode, h, hins, Option.some_bind, pushNode, bucketAt_getD hc]

theorem wellSized_pushNode {t : HashTable} (ht : WellSized t) (n : LocationNode) :
    WellSized (pushNode t n) :=
  wellSized_set ht _ _

theorem loadLines_formatNodes (rest : List Nat) :
    ∀ (es : List LocationNode) (t : HashTable), WellSized t → (∀ n ∈ es, Reloadable n) →
      loadLines (es.flatMap formatNode ++ rest) t = loadLines rest (es.foldl pushNode t) := by
  intro es
  induction es with
  | nil => intro t _ _; rfl
  | cons n es ih =>
    intro t ht hes
    rw [List.flatMap_cons, List.append_assoc, loadLines_formatNode (hes n (by simp)) _ ht,
      ih _ (wellSized_pushNode ht n) (fun m hm => hes m (by simp [hm]))]
    rfl

theorem allEntries_pushNode {t : HashTable} (ht : WellSized t) {n : LocationNode}
    (hv : validIndex (hashFunction n.key)) :
    (allEntries (pushNode t n)).Perm (n :: allEntries t) := by
  obtain ⟨chain, hb, hget⟩ := bucketAt_of_valid ht hv
  rw [pushNode, bucketAt_getD hb]
  exact allEntries_set_cons hget n

theorem allEntries_foldl_pushNode :
    ∀ (es : List LocationNode) (t : HashTable), WellSized t →
      (∀ n ∈ es, validIndex (hashFunction n.key)) →
      (allEntries (es.foldl pushNode t)).Perm (es ++ allEntries t) := by
  intro es
  induction es with
  | nil => intro t _ _; exact List.Perm.refl _
  | cons n es ih =>
    intro t ht hes
    have h1 := ih (pushNode t n) (wellSized_pushNode ht n) (fun m hm => hes m (by simp [hm]))
    have h2 := allEntries_pushNode ht (hes n (by simp))
    rw [List.foldl_cons]
    refine h1.trans ?_
    refine (List.Perm.append_left es h2).trans ?_
    exact List.perm_middle

theorem loadLines_fileHeader (rest : List Nat) (t : HashTable) :
    loadLines (fileHeader ++ rest) t = loadLines rest t := by
  have e : fileHeader ++ rest = ascii "# Location Data File\n" ++
      (ascii "# Format: key;building;floor;room;description\n" ++ rest) := by
    rw [fileHeader, List.append_assoc]
  rw [e, loadLines_comment_line t (by decide) (by decide)
      (Or.inl ⟨ascii "# Location Data File", by decide, by decide⟩),
    loadLines_comment_line t (by decide) (by decide)
      (Or.inl ⟨ascii "# Format: key;building;floor;room;description", by decide, by decide⟩)]

/-- The file `rewriteLocationFile` writes for a table of reloadable nodes is read back as
a table that holds the same nodes. -/
theorem loadLines_rewritten (t : HashTable) (hall : ∀ n ∈ allEntries t, Reloadable n) :
    ∃ t1, loadLines (fileHeader ++ (allEntries t).flatMap formatNode) emptyTable = some t1 ∧
      t1 = (allEntries t).foldl pushNode emptyTable ∧ (allEntries t1).Perm (allEntries t) := by
  refine ⟨_, ?_, rfl, ?_⟩
  · rw [loadLines_fileHeader]
    have := loadLines_formatNodes [] (allEntries t) emptyTable wellSized_emptyTable hall
    rw [List.append_nil, loadLines_nil] at this
    exact this
  · have := allEntries_foldl_pushNode (allEntries t) emptyTable wellSized_emptyTable
      (fun n hn => (hall n hn).2.2.2.2)
    rw [allEntries_emptyTable, List.append_nil] at this
    exact this

theorem deleteNode_found {t : HashTable} {K : List Nat} {chain : List LocationNode}
    (hb : bucketAt t (hashFunction K) = some chain) (hmem : ∃ n ∈ chain, n.key = K) :
    ∃ front n back, chain = front ++ n :: back ∧ n.key = K ∧ (∀ x ∈ front, x.key ≠ K) ∧
      deleteNode K t = some (true, t.set (hashFunction K).toNat (front ++ back)) := by
  obtain ⟨rest, hrest⟩ := unlinkFirst_of_mem hmem
  obtain ⟨front, n, back, rfl, hn, rfl, hfront⟩ := unlinkFirst_eq_some hrest
  exact ⟨front, n, back, rfl, hn, hfront, by simp [deleteNode, hb, hrest]⟩

theorem allEntries_set_erase {t : HashTable} {i : Nat} {front back : List LocationNode}
    {n : LocationNode} (h : t[i]? = some (front ++ n :: back)) :
    ∃ before after, allEntries t = before ++ n :: after ∧
      allEntries (t.set i (front ++ back)) = before ++ after := by
  obtain ⟨hsplit, hset⟩ := table_split h (front ++ back)
  refine ⟨(t.take i).flatten ++ front, back ++ (t.drop (i + 1)).flatten, ?_, ?_⟩
  · conv_lhs => rw [hsplit]
    simp [allEntries, List.append_assoc]
  · rw [hset]
    simp [allEntries, List.append_assoc]

/-- The line written for a node that can be read back is read back as that node, put at
the head of its chain. -/
theorem loadLines_formatNode_back {n : LocationNode} (hn : Rereadable n) (rest : List Nat)
    {t : HashTable} (ht : WellSized t) :
    loadLines (formatNode n ++ rest) t = loadLines rest (pushNode t n) := by
  obtain ⟨hfits, ⟨hk, hb, hf, hr, hd⟩, ⟨tk, tb, tf, tr, td⟩, hcomment, hvalid⟩ := hn
  obtain ⟨fk, fb, ff, fr, fd⟩ := hfits
  have hlen : (formatLine n.key n.building n.floor n.room n.description).length
      < MAX_LINE_LENGTH := by
    rw [formatLine_length]
    simp only [MAX_ID_LENGTH, MAX_NAME_LENGTH, MAX_LINE_LENGTH] at *
    omega
  have hbody : ∀ c ∈ n.key ++ [59] ++ n.building ++ [59] ++ n.floor ++ [59] ++ n.room ++
      [59] ++ n.description, c ≠ 10 := by
    intro c hc
    simp only [List.mem_append, List.mem_singleton] at hc
    rcases hc with (((((((hc | rfl) | hc) | rfl) | hc) | rfl) | hc) | rfl) | hc
    · exact (hk.2 c hc).2.1
    · decide
    · exact (hb.2 c hc).2.1
    · decide
    · exact (hf.2 c hc).2.1
    · decide
    · exact (hr.2 c hc).2.1
    · decide
    · exact (hd c hc).2.1
  have e : formatLine n.key n.building n.floor n.room n.description =
      (n.key ++ [59] ++ n.building ++ [59] ++ n.floor ++ [59] ++ n.room ++ [59] ++
        n.description) ++ [10] := rfl
  have eline : (n.key ++ [59] ++ n.building ++ [59] ++ n.floor ++ [59] ++ n.room ++ [59] ++
      n.description) ++ [10] =
      n.key ++ 59 :: (n.building ++ 59 :: (n.floor ++ 59 :: (n.room ++ 59 ::
        (n.description ++ [10])))) := by
    simp [List.append_assoc]
  obtain ⟨chain, hc, hins⟩ := insertLocation_of_valid ht n.key n.building n.floor n.room
    n.description hvalid
  rw [strncpyField_of_lt fk, strncpyField_of_lt fb, strncpyField_of_lt ff,
    strncpyField_of_lt fr, strncpyField_of_lt fd] at hins
  rw [e] at hlen
  unfold formatNode
  rw [e, loadLines_newline_line _ rest t hbody hlen, eline,
    processLine_entry n.key n.building n.floor n.room (n.description ++ [10]) t hk hb hf hr
      (by simp)
      (by
        intro c hc
        rcases List.mem_append.1 hc with hc | hc
        · exact ⟨(hd c hc).1, (hd c hc).2.2⟩
        · simp at hc; subst hc; decide)
      hcomment,
    normalizeString_newline, normalizeString_of_noTrailingSpace tk,
    normalizeString_of_noTrailingSpace tb, normalizeString_of_noTrailingSpace tf,
    normalizeString_of_noTrailingSpace tr, normalizeString_of_noTrailingSpace td, hins,
    Option.some_bind, pushNode, bucketAt_getD hc]

theorem loadLines_formatNodes_back (rest : List Nat) :
    ∀ (es : List LocationNode) (t : HashTable), WellSized t → (∀ n ∈ es, Rereadable n) →
      loadLines (es.flatMap formatNode ++ rest) t = loadLines rest (es.foldl pushNode t) := by
  intro es
  induction es with
  | nil => intro t _ _; rfl
  | cons n es ih =>
    intro t ht hes
    rw [List.flatMap_cons, List.append_assoc, loadLines_formatNode_back (hes n (by simp)) _ ht,
      ih _ (wellSized_pushNode ht n) (fun m hm => hes m (by simp [hm]))]
    rfl

/-- The file `rewriteLocationFile` writes for a table of nodes that can be read back is
read back as a table that holds the same nodes. -/
theorem loadLines_rewritten_back (t : HashTable) (hall : ∀ n ∈ allEntries t, Rereadable n) :
    ∃ t1, loadLines (fileHeader ++ (allEntries t).flatMap formatNode) emptyTable = some t1 ∧
      t1 = (allEntries t).foldl pushNode emptyTable ∧ (allEntries t1).Perm (allEntries t) := by
  refine ⟨_, ?_, rfl, ?_⟩
  · rw [loadLines_fileHeader]
    have := loadLines_formatNodes_back [] (allEntries t) emptyTable wellSized_emptyTable hall
    rw [List.append_nil, loadLines_nil] at this
    exact this
  · have := allEntries_foldl_pushNode (allEntries t) emptyTable wellSized_emptyTable
      (fun n hn => (hall n hn).2.2.2.2)
    rw [allEntries_emptyTable, List.append_nil] at this
    exact this

/-- C13 (amended): for every state whose table holds only nodes that can be read back
(fields that fit the node, free of `;`, newline and NUL and of trailing whitespace, a key,
a building, a floor and a room that are not empty, while the description may be empty, a
key that does not begin with `#` and hashes to a slot), and every key `K` found in the
chain of its slot, when the file can be opened for writing and for reading the delete
succeeds, and `loadLocationData` on the rewritten file builds a table that holds the same
multiset of nodes as the table in memory. -/
theorem reload_after_delete (s : State) (K : List Nat) (hw : s.file.canWrite = true)
    (hr : s.file.canRead = true)
    (hpresent : ∃ chain, bucketAt s.hashTable (hashFunction K) = some chain ∧
      ∃ n ∈ chain, n.key = K)
    (hall : ∀ n ∈ allEntries s.hashTable, Rereadable n) :
    ∃ s1 s2, deleteLocationFor K s = some s1 ∧
      s1.output = s.output ++ [Msg.deleteSuccess K] ∧
      loadLocationData s1 = some s2 ∧
      (allEntries s2.hashTable).Perm (allEntries s1.hashTable) := by
  obtain ⟨chain, hb, hmem⟩ := hpresent
  obtain ⟨front, n, back, rfl, -, -, hdel⟩ := deleteNode_found hb hmem
  obtain ⟨before, after, h1, h2⟩ := allEntries_set_erase (bucketAt_eq_some hb).2
  have hall1 : ∀ m ∈ allEntries (s.hashTable.set (hashFunction K).toNat (front ++ back)),
      Rereadable m := by
    intro m hm
    refine hall m ?_
    rw [h2] at hm
    rw [h1]
    rcases List.mem_append.1 hm with hm | hm
    · exact List.mem_append.2 (Or.inl hm)
    · exact List.mem_append.2 (Or.inr (List.mem_cons_of_mem _ hm))
  obtain ⟨t1, hload, -, hperm⟩ := loadLines_rewritten_back _ hall1
  have hs1 : deleteLocationFor K s =
      some ((rewriteLocationFile { s with
        hashTable := s.hashTable.set (hashFunction K).toNat (front ++ back) }).print
        (Msg.deleteSuccess K)) := by
    simp only [deleteLocationFor, hdel]
  refine ⟨(rewriteLocationFile { s with
        hashTable := s.hashTable.set (hashFunction K).toNat (front ++ back) }).print
        (Msg.deleteSuccess K),
    { ((rewriteLocationFile { s with
        hashTable := s.hashTable.set (hashFunction K).toNat (front ++ back) }).print
        (Msg.deleteSuccess K)) with hashTable := t1 }, hs1, ?_, ?_, ?_⟩
  · simp [rewriteLocationFile, hw, State.print]
  · simp only [loadLocationData, rewriteLocationFile, hw, hr, if_true, State.print, hload]
  · simpa [rewriteLocationFile, hw, State.print] using hperm

/-- C13 (witness): the table holds `library` (slot 7), with an empty description, and
`c_lab` (slot 17); `c_lab` is deleted. -/
theorem reload_after_delete_witness :
    ∃ s1 s2, deleteLocationFor (ascii "c_lab")
        (adminSession
          ((emptyTable.set 17
            [{ key := ascii "c_lab", building := ascii "Engineering Hall",
               floor := ascii "2nd", room := ascii "204",
               description := ascii "Computer Lab" }]).set 7
            [{ key := ascii "library", building := ascii "Main Block", floor := ascii "1st",
               room := ascii "101", description := [] }])
          none []) = some s1 ∧
      s1.output = [] ++ [Msg.deleteSuccess (ascii "c_lab")] ∧
      loadLocationData s1 = some s2 ∧
      (allEntries s2.hashTable).Perm (allEntries s1.hashTable) :=
  reload_after_delete
    (adminSession
      ((emptyTable.set 17
        [{ key := ascii "c_lab", building := ascii "Engineering Hall",
           floor := ascii "2nd", room := ascii "204",
           description := ascii "Computer Lab" }]).set 7
        [{ key := ascii "library", building := ascii "Main Block", floor := ascii "1st",
           room := ascii "101", description := [] }])
      none [])
    (ascii "c_lab") (by decide) (by decide)
    ⟨[{ key := ascii "c_lab", building := ascii "Engineering Hall", floor := ascii "2nd",
        room := ascii "204", description := ascii "Computer Lab" }], by decide,
      { key := ascii "c_lab", building := ascii "Engineering Hall", floor := ascii "2nd",
        room := ascii "204", description := ascii "Computer Lab" }, by decide, by decide⟩
    (by decide)

/-- C13 (counterexample): the file holds a `c_lab` line whose building is one space and a
`gym` line; after `loadLocationData`, `deleteLocationMenu` for `gym` succeeds and leaves
`c_lab`, with an empty building, in the table; it is written as `c_lab;;2nd;204;Computer Lab`
and `loadLocationData` on the rewritten file builds a table without any node. -/
theorem reload_after_delete_loses_empty_field :
    ((loadLocationData (adminSession emptyTable
        (some (ascii "c_lab; ;2nd;204;Computer Lab\n" ++
          ascii "gym;Sports Complex;Ground;G2;Fitness Centre\n"))
        (ascii "gym\n"))).bind deleteLocationMenu).map
      (fun s => (s.output, allEntries s.hashTable, s.file.content,
        (loadLocationData s).map (fun s2 => allEntries s2.hashTable))) =
      some ([Msg.deleteSuccess (ascii "gym")],
        [{ key := ascii "c_lab", building := [], floor := ascii "2nd", room := ascii "204",
           description := ascii "Computer Lab" }],
        some (fileHeader ++ ascii "c_lab;;2nd;204;Computer Lab\n"),
        some []) := by
  decide

/-! ## Appending to the file -/

/-- C14: for every state in which the file can be opened for writing, with `F` the content
of the file (empty when the file does not exist yet), `saveLocationToFile` is
`loadLocationData` run on the file `F` followed by the line
`key;building;floor;room;description` and a newline: the file of the resulting state is
that text, the resulting table does not depend on the table before the call, and when the
file can be read it is the table the read loop builds from that text starting from the
empty table. -/
theorem saveLocationToFile_appends_then_reloads (s : State) (k b f r d : List Nat)
    (hw : s.file.canWrite = true) :
    saveLocationToFile k b f r d s =
      loadLocationData (s.withFileContent (s.file.content.getD [] ++ formatLine k b f r d)) ∧
    formatLine k b f r d = k ++ [59] ++ b ++ [59] ++ f ++ [59] ++ r ++ [59] ++ d ++ [10] ∧
    (∀ s1, saveLocationToFile k b f r d s = some s1 →
      s1.file.content = some (s.file.content.getD [] ++ formatLine k b f r d)) ∧
    (∀ t : HashTable, (saveLocationToFile k b f r d { s with hashTable := t }).map
        (fun s1 => s1.hashTable) =
      (saveLocationToFile k b f r d s).map (fun s1 => s1.hashTable)) ∧
    (s.file.canRead = true →
      (saveLocationToFile k b f r d s).map (fun s1 => s1.hashTable) =
        loadLines (s.file.content.getD [] ++ formatLine k b f r d) emptyTable) := by
  refine ⟨by simp [saveLocationToFile, hw, State.withFileContent], rfl, ?_, ?_, ?_⟩
  · intro s1 h
    simp only [saveLocationToFile, hw, if_true, loadLocationData] at h
    split at h
    · cases h; rfl
    · split at h
      · cases h
      · cases h; rfl
  · intro t
    simp only [saveLocationToFile, hw, if_true, loadLocationData]
  · intro hr
    simp only [saveLocationToFile, hw, if_true, loadLocationData, hr]
    cases loadLines (s.file.content.getD [] ++ formatLine k b f r d) emptyTable <;> rfl

/-- C14 (witness): `gym` is appended to a file that holds `library`, while the table in
memory holds something else. -/
theorem saveLocationToFile_appends_then_reloads_witness :
    (saveLocationToFile (ascii "gym") (ascii "Sports Complex") (ascii "Ground") (ascii "G2")
        (ascii "Fitness Centre")
        (adminSession
          (emptyTable.set 17
            [{ key := ascii "c_lab", building := ascii "Engineering Hall",
               floor := ascii "2nd", room := ascii "204",
               description := ascii "Computer Lab" }])
          (some (ascii "library;Main Block;1st;101;Central Library\n")) [])).map
      (fun s1 => s1.hashTable) =
      loadLines
        ((some (ascii "library;Main Block;1st;101;Central Library\n")).getD [] ++
          formatLine (ascii "gym") (ascii "Sports Complex") (ascii "Ground") (ascii "G2")
            (ascii "Fitness Centre")) emptyTable :=
  (saveLocationToFile_appends_then_reloads _ (ascii "gym") (ascii "Sports Complex")
    (ascii "Ground") (ascii "G2") (ascii "Fitness Centre") (by decide)).2.2.2.2 (by decide)

/-- C15: for every state in which the file cannot be opened for writing,
`saveLocationToFile` prints the error message and changes nothing else: the table and the
file are as before, and no node is inserted. -/
theorem saveLocationToFile_failed_open (s : State) (k b f r d : List Nat)
    (hw : s.file.canWrite = false) :
    saveLocationToFile k b f r d s =
      some { s with output := s.output ++ [Msg.writeError] } ∧
    ∀ s1, saveLocationToFile k b f r d s = some s1 →
      s1.hashTable = s.hashTable ∧ s1.file = s.file ∧
      allEntries s1.hashTable = allEntries s.hashTable := by
  have h : saveLocationToFile k b f r d s =
      some { s with output := s.output ++ [Msg.writeError] } := by
    simp [saveLocationToFile, hw, State.print]
  refine ⟨h, ?_⟩
  intro s1 h1
  rw [h] at h1
  cases h1
  exact ⟨rfl, rfl, rfl⟩

/-- C15 (witness): an append of `gym` with a file that cannot be opened for writing. -/
theorem saveLocationToFile_failed_open_witness :
    saveLocationToFile (ascii "gym") (ascii "Sports Complex") (ascii "Ground") (ascii "G2")
        (ascii "Fitness Centre")
        (readOnlySession emptyTable (some (ascii "library;Main Block;1st;101;Library\n")) []) =
      some { readOnlySession emptyTable
          (some (ascii "library;Main Block;1st;101;Library\n")) [] with
        output := [] ++ [Msg.writeError] } :=
  (saveLocationToFile_failed_open
    (readOnlySession emptyTable (some (ascii "library;Main Block;1st;101;Library\n")) [])
    (ascii "gym") (ascii "Sports Complex") (ascii "Ground") (ascii "G2")
    (ascii "Fitness Centre") (by decide)).1

/-! ## Outcome of an add or a delete when the file cannot be written -/

/-- C16 (the code at the failing input): with a data file that cannot be opened for
writing, `addLocationMenu` for `c_lab` prints the error of `saveLocationToFile` and then
the success message, the file and the table being unchanged; and `deleteLocationMenu` for
`c_lab`, present in the table, prints the error of `rewriteLocationFile` and then the
success message, the file being unchanged. -/
theorem success_reported_after_failed_write :
    (addLocationMenu (readOnlySession emptyTable (some [])
        (ascii "c_lab\nEngineering Hall\n2nd\n204\nComputer Lab\n"))).map
      (fun s => (s.output, s.file.content, allEntries s.hashTable)) =
      some ([Msg.writeError, Msg.addSuccess (ascii "c_lab")], some [], []) ∧
    (deleteLocationMenu (readOnlySession
        (emptyTable.set 17
          [{ key := ascii "c_lab", building := ascii "Engineering Hall", floor := ascii "2nd",
             room := ascii "204", description := ascii "Computer Lab" }])
        (some (ascii "c_lab;Engineering Hall;2nd;204;Computer Lab\n"))
        (ascii "c_lab\n"))).map
      (fun s => (s.output, s.file.content, allEntries s.hashTable)) =
      some ([Msg.writeError, Msg.deleteSuccess (ascii "c_lab")],
        some (ascii "c_lab;Engineering Hall;2nd;204;Computer Lab\n"), []) := by
  decide

/-- C17: for every state in which the file cannot be opened for writing and every key `K`
found in the chain of its slot, the delete leaves the file as it was and removes from the
table the first node of that chain whose key is `K` (and prints the error and then the
success message): the nodes of the table are those it held before, less that one node. -/
theorem delete_without_rollback (s : State) (K : List Nat) (chain : List LocationNode)
    (hw : s.file.canWrite = false)
    (hb : bucketAt s.hashTable (hashFunction K) = some chain)
    (hmem : ∃ n ∈ chain, n.key = K) :
    ∃ front n back before after,
      chain = front ++ n :: back ∧ n.key = K ∧ (∀ x ∈ front, x.key ≠ K) ∧
      deleteLocationFor K s =
        some { s with
          hashTable := s.hashTable.set (hashFunction K).toNat (front ++ back)
          output := s.output ++ [Msg.writeError, Msg.deleteSuccess K] } ∧
      allEntries s.hashTable = before ++ n :: after ∧
      allEntries (s.hashTable.set (hashFunction K).toNat (front ++ back)) = before ++ after := by
  obtain ⟨front, n, back, rfl, hn, hfront, hdel⟩ := deleteNode_found hb hmem
  obtain ⟨before, after, h1, h2⟩ := allEntries_set_erase (bucketAt_eq_some hb).2
  refine ⟨front, n, back, before, after, rfl, hn, hfront, ?_, h1, h2⟩
  simp [deleteLocationFor, hdel, rewriteLocationFile, hw, State.print]

/-- C17 (witness): `c_lab` is deleted from a table whose slot 17 holds two nodes of that
key, with a file that cannot be opened for writing. -/
theorem delete_without_rollback_witness :
    ∃ front n back before after,
      [chemistryLab, computerLab] = front ++ n :: back ∧
      n.key = ascii "c_lab" ∧ (∀ x ∈ front, x.key ≠ ascii "c_lab") ∧
      deleteLocationFor (ascii "c_lab") readOnlyExample =
        some { readOnlyExample with
          hashTable :=
            readOnlyExample.hashTable.set (hashFunction (ascii "c_lab")).toNat (front ++ back)
          output := readOnlyExample.output ++
            [Msg.writeError, Msg.deleteSuccess (ascii "c_lab")] } ∧
      allEntries readOnlyExample.hashTable = before ++ n :: after ∧
      allEntries (readOnlyExample.hashTable.set (hashFunction (ascii "c_lab")).toNat
        (front ++ back)) = before ++ after :=
  delete_without_rollback readOnlyExample (ascii "c_lab") [chemistryLab, computerLab]
    (by decide) (by decide) ⟨chemistryLab, by decide, by decide⟩

/-! ## The duplicate check of `addLocationMenu` -/

/-- C18 (the code at the failing input): the key `physics_lab_one`, 15 bytes long, is not
found in the empty table, so the key loop of `addLocationMenu` goes on to
`strcpy(key_buffer, key)`, which writes 16 bytes into the `MAX_ID_LENGTH = 15` bytes of
`key_buffer`: the add has no defined result; with the 14-byte key `physics_lab_on` and the
same other input it calls `saveLocationToFile` with that key. -/
theorem addLocationMenu_overflows_key_buffer :
    searchByKey (ascii "physics_lab_one") emptyTable = some SearchResult.notFound ∧
    (ascii "physics_lab_one").length = MAX_ID_LENGTH ∧
    addLocationMenu (adminSession emptyTable (some [])
      (ascii "physics_lab_one\nScience Block\n1st\n101\nPhysics Lab\n")) = none ∧
    (addLocationMenu (adminSession emptyTable (some [])
      (ascii "physics_lab_on\nScience Block\n1st\n101\nPhysics Lab\n"))).map
        (fun s => (s.output, s.file.content)) =
      some ([Msg.addSuccess (ascii "physics_lab_on")],
        some (ascii "physics_lab_on;Physics Lab;Physics Lab;Physics Lab;Physics Lab\n")) := by
  decide

/-! ## The in-memory delete -/

theorem unlinkFirst_none {k : List Nat} :
    ∀ {chain : List LocationNode}, (∀ n ∈ chain, n.key ≠ k) → unlinkFirst k chain = none := by
  intro chain
  induction chain with
  | nil => intro _; rfl
  | cons m chain ih =>
    intro h
    have hm : m.key ≠ k := h m (by simp)
    simp [unlinkFirst, hm, ih (fun n hn => h n (by simp [hn]))]

/-- C19: for every table and key `K` such that the chain of slot `hashFunction(K)` holds a
node with key `K`, the in-memory delete finds it and replaces that chain by the chain
without the first node whose key is `K` (the nodes before it, none of which has key `K`,
then the nodes after it, later nodes with key `K` included, in their order); every other
slot is unchanged and the table holds exactly one node less. -/
theorem deleteNode_removes_first_match (t : HashTable) (K : List Nat)
    (chain : List LocationNode) (hb : bucketAt t (hashFunction K) = some chain)
    (hmem : ∃ n ∈ chain, n.key = K) :
    ∃ front n back t1,
      chain = front ++ n :: back ∧ n.key = K ∧ (∀ x ∈ front, x.key ≠ K) ∧
      deleteNode K t = some (true, t1) ∧
      bucketAt t1 (hashFunction K) = some (front ++ back) ∧
      (∀ j : Int, j ≠ hashFunction K → bucketAt t1 j = bucketAt t j) ∧
      t1.length = t.length ∧
      (allEntries t1).length + 1 = (allEntries t).length := by
  obtain ⟨front, n, back, rfl, hn, hfront, hdel⟩ := deleteNode_found hb hmem
  obtain ⟨before, after, h1, h2⟩ := allEntries_set_erase (bucketAt_eq_some hb).2
  obtain ⟨hv, hget⟩ := bucketAt_eq_some hb
  have hlt : (hashFunction K).toNat < t.length := (List.getElem?_eq_some.1 hget).1
  refine ⟨front, n, back, _, rfl, hn, hfront, hdel, ?_, ?_, ?_, ?_⟩
  · simp [bucketAt, hv, List.getElem?_set_self hlt]
  · intro j hj
    by_cases hvj : validIndex j
    · exact bucketAt_set_other hv hvj (Ne.symm hj) _
    · simp [bucketAt, hvj]
  · simp
  · rw [h1, h2]
    simp only [List.length_append, List.length_cons]
    omega

/-- C19 (witness): `c_lab` is deleted from a table whose slot 17 holds the chemistry lab,
then the computer lab, both with key `c_lab`. -/
theorem deleteNode_removes_first_match_witness :
    ∃ front n back t1,
      [chemistryLab, computerLab] = front ++ n :: back ∧ n.key = ascii "c_lab" ∧
      (∀ x ∈ front, x.key ≠ ascii "c_lab") ∧
      deleteNode (ascii "c_lab") readOnlyExample.hashTable = some (true, t1) ∧
      bucketAt t1 (hashFunction (ascii "c_lab")) = some (front ++ back) ∧
      (∀ j : Int, j ≠ hashFunction (ascii "c_lab") →
        bucketAt t1 j = bucketAt readOnlyExample.hashTable j) ∧
      t1.length = readOnlyExample.hashTable.length ∧
      (allEntries t1).length + 1 = (allEntries readOnlyExample.hashTable).length :=
  deleteNode_removes_first_match readOnlyExample.hashTable (ascii "c_lab")
    [chemistryLab, computerLab] (by decide) ⟨chemistryLab, by decide, by decide⟩

/-- C20: for every state and key `K` such that no node of the chain of slot
`hashFunction(K)` has key `K`, the delete prints that the key was not found and changes
nothing else: the table and the file are as before and nothing is written; so does
`deleteLocationMenu` of an administrator when `K` is the key it reads. -/
theorem delete_of_absent_key (s : State) (K : List Nat) (chain : List LocationNode)
    (hb : bucketAt s.hashTable (hashFunction K) = some chain)
    (habsent : ∀ n ∈ chain, n.key ≠ K) :
    deleteLocationFor K s = some { s with output := s.output ++ [Msg.deleteNotFound K] } ∧
    (s.currentUserRole = UserRole.ROLE_ADMIN → deref (getInput s).2 (getInput s).1 = K →
      ∃ s1, deleteLocationMenu s = some s1 ∧ s1.hashTable = s.hashTable ∧
        s1.file = s.file ∧ s1.output = s.output ++ [Msg.deleteNotFound K]) := by
  have hdel : ∀ s0 : State, s0.hashTable = s.hashTable →
      deleteLocationFor K s0 = some { s0 with output := s0.output ++ [Msg.deleteNotFound K] } := by
    intro s0 h0
    simp [deleteLocationFor, deleteNode, h0, hb, unlinkFirst_none habsent, State.print]
  refine ⟨hdel s rfl, ?_⟩
  intro hrole hkey
  have hin : (getInput s).2.hashTable = s.hashTable ∧ (getInput s).2.file = s.file ∧
      (getInput s).2.output = s.output := by
    unfold getInput
    split <;> exact ⟨rfl, rfl, rfl⟩
  refine ⟨{ (getInput s).2 with output := (getInput s).2.output ++ [Msg.deleteNotFound K] },
    ?_, hin.1, hin.2.1, ?_⟩
  · simp only [deleteLocationMenu, hrole, ne_eq, not_true_eq_false, if_false, hkey]
    exact hdel _ hin.1
  · simp [hin.2.2]

/-- C20 (witness): `gym` is deleted from the example table, which does not hold it. -/
theorem delete_of_absent_key_witness :
    deleteLocationFor (ascii "gym") readOnlyExample =
      some { readOnlyExample with
        output := readOnlyExample.output ++ [Msg.deleteNotFound (ascii "gym")] } :=
  (delete_of_absent_key readOnlyExample (ascii "gym") [] (by decide) (by decide)).1

/-! ## Search -/

theorem searchChain_found_iff (K : List Nat) (e : LocationNode) :
    ∀ chain : List LocationNode, searchChain K chain = SearchResult.found e ↔
      ∃ front back, chain = front ++ e :: back ∧ e.key = K ∧ ∀ x ∈ front, x.key ≠ K := by
  intro chain
  induction chain with
  | nil => simp [searchChain]
  | cons n chain ih =>
    by_cases hn : n.key = K
    · simp only [searchChain, hn, if_true, SearchResult.found.injEq]
      constructor
      · rintro rfl
        exact ⟨[], chain, rfl, hn, by simp⟩
      · rintro ⟨front, back, hc, -, hfront⟩
        cases front with
        | nil => simp only [List.nil_append, List.cons.injEq] at hc; exact hc.1
        | cons m front =>
          simp only [List.cons_append, List.cons.injEq] at hc
          exact absurd (hc.1 ▸ hn) (hfront m (by simp))
    · simp only [searchChain, hn, if_false, ih]
      constructor
      · rintro ⟨front, back, rfl, hk, hfront⟩
        refine ⟨n :: front, back, rfl, hk, ?_⟩
        intro x hx
        rcases List.mem_cons.1 hx with rfl | hx
        · exact hn
        · exact hfront x hx
      · rintro ⟨front, back, hc, hk, hfront⟩
        cases front with
        | nil =>
          simp only [List.nil_append, List.cons.injEq] at hc
          exact absurd (hc.1 ▸ hk) hn
        | cons m front =>
          simp only [List.cons_append, List.cons.injEq] at hc
          exact ⟨front, back, hc.2, hk, fun x hx => hfront x (by simp [hx])⟩

theorem searchChain_notFound_iff (K : List Nat) :
    ∀ chain : List LocationNode, searchChain K chain = SearchResult.notFound ↔
      ∀ n ∈ chain, n.key ≠ K := by
  intro chain
  induction chain with
  | nil => simp [searchChain]
  | cons n chain ih =>
    by_cases hn : n.key = K
    · simp [searchChain, hn]
    · simp [searchChain, hn, ih]

theorem getInput_keeps_table (s : State) :
    (getInput s).2.hashTable = s.hashTable ∧ (getInput s).2.file = s.file ∧
      (getInput s).2.output = s.output ∧
      (getInput s).2.currentUserRole = s.currentUserRole := by
  unfold getInput
  split <;> exact ⟨rfl, rfl, rfl, rfl⟩

theorem print_inj {s : State} {m1 m2 : Msg} (h : s.print m1 = s.print m2) : m1 = m2 := by
  have ho : (s.print m1).output = (s.print m2).output := by rw [h]
  simp only [State.print] at ho
  simpa using ho

theorem searchByKey_found_iff (t : HashTable) (K : List Nat) (e : LocationNode) :
    searchByKey K t = some (SearchResult.found e) ↔
      ∃ chain, bucketAt t (hashFunction K) = some chain ∧
        ∃ front back, chain = front ++ e :: back ∧ e.key = K ∧ ∀ x ∈ front, x.key ≠ K := by
  cases hb : bucketAt t (hashFunction K) with
  | none => simp [searchByKey, hb]
  | some chain => simp [searchByKey, hb, searchChain_found_iff]

theorem searchByKey_notFound_iff (t : HashTable) (K : List Nat) :
    searchByKey K t = some SearchResult.notFound ↔
      ∃ chain, bucketAt t (hashFunction K) = some chain ∧ ∀ n ∈ chain, n.key ≠ K := by
  cases hb : bucketAt t (hashFunction K) with
  | none => simp [searchByKey, hb]
  | some chain => simp [searchByKey, hb, searchChain_notFound_iff]

theorem searchLocationFor_found_iff (s : State) (K : List Nat) (e : LocationNode) :
    searchLocationFor K s = some (s.print (Msg.searchFound e)) ↔
      searchByKey K s.hashTable = some (SearchResult.found e) := by
  unfold searchLocationFor
  cases hs : searchByKey K s.hashTable with
  | none => simp
  | some res =>
    cases res with
    | found e1 =>
      simp only [Option.some.injEq, SearchResult.found.injEq]
      constructor
      · intro h
        have := print_inj h
        injection this
      · rintro rfl; rfl
    | notFound =>
      simp only [Option.some.injEq]
      constructor
      · intro h
        have := print_inj h
        cases this
      · intro h; cases h

theorem searchLocationFor_notFound_iff (s : State) (K : List Nat) :
    searchLocationFor K s = some (s.print (Msg.searchNotFound K)) ↔
      searchByKey K s.hashTable = some SearchResult.notFound := by
  unfold searchLocationFor
  cases hs : searchByKey K s.hashTable with
  | none => simp
  | some res =>
    cases res with
    | found e1 =>
      simp only [Option.some.injEq]
      constructor
      · intro h
        have := print_inj h
        cases this
      · intro h; cases h
    | notFound => simp

theorem searchLocationFor_returns (s s1 : State) (K : List Nat)
    (h : searchLocationFor K s = some s1) :
    (s1 = s.print (Msg.searchNotFound K) ∨ ∃ e, s1 = s.print (Msg.searchFound e)) ∧
      s1.hashTable = s.hashTable ∧ s1.file = s.file := by
  unfold searchLocationFor at h
  cases hs : searchByKey K s.hashTable with
  | none => simp [hs] at h
  | some res =>
    cases res with
    | found e =>
      simp only [hs, Option.some.injEq] at h
      subst h
      exact ⟨Or.inr ⟨e, rfl⟩, rfl, rfl⟩
    | notFound =>
      simp only [hs, Option.some.injEq] at h
      subst h
      exact ⟨Or.inl rfl, rfl, rfl⟩

theorem searchLocationFor_total (s : State) (K : List Nat) (ht : WellSized s.hashTable)
    (hv : validIndex (hashFunction K)) :
    searchLocationFor K s = some (s.print (Msg.searchNotFound K)) ∨
      ∃ e, searchLocationFor K s = some (s.print (Msg.searchFound e)) := by
  obtain ⟨chain, hb, _⟩ := bucketAt_of_valid ht hv
  cases hc : searchChain K chain with
  | found e =>
    right
    exact ⟨e, by simp [searchLocationFor, searchByKey, hb, hc]⟩
  | notFound =>
    left
    simp [searchLocationFor, searchByKey, hb, hc]

/-- C21: for every state and key `K`, the search of lines 456-476 reports the node `e`
exactly when `e` is the first node, head to tail, of the chain of slot `hashFunction(K)`
whose key equals `K`, and reports that `K` was not found exactly when that chain holds no
node with key `K`; whenever the table has its slots and `hashFunction(K)` is one of them it
returns with one of these two reports; the state it returns is the state before the call
with the report printed, so the table and the file are unchanged.  `searchLocation` does
the same for the key it reads with `getInput`, on the table as it was before the call. -/
theorem search_returns_first_match (s : State) (K : List Nat) :
    ((∀ e, searchLocationFor K s = some (s.print (Msg.searchFound e)) ↔
        ∃ chain, bucketAt s.hashTable (hashFunction K) = some chain ∧
          ∃ front back, chain = front ++ e :: back ∧ e.key = K ∧ ∀ x ∈ front, x.key ≠ K) ∧
      (searchLocationFor K s = some (s.print (Msg.searchNotFound K)) ↔
        ∃ chain, bucketAt s.hashTable (hashFunction K) = some chain ∧
          ∀ n ∈ chain, n.key ≠ K) ∧
      (WellSized s.hashTable → validIndex (hashFunction K) →
        searchLocationFor K s = some (s.print (Msg.searchNotFound K)) ∨
          ∃ e, searchLocationFor K s = some (s.print (Msg.searchFound e))) ∧
      (∀ s1, searchLocationFor K s = some s1 →
        (s1 = s.print (Msg.searchNotFound K) ∨ ∃ e, s1 = s.print (Msg.searchFound e)) ∧
          s1.hashTable = s.hashTable ∧ s1.file = s.file)) ∧
    ((∀ e, searchLocation s = some ((getInput s).2.print (Msg.searchFound e)) ↔
        ∃ chain, bucketAt s.hashTable
            (hashFunction (deref (getInput s).2 (getInput s).1)) = some chain ∧
          ∃ front back, chain = front ++ e :: back ∧
            e.key = deref (getInput s).2 (getInput s).1 ∧
            ∀ x ∈ front, x.key ≠ deref (getInput s).2 (getInput s).1) ∧
      (searchLocation s = some ((getInput s).2.print
          (Msg.searchNotFound (deref (getInput s).2 (getInput s).1))) ↔
        ∃ chain, bucketAt s.hashTable
            (hashFunction (deref (getInput s).2 (getInput s).1)) = some chain ∧
          ∀ n ∈ chain, n.key ≠ deref (getInput s).2 (getInput s).1) ∧
      (WellSized s.hashTable →
        validIndex (hashFunction (deref (getInput s).2 (getInput s).1)) →
        ∃ s1, searchLocation s = some s1) ∧
      (∀ s1, searchLocation s = some s1 → s1.hashTable = s.hashTable ∧ s1.file = s.file)) := by
  have hfor : ∀ (s : State) (K : List Nat),
      (∀ e, searchLocationFor K s = some (s.print (Msg.searchFound e)) ↔
        ∃ chain, bucketAt s.hashTable (hashFunction K) = some chain ∧
          ∃ front back, chain = front ++ e :: back ∧ e.key = K ∧ ∀ x ∈ front, x.key ≠ K) ∧
      (searchLocationFor K s = some (s.print (Msg.searchNotFound K)) ↔
        ∃ chain, bucketAt s.hashTable (hashFunction K) = some chain ∧
          ∀ n ∈ chain, n.key ≠ K) := by
    intro s K
    constructor
    · intro e
      rw [searchLocationFor_found_iff, searchByKey_found_iff]
    · rw [searchLocationFor_notFound_iff, searchByKey_notFound_iff]
  obtain ⟨ht, hf, -, -⟩ := getInput_keeps_table s
  refine ⟨⟨(hfor s K).1, (hfor s K).2, searchLocationFor_total s K,
    fun s1 h => searchLocationFor_returns s s1 K h⟩, ?_, ?_, ?_, ?_⟩
  · intro e
    have h := (hfor (getInput s).2 (deref (getInput s).2 (getInput s).1)).1 e
    rw [ht] at h
    exact h
  · have h := (hfor (getInput s).2 (deref (getInput s).2 (getInput s).1)).2
    rw [ht] at h
    exact h
  · intro hw hv
    rcases searchLocationFor_total (getInput s).2 (deref (getInput s).2 (getInput s).1)
      (by rw [ht]; exact hw) hv with h | ⟨e, h⟩
    · exact ⟨_, h⟩
    · exact ⟨_, h⟩
  · intro s1 h
    obtain ⟨-, h1, h2⟩ := searchLocationFor_returns (getInput s).2 s1
      (deref (getInput s).2 (getInput s).1) h
    exact ⟨h1.trans ht, h2.trans hf⟩

/-- C21 (witness): in the example state the chain of slot 17 holds the chemistry lab, then
the computer lab, both with key `c_lab`; the search for `c_lab` reports the chemistry lab,
and the search for `gym` reports that it was not found. -/
theorem search_returns_first_match_witness :
    searchLocationFor (ascii "c_lab") readOnlyExample =
        some (readOnlyExample.print (Msg.searchFound chemistryLab)) ∧
      searchLocationFor (ascii "gym") readOnlyExample =
        some (readOnlyExample.print (Msg.searchNotFound (ascii "gym"))) :=
  ⟨((search_returns_first_match readOnlyExample (ascii "c_lab")).1.1 chemistryLab).2
      ⟨[chemistryLab, computerLab], by decide, [], [computerLab], by decide, by decide,
        by decide⟩,
    (search_returns_first_match readOnlyExample (ascii "gym")).1.2.1.2
      ⟨[], by decide, by decide⟩⟩

/-! ## Insert -/

/-- C22 (amended): for every table of `HASH_SIZE` slots and every entry whose key hashes to
a slot, `insertLocation` makes the chain of slot `hashFunction(key)` equal to the new node
followed by the previous chain, where the new node holds the five fields of the entry, each
cut to the capacity of the node (the entry itself when its fields fit); no existing key is
looked at (the previous chain is kept whole, whatever keys it holds), every other slot is
unchanged and the table holds exactly one node more. -/
theorem insertLocation_prepends (t : HashTable) (key building floor room desc : List Nat)
    (ht : WellSized t) (hv : validIndex (hashFunction key)) :
    ∃ chain t1, bucketAt t (hashFunction key) = some chain ∧
      insertLocation key building floor room desc t = some t1 ∧
      bucketAt t1 (hashFunction key) =
        some ({ key := strncpyField MAX_ID_LENGTH key
                building := strncpyField MAX_NAME_LENGTH building
                floor := strncpyField MAX_ID_LENGTH floor
                room := strncpyField MAX_ID_LENGTH room
                description := strncpyField MAX_NAME_LENGTH desc } :: chain) ∧
      (LocationNode.Fits { key := key, building := building, floor := floor, room := room,
                           description := desc } →
        bucketAt t1 (hashFunction key) =
          some ({ key := key, building := building, floor := floor, room := room,
                  description := desc } :: chain)) ∧
      (∀ j : Int, j ≠ hashFunction key → bucketAt t1 j = bucketAt t j) ∧
      t1.length = t.length ∧
      (allEntries t1).length = (allEntries t).length + 1 := by
  obtain ⟨chain, hb, hins⟩ := insertLocation_of_valid ht key building floor room desc hv
  have hsame := bucketAt_set_same ht hv
    ({ key := strncpyField MAX_ID_LENGTH key
       building := strncpyField MAX_NAME_LENGTH building
       floor := strncpyField MAX_ID_LENGTH floor
       room := strncpyField MAX_ID_LENGTH room
       description := strncpyField MAX_NAME_LENGTH desc } :: chain)
  refine ⟨chain, _, hb, hins, hsame, ?_, ?_, ?_, ?_⟩
  · rintro ⟨h1, h2, h3, h4, h5⟩
    rw [hsame, strncpyField_of_lt h1, strncpyField_of_lt h2, strncpyField_of_lt h3,
      strncpyField_of_lt h4, strncpyField_of_lt h5]
  · intro j hj
    by_cases hvj : validIndex j
    · exact bucketAt_set_other hv hvj (Ne.symm hj) _
    · simp [bucketAt, hvj]
  · simp
  · exact (allEntries_set_cons (bucketAt_eq_some hb).2 _).length_eq

/-- C22 (witness): the computer lab is inserted into the example table, whose slot 17
already holds two nodes with the key `c_lab`. -/
theorem insertLocation_prepends_witness :
    ∃ chain t1, bucketAt readOnlyExample.hashTable (hashFunction (ascii "c_lab")) = some chain ∧
      insertLocation (ascii "c_lab") (ascii "Engineering Hall") (ascii "2nd") (ascii "204")
        (ascii "Computer Lab") readOnlyExample.hashTable = some t1 ∧
      bucketAt t1 (hashFunction (ascii "c_lab")) =
        some ({ key := strncpyField MAX_ID_LENGTH (ascii "c_lab")
                building := strncpyField MAX_NAME_LENGTH (ascii "Engineering Hall")
                floor := strncpyField MAX_ID_LENGTH (ascii "2nd")
                room := strncpyField MAX_ID_LENGTH (ascii "204")
                description := strncpyField MAX_NAME_LENGTH (ascii "Computer Lab") } :: chain) ∧
      (LocationNode.Fits { key := ascii "c_lab", building := ascii "Engineering Hall",
                           floor := ascii "2nd", room := ascii "204",
                           description := ascii "Computer Lab" } →
        bucketAt t1 (hashFunction (ascii "c_lab")) =
          some ({ key := ascii "c_lab", building := ascii "Engineering Hall",
                  floor := ascii "2nd", room := ascii "204",
                  description := ascii "Computer Lab" } :: chain)) ∧
      (∀ j : Int, j ≠ hashFunction (ascii "c_lab") →
        bucketAt t1 j = bucketAt readOnlyExample.hashTable j) ∧
      t1.length = readOnlyExample.hashTable.length ∧
      (allEntries t1).length = (allEntries readOnlyExample.hashTable).length + 1 :=
  insertLocation_prepends readOnlyExample.hashTable (ascii "c_lab") (ascii "Engineering Hall")
    (ascii "2nd") (ascii "204") (ascii "Computer Lab") (by decide) (by decide)

/-- C22 (counterexample): the entry ("library_annex_2", "Main Block", "1st", "102",
"Annex") is inserted into the empty table; the chain of slot `hashFunction(key)` then holds
one node whose key is `library_annex_`, not the entry. -/
theorem insertLocation_stores_cut_key :
    (insertLocation (ascii "library_annex_2") (ascii "Main Block") (ascii "1st") (ascii "102")
        (ascii "Annex") emptyTable).bind
      (fun t1 => bucketAt t1 (hashFunction (ascii "library_annex_2"))) =
      some [{ key := ascii "library_annex_", building := ascii "Main Block",
              floor := ascii "1st", room := ascii "102", description := ascii "Annex" }] := by
  decide

/-! ## Placement of the nodes -/

/-- C23 (the code at the failing input): the data file holds the line
`physics_lab_one;Science Block;1st;101;Physics Lab`; after `loadLocationData` the node,
whose stored key is `physics_lab_on`, sits in slot 36, the hash of the key as read, while
the hash of its stored key is 35, and the search for the stored key finds nothing. -/
theorem loaded_node_outside_slot_of_stored_key :
    (loadLocationData (adminSession emptyTable
        (some (ascii "physics_lab_one;Science Block;1st;101;Physics Lab\n")) [])).map
      (fun s => (bucketAt s.hashTable 36, bucketAt s.hashTable 35,
        searchByKey (ascii "physics_lab_on") s.hashTable)) =
      some (some [{ key := ascii "physics_lab_on", building := ascii "Science Block",
                    floor := ascii "1st", room := ascii "101",
                    description := ascii "Physics Lab" }],
        some [], some SearchResult.notFound) ∧
    hashFunction (ascii "physics_lab_one") = 36 ∧
    hashFunction (ascii "physics_lab_on") = 35 := by
  decide

/-! ## Loading without a file -/

/-- C24: for every state, whatever its table holds, when the data file does not exist or
cannot be opened for reading `loadLocationData` returns, having printed the warning, with
the empty table, whose 50 slots are all empty; nothing else changes. -/
theorem loadLocationData_without_file (s : State)
    (h : s.file.content = none ∨ s.file.canRead = false) :
    loadLocationData s =
      some { s with hashTable := emptyTable, output := s.output ++ [Msg.loadWarning] } ∧
    emptyTable.length = 50 ∧ (∀ chain ∈ emptyTable, chain = []) ∧
    allEntries emptyTable = [] := by
  refine ⟨?_, by decide, ?_, allEntries_emptyTable⟩
  · unfold loadLocationData
    rcases h with h | h
    · simp [h, State.print]
    · simp [h, State.print]
  · intro chain hc
    exact (List.mem_replicate.1 hc).2

/-- C24 (witness): the example table is loaded while the data file does not exist. -/
theorem loadLocationData_without_file_witness :
    loadLocationData { readOnlyExample with
        file := { content := none, canRead := true, canWrite := true } } =
      some { readOnlyExample with
        file := { content := none, canRead := true, canWrite := true }
        hashTable := emptyTable
        output := readOnlyExample.output ++ [Msg.loadWarning] } :=
  (loadLocationData_without_file
    { readOnlyExample with file := { content := none, canRead := true, canWrite := true } }
    (Or.inl rfl)).1

/-! ## The tokens of a buffer read -/

theorem strtok_skip (s : List Nat) : strtok (59 :: s) = strtok s := by
  simp [strtok, List.dropWhile_cons]

theorem strtok_spec : ∀ {s tok rest : List Nat}, strtok s = some (tok, rest) →
    ∃ a tail, s = a ++ tok ++ tail ∧ (∀ x ∈ tok, x ≠ 59) ∧ tok ≠ [] ∧
      ((tail = [] ∧ rest = []) ∨ tail = 59 :: rest) := by
  intro s
  induction s with
  | nil => intro tok rest h; simp [strtok] at h
  | cons c s ih =>
    intro tok rest h
    by_cases hc : c = 59
    · subst hc
      rw [strtok_skip] at h
      obtain ⟨a, tail, rfl, h1, h2, h3⟩ := ih h
      exact ⟨59 :: a, tail, by simp, h1, h2, h3⟩
    · have hform : strtok (c :: s) = some ((c :: s).takeWhile (fun x => x != 59),
          ((c :: s).dropWhile (fun x => x != 59)).drop 1) := by
        have hd : (c :: s).dropWhile (fun x => x == 59) = c :: s := by
          simp [List.dropWhile_cons, hc]
        simp only [strtok, hd]
      rw [hform] at h
      simp only [Option.some.injEq, Prod.mk.injEq] at h
      obtain ⟨rfl, rfl⟩ := h
      refine ⟨[], (c :: s).dropWhile (fun x => x != 59), ?_, ?_, ?_, ?_⟩
      · simp only [List.nil_append]
        exact (List.takeWhile_append_dropWhile _ _).symm
      · intro x hx
        have := List.mem_takeWhile_imp hx
        simpa using this
      · simp [List.takeWhile_cons, hc]
      · cases htail : (c :: s).dropWhile (fun x => x != 59) with
        | nil => exact Or.inl ⟨rfl, rfl⟩
        | cons d tl =>
          refine Or.inr ?_
          have hd := List.head?_dropWhile_not (fun x => x != 59) (c :: s)
          rw [htail] at hd
          simp only [List.head?_cons, bne_eq_false_iff_eq] at hd
          simp [hd]

theorem strtok_some_ne_nil {s : List Nat} {p : List Nat × List Nat} (h : strtok s = some p) :
    s ≠ [] := by
  rintro rfl
  simp [strtok] at h

theorem newlineLast_suffix {a s : List Nat} (h : NewlineLast (a ++ s)) : NewlineLast s := by
  intro front back hs
  exact h (a ++ front) back (by rw [hs, List.append_assoc])

theorem newlineLast_front {a s : List Nat} (h : NewlineLast (a ++ s)) : NewlineLast a := by
  intro front back ha
  have := h front (back ++ s) (by rw [ha]; simp)
  exact (List.append_eq_nil.1 this).1

theorem no_newline_of_followed {a s : List Nat} (h : NewlineLast (a ++ s)) (hs : s ≠ []) :
    ∀ c ∈ a, c ≠ 10 := by
  intro c hc hc10
  subst hc10
  obtain ⟨front, back, rfl⟩ := List.append_of_mem hc
  have := h front (back ++ s) (by simp)
  exact hs (List.append_eq_nil.1 this).2

theorem strtok_bufferText {s tok rest : List Nat} (hs : BufferText s)
    (h : strtok s = some (tok, rest)) :
    BufferText rest ∧ BufferText tok ∧ (∀ x ∈ tok, x ≠ 59) ∧ (rest ≠ [] → CleanText tok) := by
  obtain ⟨a, tail, rfl, h59, -, htail⟩ := strtok_spec h
  obtain ⟨hnl, hz⟩ := hs
  have hz_tok : ∀ c ∈ tok, c ≠ 0 := fun c hc => hz c (by simp [hc])
  have hnl_tok : NewlineLast tok := by
    have h1 : NewlineLast (a ++ tok) := newlineLast_front hnl
    exact newlineLast_suffix h1
  rcases htail with ⟨rfl, rfl⟩ | rfl
  · refine ⟨⟨fun _ _ hnil => ?_, by simp⟩, ⟨hnl_tok, hz_tok⟩, h59, fun hne => absurd rfl hne⟩
    cases List.append_eq_nil.1 hnil.symm |>.2
  · have hnl_rest : NewlineLast rest := by
      have : a ++ tok ++ 59 :: rest = (a ++ tok ++ [59]) ++ rest := by simp
      rw [this] at hnl
      exact newlineLast_suffix hnl
    have hz_rest : ∀ c ∈ rest, c ≠ 0 := fun c hc => hz c (by simp [hc])
    refine ⟨⟨hnl_rest, hz_rest⟩, ⟨hnl_tok, hz_tok⟩, h59, ?_⟩
    intro _ c hc
    have h10 : c ≠ 10 := by
      have h1 : NewlineLast (a ++ (tok ++ 59 :: rest)) := by simpa using hnl
      exact no_newline_of_followed (newlineLast_suffix h1) (by simp) c hc
    exact ⟨h59 c hc, h10, hz_tok c hc⟩

theorem normalizeString_front (text : List Nat) :
    ∃ tail, text = normalizeString text ++ tail := by
  obtain ⟨tail, h⟩ := List.rdropWhile_prefix isspace text
  exact ⟨tail, h.symm⟩

theorem cleanText_normalizeString {text : List Nat} (h : CleanText text) :
    CleanText (normalizeString text) := by
  obtain ⟨tail, ht⟩ := normalizeString_front text
  intro c hc
  exact h c (by rw [ht]; simp [hc])

theorem cleanText_strncpyField {text : List Nat} (size : Nat) (h : CleanText text) :
    CleanText (strncpyField size text) := by
  intro c hc
  exact h c (List.mem_of_mem_take hc)

theorem cleanText_normalizeString_last {text : List Nat} (hs : BufferText text)
    (h59 : ∀ x ∈ text, x ≠ 59) : CleanText (normalizeString text) := by
  obtain ⟨hnl, hz⟩ := hs
  by_cases hmem : 10 ∈ text
  · obtain ⟨front, back, rfl⟩ := List.append_of_mem hmem
    have hback := hnl front back rfl
    subst hback
    rw [normalizeString_newline]
    have hfront : NewlineLast (front ++ [10]) := hnl
    refine cleanText_normalizeString ?_
    intro c hc
    exact ⟨h59 c (by simp [hc]), no_newline_of_followed hfront (by simp) c hc,
      hz c (by simp [hc])⟩
  · refine cleanText_normalizeString ?_
    intro c hc
    exact ⟨h59 c hc, fun h10 => hmem (h10 ▸ hc), hz c hc⟩

theorem splitFields_clean {text k b f r d : List Nat} (hs : BufferText text)
    (h : splitFields text = some (k, b, f, r, d)) :
    CleanText k ∧ CleanText b ∧ CleanText f ∧ CleanText r ∧ CleanText (normalizeString d) := by
  unfold splitFields at h
  cases h1 : strtok text with
  | none => simp [h1] at h
  | some p1 =>
    obtain ⟨k1, r1⟩ := p1
    simp only [h1] at h
    cases h2 : strtok r1 with
    | none => simp [h2] at h
    | some p2 =>
      obtain ⟨b1, r2⟩ := p2
      simp only [h2] at h
      cases h3 : strtok r2 with
      | none => simp [h3] at h
      | some p3 =>
        obtain ⟨f1, r3⟩ := p3
        simp only [h3] at h
        cases h4 : strtok r3 with
        | none => simp [h4] at h
        | some p4 =>
          obtain ⟨rm1, r4⟩ := p4
          simp only [h4] at h
          cases h5 : strtok r4 with
          | none => simp [h5] at h
          | some p5 =>
            obtain ⟨d1, r5⟩ := p5
            simp only [h5, Option.some.injEq, Prod.mk.injEq] at h
            obtain ⟨rfl, rfl, rfl, rfl, rfl⟩ := h
            obtain ⟨t1, -, -, c1⟩ := strtok_bufferText hs h1
            obtain ⟨t2, -, -, c2⟩ := strtok_bufferText t1 h2
            obtain ⟨t3, -, -, c3⟩ := strtok_bufferText t2 h3
            obtain ⟨t4, -, -, c4⟩ := strtok_bufferText t3 h4
            obtain ⟨-, t5, h59, -⟩ := strtok_bufferText t4 h5
            exact ⟨c1 (strtok_some_ne_nil h2), c2 (strtok_some_ne_nil h3),
              c3 (strtok_some_ne_nil h4), c4 (strtok_some_ne_nil h5),
              cleanText_normalizeString_last t5 h59⟩

theorem newlineLast_fgetsRead : ∀ (m : Nat) (s : List Nat), NewlineLast (fgetsRead m s).1 := by
  intro m s
  induction s generalizing m with
  | nil =>
    cases m <;> intro front back h <;> simp [fgetsRead] at h
  | cons c s ih =>
    cases m with
    | zero => intro front back h; simp [fgetsRead] at h
    | succ m =>
      by_cases hc : c = 10
      · subst hc
        intro front back h
        simp only [fgetsRead, if_true] at h
        cases front with
        | nil => simpa using h.symm
        | cons x front =>
          simp only [List.cons_append, List.cons.injEq] at h
          cases front <;> simp at h
      · intro front back h
        simp only [fgetsRead, hc, if_false] at h
        cases front with
        | nil => simp only [List.nil_append, List.cons.injEq] at h; exact absurd h.1 hc
        | cons x front =>
          simp only [List.cons_append, List.cons.injEq] at h
          exact ih m front back h.2

theorem bufferText_cstr {buf : List Nat} (h : NewlineLast buf) : BufferText (cstr buf) := by
  constructor
  · have happ : cstr buf ++ buf.dropWhile (fun c => c != 0) = buf :=
      List.takeWhile_append_dropWhile _ _
    rw [← happ] at h
    exact newlineLast_front h
  · intro c hc
    have := List.mem_takeWhile_imp hc
    simpa using this

/-! ## The inserts a load makes -/

theorem processLine_eq_lineInsert (line : List Nat) (t : HashTable) :
    processLine line t =
      match lineInsert line with
      | none => some t
      | some op => applyOp op t := by
  unfold processLine lineInsert
  simp only
  by_cases hskip : (cstr line).head? = some 35 ∨ (cstr line).length < 5
  · simp only [hskip, if_true]
  · simp only [hskip, if_false]
    cases hsplit : splitFields (cstr line) with
    | none => rfl
    | some p =>
      obtain ⟨k, b, f, r, d⟩ := p
      rfl

theorem applyOps_append (a b : List TableOp) (t : HashTable) :
    applyOps (a ++ b) t = (applyOps a t).bind (applyOps b) := by
  induction a generalizing t with
  | nil => rfl
  | cons op a ih =>
    simp only [List.cons_append, applyOps]
    cases applyOp op t with
    | none => rfl
    | some t1 => exact ih t1

theorem loadLoop_eq_applyOps : ∀ (fuel : Nat) (stream : List Nat) (t : HashTable),
    stream.length < fuel → loadLoop fuel stream t = applyOps (fileInserts fuel stream) t := by
  intro fuel
  induction fuel with
  | zero => intro stream t h; omega
  | succ fuel ih =>
    intro stream t h
    cases stream with
    | nil => simp [loadLoop_nil, fileInserts, fgets, applyOps]
    | cons c s =>
      have hlen : (fgetsRead 255 (c :: s)).2.length ≤ s.length := fgetsRead_rest_length 254 c s
      rw [loadLoop_cons, processLine_eq_lineInsert]
      simp only [fileInserts, fgets]
      rw [applyOps_append]
      simp only [List.length_cons] at h
      cases lineInsert (fgetsRead 255 (c :: s)).1 with
      | none =>
        simp only [Option.toList, applyOps, Option.some_bind]
        exact ih _ t (by omega)
      | some op =>
        simp only [Option.toList, applyOps]
        cases applyOp op t with
        | none => rfl
        | some t1 =>
          simp only [Option.some_bind]
          exact ih _ t1 (by omega)

theorem loadLines_eq_applyOps (text : List Nat) (t : HashTable) :
    loadLines text t = applyOps (insertsOfFile text) t :=
  loadLoop_eq_applyOps _ text t (Nat.lt_succ_self _)

theorem lineInsert_clean {line : List Nat} {op : TableOp} (hline : NewlineLast line)
    (h : lineInsert line = some op) :
    CleanOp op ∧ NoTrailingSpace op.key ∧ ∃ k b f r d, op = TableOp.insert k b f r d := by
  unfold lineInsert at h
  simp only at h
  split at h
  · cases h
  · split at h
    · cases h
    · rename_i k b f r d hsplit
      cases h
      obtain ⟨ck, cb, cf, cr, cd⟩ := splitFields_clean (bufferText_cstr hline) hsplit
      exact ⟨⟨cleanText_normalizeString ck, cleanText_normalizeString cb,
        cleanText_normalizeString cf, cleanText_normalizeString cr, cd⟩,
        noTrailingSpace_normalizeString k, _, _, _, _, _, rfl⟩

theorem fileInserts_clean : ∀ (fuel : Nat) (stream : List Nat), ∀ op ∈ fileInserts fuel stream,
    CleanOp op ∧ NoTrailingSpace op.key ∧ ∃ k b f r d, op = TableOp.insert k b f r d := by
  intro fuel
  induction fuel with
  | zero => intro stream op h; simp [fileInserts] at h
  | succ fuel ih =>
    intro stream op h
    cases stream with
    | nil => simp [fileInserts, fgets] at h
    | cons c s =>
      simp only [fileInserts, fgets, List.mem_append] at h
      rcases h with h | h
      · have hl : lineInsert (fgetsRead (MAX_LINE_LENGTH - 1) (c :: s)).1 = some op := by
          simpa using h
        exact lineInsert_clean (newlineLast_fgetsRead _ _) hl
      · exact ih _ op h

/-! ## Invariants of the table operations -/

theorem deleteNode_cases {K : List Nat} {t t1 : HashTable} {found : Bool}
    (h : deleteNode K t = some (found, t1)) :
    (found = false ∧ t1 = t) ∨
      ∃ chain front n back, bucketAt t (hashFunction K) = some chain ∧
        chain = front ++ n :: back ∧ n.key = K ∧ found = true ∧
        t1 = t.set (hashFunction K).toNat (front ++ back) := by
  unfold deleteNode at h
  simp only at h
  cases hb : bucketAt t (hashFunction K) with
  | none => simp [hb] at h
  | some chain =>
    simp only [hb] at h
    cases hu : unlinkFirst K chain with
    | none =>
      simp only [hu, Option.some.injEq, Prod.mk.injEq] at h
      exact Or.inl ⟨h.1.symm, h.2.symm⟩
    | some rest =>
      simp only [hu, Option.some.injEq, Prod.mk.injEq] at h
      obtain ⟨front, n, back, rfl, hn, rfl, -⟩ := unlinkFirst_eq_some hu
      exact Or.inr ⟨_, front, n, back, rfl, rfl, hn, h.1.symm, h.2.symm⟩

theorem deleteNode_sublist {K : List Nat} {t t1 : HashTable} {found : Bool}
    (h : deleteNode K t = some (found, t1)) : (allEntries t1).Sublist (allEntries t) := by
  rcases deleteNode_cases h with ⟨-, rfl⟩ | ⟨chain, front, n, back, hb, rfl, -, -, rfl⟩
  · exact List.Sublist.refl _
  · obtain ⟨before, after, h1, h2⟩ := allEntries_set_erase (bucketAt_eq_some hb).2
    rw [h1, h2]
    exact List.Sublist.append_left (List.sublist_cons_self n after) before

theorem wellSized_applyOp {op : TableOp} {t t1 : HashTable} (ht : WellSized t)
    (h : applyOp op t = some t1) : WellSized t1 := by
  cases op with
  | insert key building floor room desc =>
    simp only [applyOp, insertLocation] at h
    cases hb : bucketAt t (hashFunction key) with
    | none => simp [hb] at h
    | some chain =>
      simp only [hb, Option.some.injEq] at h
      subst h
      exact wellSized_set ht _ _
  | delete key =>
    simp only [applyOp, Option.map_eq_some'] at h
    obtain ⟨⟨found, t2⟩, hd, rfl⟩ := h
    rcases deleteNode_cases hd with ⟨-, rfl⟩ | ⟨_, _, _, _, _, _, _, _, rfl⟩
    · exact ht
    · exact wellSized_set ht _ _

theorem placed_emptyTable : Placed emptyTable := by
  intro i chain h n hn
  have hc : chain ∈ emptyTable := List.getElem?_mem h
  rw [(List.mem_replicate.1 hc).2] at hn
  cases hn

theorem placed_set {t : HashTable} {i : Int} (ht : Placed t) (hv : validIndex i)
    {chain : List LocationNode} (hchain : ∀ n ∈ chain, hashFunction n.key = i) :
    Placed (t.set i.toNat chain) := by
  intro j c hj n hn
  rw [List.getElem?_set] at hj
  by_cases hij : i.toNat = j
  · simp only [hij, if_true] at hj
    split at hj
    · cases hj
      rw [hchain n hn, ← hij]
      exact (Int.toNat_of_nonneg hv.1).symm
    · cases hj
  · simp only [hij, if_false] at hj
    exact ht j c hj n hn

theorem placed_bucketAt {t : HashTable} {i : Int} {chain : List LocationNode} (ht : Placed t)
    (hb : bucketAt t i = some chain) : ∀ n ∈ chain, hashFunction n.key = i := by
  obtain ⟨hv, hget⟩ := bucketAt_eq_some hb
  intro n hn
  rw [ht _ chain hget n hn]
  exact Int.toNat_of_nonneg hv.1

theorem placed_applyOp {op : TableOp} {t t1 : HashTable} (ht : Placed t) (hop : ShortKey op)
    (h : applyOp op t = some t1) : Placed t1 := by
  cases op with
  | insert key building floor room desc =>
    simp only [applyOp, insertLocation] at h
    cases hb : bucketAt t (hashFunction key) with
    | none => simp [hb] at h
    | some chain =>
      simp only [hb, Option.some.injEq] at h
      subst h
      refine placed_set ht (bucketAt_eq_some hb).1 ?_
      intro n hn
      rcases List.mem_cons.1 hn with rfl | hn
      · simp only [ShortKey] at hop
        simp only [strncpyField_of_lt hop]
      · exact placed_bucketAt ht hb n hn
  | delete key =>
    simp only [applyOp, Option.map_eq_some'] at h
    obtain ⟨⟨found, t2⟩, hd, rfl⟩ := h
    rcases deleteNode_cases hd with ⟨-, rfl⟩ | ⟨chain, front, n, back, hb, rfl, -, -, rfl⟩
    · exact ht
    · refine placed_set ht (bucketAt_eq_some hb).1 ?_
      intro m hm
      refine placed_bucketAt ht hb m ?_
      rcases List.mem_append.1 hm with hm | hm
      · exact List.mem_append.2 (Or.inl hm)
      · exact List.mem_append.2 (Or.inr (List.mem_cons_of_mem _ hm))

theorem invariants_applyOps : ∀ (ops : List TableOp) (t t1 : HashTable),
    WellSized t → Placed t → (∀ op ∈ ops, ShortKey op) → applyOps ops t = some t1 →
      WellSized t1 ∧ Placed t1 := by
  intro ops
  induction ops with
  | nil => intro t t1 hw hp _ h; simp only [applyOps, Option.some.injEq] at h; subst h; exact ⟨hw, hp⟩
  | cons op ops ih =>
    intro t t1 hw hp hops h
    simp only [applyOps] at h
    cases h1 : applyOp op t with
    | none => simp [h1] at h
    | some t2 =>
      simp only [h1] at h
      exact ih t2 t1 (wellSized_applyOp hw h1) (placed_applyOp hp (hops op (by simp)) h1)
        (fun o ho => hops o (by simp [ho])) h

theorem reachableShort_invariants {t : HashTable} (h : ReachableShort t) :
    WellSized t ∧ Placed t := by
  induction h with
  | start => exact ⟨wellSized_emptyTable, placed_emptyTable⟩
  | step op t t1 _ hop _ happ ih =>
    exact ⟨wellSized_applyOp ih.1 happ, placed_applyOp ih.2 hop happ⟩
  | load text t1 hops hload =>
    rw [loadLines_eq_applyOps] at hload
    exact invariants_applyOps _ _ _ wellSized_emptyTable placed_emptyTable
      (fun op hop => (hops op hop).1) hload

/-- In a table of `HASH_SIZE` slots in which every node sits in the slot of its stored
key, the search finds a node exactly when a node of the table has the key. -/
theorem search_iff_mem {t : HashTable} (hw : WellSized t) (hp : Placed t) (K : List Nat) :
    (∃ e, searchByKey K t = some (SearchResult.found e)) ↔ ∃ e ∈ allEntries t, e.key = K := by
  constructor
  · rintro ⟨e, he⟩
    cases hb : bucketAt t (hashFunction K) with
    | none => simp [searchByKey, hb] at he
    | some chain =>
      simp only [searchByKey, hb, Option.map_some', Option.some.injEq] at he
      obtain ⟨front, back, rfl, hk, -⟩ := (searchChain_found_iff K e chain).1 he
      refine ⟨e, ?_, hk⟩
      exact List.mem_flatten.2 ⟨_, List.getElem?_mem (bucketAt_eq_some hb).2, by simp⟩
  · rintro ⟨e, he, hk⟩
    obtain ⟨chain, hc, hec⟩ := List.mem_flatten.1 he
    obtain ⟨i, hi, hget⟩ := List.getElem_of_mem hc
    have hget? : t[i]? = some chain := by rw [List.getElem?_eq_getElem hi, hget]
    have hhash : hashFunction K = (i : Int) := by rw [← hk]; exact hp i chain hget? e hec
    have hv : validIndex (hashFunction K) := by
      rw [hhash]
      refine ⟨by positivity, ?_⟩
      rw [hw] at hi
      exact_mod_cast hi
    have hb : bucketAt t (hashFunction K) = some chain := by
      rw [hhash] at hv
      simp only [bucketAt, hhash, hv, if_true, Int.toNat_ofNat, hget?]
    cases hs : searchChain K chain with
    | found e1 => exact ⟨e1, by simp [searchByKey, hb, hs]⟩
    | notFound =>
      exact absurd hk ((searchChain_notFound_iff K chain).1 hs e hec)

theorem applyOp_total {op : TableOp} {t : HashTable} (ht : WellSized t)
    (hv : validIndex (hashFunction op.key)) : ∃ t1, applyOp op t = some t1 := by
  cases op with
  | insert key building floor room desc =>
    obtain ⟨chain, -, hins⟩ := insertLocation_of_valid ht key building floor room desc hv
    exact ⟨_, hins⟩
  | delete key =>
    obtain ⟨chain, hb, -⟩ := bucketAt_of_valid ht hv
    have hb1 : bucketAt t (hashFunction key) = some chain := hb
    cases hu : unlinkFirst key chain with
    | none =>
      have hd : deleteNode key t = some (false, t) := by simp [deleteNode, hb1, hu]
      exact ⟨t, by simp only [applyOp, hd, Option.map_some']⟩
    | some chain1 =>
      have hd : deleteNode key t = some (true, t.set (hashFunction key).toNat chain1) := by
        simp [deleteNode, hb1, hu]
      exact ⟨t.set (hashFunction key).toNat chain1, by simp only [applyOp, hd, Option.map_some']⟩

theorem applyOps_total : ∀ (ops : List TableOp) (t : HashTable), WellSized t →
    (∀ op ∈ ops, validIndex (hashFunction op.key)) → ∃ t1, applyOps ops t = some t1 := by
  intro ops
  induction ops with
  | nil => intro t _ _; exact ⟨t, rfl⟩
  | cons op ops ih =>
    intro t ht hops
    obtain ⟨t1, h1⟩ := applyOp_total ht (hops op (by simp))
    obtain ⟨t2, h2⟩ := ih t1 (wellSized_applyOp ht h1) (fun o ho => hops o (by simp [ho]))
    exact ⟨t2, by simp [applyOps, h1, h2]⟩

/-- A load whose inserted keys all hash to a slot of the table returns a table. -/
theorem loadLines_total (text : List Nat)
    (h : ∀ op ∈ insertsOfFile text, validIndex (hashFunction op.key)) :
    ∃ t1, loadLines text emptyTable = some t1 := by
  rw [loadLines_eq_applyOps]
  exact applyOps_total _ _ wellSized_emptyTable h

/-- For every table reachable from the empty table by loads, inserts and deletes in which
every inserted key is at most 14 bytes long and every key hashes to a slot, and every key
`K` that hashes to a slot, the search for `K` returns a node if and only if some node of
the whole table, as `viewAllLocations` walks it from slot 0 to slot 49, has key `K`, and
returns NotFound if and only if no node of the whole table has key `K`. -/
theorem search_iff_scan_of_reachableShort (t : HashTable) (h : ReachableShort t)
    (K : List Nat) (hK : validIndex (hashFunction K)) :
    ((∃ e, searchByKey K t = some (SearchResult.found e)) ↔ ∃ e ∈ allEntries t, e.key = K) ∧
    (searchByKey K t = some SearchResult.notFound ↔ ∀ e ∈ allEntries t, e.key ≠ K) := by
  obtain ⟨hw, hp⟩ := reachableShort_invariants h
  have hiff := search_iff_mem hw hp K
  refine ⟨hiff, ?_⟩
  obtain ⟨chain, hb, -⟩ := bucketAt_of_valid hw hK
  constructor
  · intro hnot e he hk
    obtain ⟨e1, h1⟩ := hiff.2 ⟨e, he, hk⟩
    rw [hnot] at h1
    cases h1
  · intro hnone
    cases hs : searchChain K chain with
    | found e1 =>
      obtain ⟨e, he, hk⟩ := hiff.1 ⟨e1, by simp [searchByKey, hb, hs]⟩
      exact absurd hk (hnone e he)
    | notFound => simp [searchByKey, hb, hs]

/-- C26 (the code at the failing input): the data file holds the line
`é;Main Block;1st;101;Cafe`, whose key is the two bytes 0xC3 0xA9, at most 14 bytes long;
`hashFunction` of that key is -28, so the `insertLocation` call of `loadLocationData` links
the node at `hashTable[-28]`, outside the slots 0 to 49 that `viewAllLocations` walks, and
the search for that key reads `hashTable[-28]` too: neither has a defined result. -/
theorem short_key_stored_outside_table :
    ShortKey (TableOp.insert [195, 169] (ascii "Main Block") (ascii "1st") (ascii "101")
      (ascii "Cafe")) ∧
    hashFunction [195, 169] = -28 ∧
    insertsOfFile ([195, 169] ++ ascii ";Main Block;1st;101;Cafe\n") =
      [TableOp.insert [195, 169] (ascii "Main Block") (ascii "1st") (ascii "101")
        (ascii "Cafe")] ∧
    insertLocation [195, 169] (ascii "Main Block") (ascii "1st") (ascii "101") (ascii "Cafe")
      emptyTable = none ∧
    loadLocationData (adminSession emptyTable
      (some ([195, 169] ++ ascii ";Main Block;1st;101;Cafe\n")) []) = none ∧
    searchByKey [195, 169] emptyTable = none := by
  decide

/-! ## Length of the lines written -/

theorem newlineFree_strncpyField {text : List Nat} (size : Nat) (h : NewlineFree text) :
    NewlineFree (strncpyField size text) :=
  fun c hc => h c (List.mem_of_mem_take hc)

theorem strncpyField_length_lt (size : Nat) (text : List Nat) (hsize : 0 < size) :
    (strncpyField size text).length < size := by
  unfold strncpyField
  rw [List.length_take]
  omega

theorem lineNode_stored {key building floor room desc : List Nat}
    (hk : NewlineFree key) (hb : NewlineFree building) (hf : NewlineFree floor)
    (hr : NewlineFree room) (hd : NewlineFree desc) :
    LineNode { key := strncpyField MAX_ID_LENGTH key
               building := strncpyField MAX_NAME_LENGTH building
               floor := strncpyField MAX_ID_LENGTH floor
               room := strncpyField MAX_ID_LENGTH room
               description := strncpyField MAX_NAME_LENGTH desc } :=
  ⟨⟨strncpyField_length_lt _ _ (by decide), strncpyField_length_lt _ _ (by decide),
      strncpyField_length_lt _ _ (by decide), strncpyField_length_lt _ _ (by decide),
      strncpyField_length_lt _ _ (by decide)⟩,
    newlineFree_strncpyField _ hk, newlineFree_strncpyField _ hb,
    newlineFree_strncpyField _ hf, newlineFree_strncpyField _ hr,
    newlineFree_strncpyField _ hd⟩

theorem newlineFree_of_clean {text : List Nat} (h : CleanText text) : NewlineFree text :=
  fun c hc => (h c hc).2.1

theorem applyOps_allEntries {P : LocationNode → Prop} :
    ∀ (ops : List TableOp) (t t1 : HashTable), (∀ n ∈ allEntries t, P n) →
      (∀ key building floor room desc,
        TableOp.insert key building floor room desc ∈ ops →
        P { key := strncpyField MAX_ID_LENGTH key
            building := strncpyField MAX_NAME_LENGTH building
            floor := strncpyField MAX_ID_LENGTH floor
            room := strncpyField MAX_ID_LENGTH room
            description := strncpyField MAX_NAME_LENGTH desc }) →
      applyOps ops t = some t1 → ∀ n ∈ allEntries t1, P n := by
  intro ops
  induction ops with
  | nil =>
    intro t t1 ht _ h
    simp only [applyOps, Option.some.injEq] at h
    subst h
    exact ht
  | cons op ops ih =>
    intro t t1 ht hops h
    simp only [applyOps] at h
    cases h1 : applyOp op t with
    | none => simp [h1] at h
    | some t2 =>
      simp only [h1] at h
      refine ih t2 t1 ?_ (fun k b f r d hm => hops k b f r d (by simp [hm])) h
      cases op with
      | insert key building floor room desc =>
        exact insertLocation_allEntries h1 ht (hops key building floor room desc (by simp))
      | delete key =>
        simp only [applyOp, Option.map_eq_some'] at h1
        obtain ⟨⟨found, t3⟩, hd, rfl⟩ := h1
        intro n hn
        exact ht n ((deleteNode_sublist hd).subset hn)

theorem loadLines_lineNodes {text : List Nat} {t1 : HashTable}
    (h : loadLines text emptyTable = some t1) : ∀ n ∈ allEntries t1, LineNode n := by
  rw [loadLines_eq_applyOps] at h
  refine applyOps_allEntries _ _ _ (by simp [allEntries_emptyTable]) ?_ h
  intro k b f r d hm
  obtain ⟨⟨ck, cb, cf, cr, cd⟩, -, -⟩ := fileInserts_clean _ _ _ hm
  exact lineNode_stored (newlineFree_of_clean ck) (newlineFree_of_clean cb)
    (newlineFree_of_clean cf) (newlineFree_of_clean cr) (newlineFree_of_clean cd)

theorem programReachable_lineNodes {t : HashTable} (h : ProgramReachable t) :
    ∀ n ∈ allEntries t, LineNode n := by
  induction h with
  | start => simp [allEntries_emptyTable]
  | load text t1 hload => exact loadLines_lineNodes hload
  | delete K t t1 found _ hdel ih =>
    intro n hn
    exact ih n ((deleteNode_sublist hdel).subset hn)
  | insert key building floor room desc t t1 _ hfree hins ih =>
    refine insertLocation_allEntries hins ih ?_
    have hall : ∀ c, c ∈ key ∨ c ∈ building ∨ c ∈ floor ∨ c ∈ room ∨ c ∈ desc → c ≠ 10 := by
      intro c hc
      refine hfree c ?_
      simp only [List.mem_append]
      tauto
    exact lineNode_stored (fun c hc => hall c (Or.inl hc))
      (fun c hc => hall c (Or.inr (Or.inl hc)))
      (fun c hc => hall c (Or.inr (Or.inr (Or.inl hc))))
      (fun c hc => hall c (Or.inr (Or.inr (Or.inr (Or.inl hc)))))
      (fun c hc => hall c (Or.inr (Or.inr (Or.inr (Or.inr hc)))))

theorem fgets_of_ne_nil (size : Nat) {s : List Nat} (h : s ≠ []) :
    fgets size s = some (fgetsRead (size - 1) s) := by
  cases s with
  | nil => exact absurd rfl h
  | cons c s => rfl

theorem fgets_formatNode {n : LocationNode} (hn : LineNode n) (rest : List Nat) :
    fgets MAX_LINE_LENGTH (formatNode n ++ rest) = some (formatNode n, rest) := by
  obtain ⟨⟨fk, fb, ff, fr, fd⟩, nk, nb, nf, nr, nd⟩ := hn
  have e : formatNode n =
      (n.key ++ [59] ++ n.building ++ [59] ++ n.floor ++ [59] ++ n.room ++ [59] ++
        n.description) ++ [10] := rfl
  have hbody : ∀ c ∈ n.key ++ [59] ++ n.building ++ [59] ++ n.floor ++ [59] ++ n.room ++ [59] ++
      n.description, c ≠ 10 := by
    intro c hc
    simp only [List.mem_append, List.mem_singleton] at hc
    rcases hc with (((((((hc | rfl) | hc) | rfl) | hc) | rfl) | hc) | rfl) | hc
    · exact nk c hc
    · decide
    · exact nb c hc
    · decide
    · exact nf c hc
    · decide
    · exact nr c hc
    · decide
    · exact nd c hc
  have hlen : (n.key ++ [59] ++ n.building ++ [59] ++ n.floor ++ [59] ++ n.room ++ [59] ++
      n.description).length < 255 := by
    simp only [List.length_append, List.length_singleton]
    simp only [MAX_ID_LENGTH, MAX_NAME_LENGTH] at fk fb ff fr fd
    omega
  have hread := fgetsRead_line rest 255 _ hbody hlen
  rw [e, List.append_assoc, List.singleton_append,
    fgets_of_ne_nil MAX_LINE_LENGTH (by simp)]
  exact congrArg some hread

/-- C28: every node of a table the program can hold has a key, a floor and a room of at
most 14 bytes and a building and a description of at most 99 bytes; the line
`rewriteLocationFile` writes for it is at most 245 bytes long with its newline, below the
256 bytes of the read buffer of `loadLocationData`, and `fgets` reads it back whole, as one
line, whatever follows it in the file. -/
theorem stored_lines_fit_read_buffer (t : HashTable) (h : ProgramReachable t) :
    ∀ n ∈ allEntries t,
      (n.key.length ≤ 14 ∧ n.building.length ≤ 99 ∧ n.floor.length ≤ 14 ∧
        n.room.length ≤ 14 ∧ n.description.length ≤ 99) ∧
      (formatNode n).length ≤ 14 + 99 + 14 + 14 + 99 + 4 + 1 ∧
      (formatNode n).length < MAX_LINE_LENGTH ∧
      ∀ rest, fgets MAX_LINE_LENGTH (formatNode n ++ rest) = some (formatNode n, rest) := by
  intro n hn
  have hline := programReachable_lineNodes h n hn
  obtain ⟨fk, fb, ff, fr, fd⟩ := hline.1
  simp only [MAX_ID_LENGTH, MAX_NAME_LENGTH] at fk fb ff fr fd
  have hlen : (formatNode n).length =
      n.key.length + n.building.length + n.floor.length + n.room.length +
        n.description.length + 5 := formatLine_length _ _ _ _ _
  refine ⟨⟨by omega, by omega, by omega, by omega, by omega⟩, by omega, ?_,
    fgets_formatNode hline⟩
  simp only [MAX_LINE_LENGTH]
  omega

/-- C28 (witness): the table loaded from a file whose single line has a key of 15 bytes
and a description of 120 bytes holds a node with the key cut to 14 bytes and the
description cut to 99 bytes. -/
theorem stored_lines_fit_read_buffer_witness :
    ((ascii "physics_lab_on").length ≤ 14 ∧ (ascii "Science Block").length ≤ 99 ∧
        (ascii "1st").length ≤ 14 ∧ (ascii "101").length ≤ 14 ∧
        (List.replicate 99 120).length ≤ 99) ∧
      (formatNode { key := ascii "physics_lab_on", building := ascii "Science Block",
                    floor := ascii "1st", room := ascii "101",
                    description := List.replicate 99 120 }).length
        ≤ 14 + 99 + 14 + 14 + 99 + 4 + 1 ∧
      (formatNode { key := ascii "physics_lab_on", building := ascii "Science Block",
                    floor := ascii "1st", room := ascii "101",
                    description := List.replicate 99 120 }).length < MAX_LINE_LENGTH ∧
      ∀ rest, fgets MAX_LINE_LENGTH
          (formatNode { key := ascii "physics_lab_on", building := ascii "Science Block",
                        floor := ascii "1st", room := ascii "101",
                        description := List.replicate 99 120 } ++ rest) =
        some (formatNode { key := ascii "physics_lab_on", building := ascii "Science Block",
                           floor := ascii "1st", room := ascii "101",
                           description := List.replicate 99 120 }, rest) :=
  stored_lines_fit_read_buffer
    (emptyTable.set 36
      [{ key := ascii "physics_lab_on", building := ascii "Science Block",
         floor := ascii "1st", room := ascii "101", description := List.replicate 99 120 }])
    (ProgramReachable.load
      (ascii "physics_lab_one;Science Block;1st;101;" ++ List.replicate 120 120 ++ [10]) _
      (by decide))
    { key := ascii "physics_lab_on", building := ascii "Science Block",
      floor := ascii "1st", room := ascii "101", description := List.replicate 99 120 }
    (by decide)

/-! ## Order of the chains after a rewrite and a reload -/

theorem getD_pushNode {t : HashTable} (ht : WellSized t) {n : LocationNode}
    (hv : validIndex (hashFunction n.key)) (j : Nat) :
    (pushNode t n).getD j [] =
      if (hashFunction n.key).toNat = j then n :: t.getD j [] else t.getD j [] := by
  have hlt : (hashFunction n.key).toNat < t.length := by
    rw [ht]; exact toNat_lt_of_validIndex hv
  simp only [pushNode, List.getD_eq_getElem?_getD, List.getElem?_set]
  by_cases hij : (hashFunction n.key).toNat = j
  · subst hij
    simp [hlt]
  · simp [hij]

theorem getD_foldl_pushNode :
    ∀ (es : List LocationNode) (t : HashTable), WellSized t →
      (∀ n ∈ es, validIndex (hashFunction n.key)) → ∀ j : Nat,
      (es.foldl pushNode t).getD j [] =
        (es.filter (fun n => decide ((hashFunction n.key).toNat = j))).reverse ++
          t.getD j [] := by
  intro es
  induction es with
  | nil => intro t _ _ j; simp
  | cons n es ih =>
    intro t ht hes j
    rw [List.foldl_cons, ih _ (wellSized_pushNode ht n) (fun m hm => hes m (by simp [hm])) j,
      getD_pushNode ht (hes n (by simp)) j]
    by_cases hij : (hashFunction n.key).toNat = j
    · simp [List.filter_cons, hij]
    · simp [List.filter_cons, hij]

theorem filter_flatten_placed :
    ∀ (l : List (List LocationNode)) (off j : Nat),
      (∀ (i : Nat) (chain : List LocationNode), l[i]? = some chain →
        ∀ n ∈ chain, (hashFunction n.key).toNat = off + i) →
      l.flatten.filter (fun n => decide ((hashFunction n.key).toNat = j)) =
        if off ≤ j then l.getD (j - off) [] else [] := by
  intro l
  induction l with
  | nil => intro off j _; simp
  | cons c l ih =>
    intro off j h
    have hc : ∀ n ∈ c, (hashFunction n.key).toNat = off := by
      intro n hn
      simpa using h 0 c (by simp) n hn
    have hl : ∀ (i : Nat) (chain : List LocationNode), l[i]? = some chain →
        ∀ n ∈ chain, (hashFunction n.key).toNat = (off + 1) + i := by
      intro i chain hi n hn
      have := h (i + 1) chain (by simpa using hi) n hn
      omega
    rw [List.flatten_cons, List.filter_append, ih (off + 1) j hl]
    by_cases hj : j = off
    · subst hj
      have h1 : c.filter (fun n => decide ((hashFunction n.key).toNat = j)) = c := by
        rw [List.filter_eq_self]
        intro n hn
        simpa using hc n hn
      simp [h1]
    · have h1 : c.filter (fun n => decide ((hashFunction n.key).toNat = j)) = [] := by
        rw [List.filter_eq_nil_iff]
        intro n hn
        simp only [decide_eq_true_eq]
        rw [hc n hn]
        exact Ne.symm hj
      rw [h1, List.nil_append]
      by_cases hlt : off < j
      · have e : j - off = (j - (off + 1)) + 1 := by omega
        have h2 : off + 1 ≤ j := hlt
        have h3 : off ≤ j := by omega
        simp only [h2, h3, if_true]
        rw [e, List.getD_cons_succ]
      · have h2 : ¬ off + 1 ≤ j := by omega
        have h3 : ¬ off ≤ j := by omega
        simp [h2, h3]

theorem placed_toNat {t : HashTable} (hp : Placed t) :
    ∀ (i : Nat) (chain : List LocationNode), t[i]? = some chain →
      ∀ n ∈ chain, (hashFunction n.key).toNat = 0 + i := by
  intro i chain h n hn
  rw [hp i chain h n hn]
  simp

/-- Putting the nodes of a table, slot by slot and head to tail, into the empty table
gives the table with every chain reversed. -/
theorem foldl_pushNode_allEntries {t : HashTable} (ht : WellSized t) (hp : Placed t)
    (hv : ∀ n ∈ allEntries t, validIndex (hashFunction n.key)) :
    (allEntries t).foldl pushNode emptyTable = t.map List.reverse := by
  have hsize : WellSized ((allEntries t).foldl pushNode emptyTable) := by
    have h : ∀ (es : List LocationNode) (t0 : HashTable), WellSized t0 →
        WellSized (es.foldl pushNode t0) := by
      intro es
      induction es with
      | nil => intro t0 h0; exact h0
      | cons n es ih => intro t0 h0; exact ih _ (wellSized_pushNode h0 n)
    exact h _ _ wellSized_emptyTable
  apply List.ext_getElem?
  intro j
  by_cases hj : j < HASH_SIZE
  · have h1 := getD_foldl_pushNode (allEntries t) emptyTable wellSized_emptyTable hv j
    have h2 := filter_flatten_placed t 0 j (placed_toNat hp)
    simp only [Nat.zero_le, if_true, Nat.sub_zero] at h2
    have hempty : emptyTable.getD j [] = [] := by
      simp [emptyTable, List.getD_eq_getElem?_getD, List.getElem?_replicate, hj]
    rw [show (allEntries t).filter (fun n => decide ((hashFunction n.key).toNat = j)) =
        t.getD j [] from h2, hempty, List.append_nil] at h1
    have hl1 : j < ((allEntries t).foldl pushNode emptyTable).length := by rw [hsize]; exact hj
    have hl2 : j < t.length := by rw [ht]; exact hj
    rw [List.getElem?_map, List.getElem?_eq_getElem hl1, List.getElem?_eq_getElem hl2]
    simp only [List.getD_eq_getElem?_getD, List.getElem?_eq_getElem hl1,
      List.getElem?_eq_getElem hl2, Option.getD_some] at h1
    simp [h1]
  · have hl1 : ((allEntries t).foldl pushNode emptyTable).length ≤ j := by
      rw [hsize]; exact Nat.le_of_not_lt hj
    have hl2 : (t.map List.reverse).length ≤ j := by
      rw [List.length_map, ht]; exact Nat.le_of_not_lt hj
    rw [List.getElem?_eq_none hl1, List.getElem?_eq_none hl2]

/-- C25 (amended): for every state whose table has `HASH_SIZE` slots, holds every node in
the slot of its key and holds only nodes that can be read back (fields that fit the node,
not empty, free of `;`, newline and NUL and of trailing whitespace, a key that does not
begin with `#`), when the file can be written and read, `loadLocationData` after
`rewriteLocationFile` yields the table in which every chain is the chain it was, reversed;
hence when the chain of a key `K` holds a first node `e1` and a last node `e2` with that
key, the search for `K` returns `e1` before and `e2` after the rewrite and reload. -/
theorem reload_reverses_chains (s : State) (hw : s.file.canWrite = true)
    (hr : s.file.canRead = true) (hsize : WellSized s.hashTable) (hplaced : Placed s.hashTable)
    (hall : ∀ n ∈ allEntries s.hashTable, Reloadable n) :
    loadLocationData (rewriteLocationFile s) =
      some { rewriteLocationFile s with hashTable := s.hashTable.map List.reverse } ∧
    (∀ (K : List Nat) (front mid back : List LocationNode) (e1 e2 : LocationNode),
      bucketAt s.hashTable (hashFunction K) = some (front ++ e1 :: (mid ++ e2 :: back)) →
      e1.key = K → e2.key = K → (∀ x ∈ front, x.key ≠ K) → (∀ x ∈ back, x.key ≠ K) →
      searchByKey K s.hashTable = some (SearchResult.found e1) ∧
      searchByKey K (s.hashTable.map List.reverse) = some (SearchResult.found e2)) := by
  constructor
  · obtain ⟨t1, hload, ht1, -⟩ := loadLines_rewritten s.hashTable hall
    rw [foldl_pushNode_allEntries hsize hplaced (fun n hn => (hall n hn).2.2.2.2)] at ht1
    subst ht1
    simp only [loadLocationData, rewriteLocationFile, hw, hr, if_true, hload]
  · intro K front mid back e1 e2 hb h1 h2 hfront hback
    constructor
    · simp only [searchByKey, hb, Option.map_some', Option.some.injEq]
      exact (searchChain_found_iff K e1 _).2 ⟨front, mid ++ e2 :: back, rfl, h1, hfront⟩
    · obtain ⟨hv, hget⟩ := bucketAt_eq_some hb
      have hb2 : bucketAt (s.hashTable.map List.reverse) (hashFunction K) =
          some (front ++ e1 :: (mid ++ e2 :: back)).reverse := by
        simp [bucketAt, hv, List.getElem?_map, hget]
      simp only [searchByKey, hb2, Option.map_some', Option.some.injEq]
      refine (searchChain_found_iff K e2 _).2 ⟨back.reverse, (front ++ e1 :: mid).reverse, ?_, h2, ?_⟩
      · simp
      · intro x hx
        exact hback x (List.mem_reverse.1 hx)

/-- C25 (witness): in the example table the chain of slot 17 holds the chemistry lab, then
the computer lab, both with key `c_lab`; the reload of the rewritten file reverses every
chain, and the search for `c_lab` returns the chemistry lab before and the computer lab
after. -/
theorem reload_reverses_chains_witness :
    loadLocationData (rewriteLocationFile twoLabsExample) =
      some { rewriteLocationFile twoLabsExample with
        hashTable := twoLabsExample.hashTable.map List.reverse } ∧
    searchByKey (ascii "c_lab") twoLabsExample.hashTable =
      some (SearchResult.found chemistryLab) ∧
    searchByKey (ascii "c_lab") (twoLabsExample.hashTable.map List.reverse) =
      some (SearchResult.found computerLab) :=
  have h := reload_reverses_chains twoLabsExample (by decide) (by decide) (by decide)
    (placed_set (i := 7)
      (placed_set (i := 17) placed_emptyTable (by decide)
        (by intro n hn; simp at hn; rcases hn with rfl | rfl <;> decide))
      (by decide) (by intro n hn; simp at hn; subst hn; decide))
    (by decide)
  ⟨h.1, h.2 (ascii "c_lab") [] [] [] chemistryLab computerLab (by decide) (by decide)
    (by decide) (by simp) (by simp)⟩

/-- C25 (counterexample): the file holds the line `;#lab;Main Block;1st;101;Lab`, which
`loadLocationData` stores as the node of key `#lab` in slot 28, the slot of its key; its
fields are not empty and hold no `;`, newline or whitespace at either end; after
`rewriteLocationFile` the file holds the line `#lab;Main Block;1st;101;Lab`, and
`loadLocationData` builds from it a table without any node. -/
theorem reload_drops_key_with_hash_sign :
    (loadLocationData (adminSession emptyTable
        (some (ascii ";#lab;Main Block;1st;101;Lab\n")) [])).map
      (fun s => (bucketAt s.hashTable (hashFunction (ascii "#lab")),
        (rewriteLocationFile s).file.content,
        (loadLocationData (rewriteLocationFile s)).map (fun s2 => allEntries s2.hashTable))) =
      some (some [{ key := ascii "#lab", building := ascii "Main Block", floor := ascii "1st",
                    room := ascii "101", description := ascii "Lab" }],
        some (fileHeader ++ ascii "#lab;Main Block;1st;101;Lab\n"),
        some []) := by
  decide

/-! ## Distinct keys across the add and delete menus -/

theorem lineAligned_append {a b : List Nat} (ha : LineAligned a) (hb : LineAligned b) :
    LineAligned (a ++ b) := by
  rcases hb with rfl | hb
  · simpa using ha
  · right
    cases b with
    | nil => simp at hb
    | cons c b => rw [List.getLast?_append_of_ne_nil _ (by simp)]; exact hb

theorem lineAligned_formatLine (k b f r d : List Nat) : LineAligned (formatLine k b f r d) := by
  right
  have h : formatLine k b f r d =
      (k ++ [59] ++ b ++ [59] ++ f ++ [59] ++ r ++ [59] ++ d) ++ [10] := rfl
  rw [h, List.getLast?_append_of_ne_nil _ (by simp)]
  rfl

theorem lineAligned_formatNodes (es : List LocationNode) :
    LineAligned (es.flatMap formatNode) := by
  induction es with
  | nil => left; rfl
  | cons n es ih =>
    rw [List.flatMap_cons]
    exact lineAligned_append (lineAligned_formatLine _ _ _ _ _) ih

theorem lineAligned_fileHeader : LineAligned fileHeader := by decide

theorem loadLines_one_line (body : List Nat) (t : HashTable) (hbody : ∀ c ∈ body, c ≠ 10)
    (hlen : (body ++ [10]).length < MAX_LINE_LENGTH) :
    loadLines (body ++ [10]) t = processLine (body ++ [10]) t := by
  have hread : fgetsRead 255 (body ++ [10]) = (body ++ [10], []) := by
    have h := fgetsRead_line [] 255 body hbody
      (by simp [MAX_LINE_LENGTH] at hlen; omega)
    simpa using h
  cases hb : body ++ [10] with
  | nil => simp at hb
  | cons c s =>
    rw [loadLines_cons, ← hb, hread]
    cases processLine (body ++ [10]) t with
    | none => rfl
    | some t1 => simp [loadLines_nil]

theorem tokenCount_le_count : ∀ (s : List Nat) (inside : Bool),
    tokenCount inside s ≤ s.count 59 + (if inside then 0 else 1) := by
  intro s
  induction s with
  | nil => intro inside; simp [tokenCount]
  | cons c s ih =>
    intro inside
    by_cases hc : c = 59
    · subst hc
      have := ih false
      simp only [tokenCount, if_true, List.count_cons_self]
      simp at this
      split <;> omega
    · have := ih true
      have hcount : (c :: s).count 59 = s.count 59 := List.count_cons_of_ne (Ne.symm hc) s
      simp only [tokenCount, hc, if_false, hcount]
      simp at this
      omega

theorem count_of_cleanText {text : List Nat} (h : CleanText text) : text.count 59 = 0 :=
  List.count_eq_zero.2 (fun hm => (h 59 hm).1 rfl)

theorem lineInsert_empty_key {b f r d : List Nat} (hb : CleanText b) (hf : CleanText f)
    (hr : CleanText r) (hd : CleanText d) : lineInsert (formatLine [] b f r d) = none := by
  have hcount : tokenCount false (formatLine [] b f r d) < 5 := by
    have h1 := tokenCount_le_count (b ++ [59] ++ f ++ [59] ++ r ++ [59] ++ d ++ [10]) false
    have h2 : (b ++ [59] ++ f ++ [59] ++ r ++ [59] ++ d ++ [10]).count 59 = 3 := by
      simp [List.count_append, count_of_cleanText hb, count_of_cleanText hf,
        count_of_cleanText hr, count_of_cleanText hd, List.count_cons]
    have h3 : formatLine [] b f r d = 59 :: (b ++ [59] ++ f ++ [59] ++ r ++ [59] ++ d ++ [10]) := by
      simp [formatLine]
    have h4 : tokenCount false (59 :: (b ++ [59] ++ f ++ [59] ++ r ++ [59] ++ d ++ [10])) =
        tokenCount false (b ++ [59] ++ f ++ [59] ++ r ++ [59] ++ d ++ [10]) := by
      simp only [tokenCount, if_true]
    rw [h3, h4]
    rw [h2] at h1
    simp only [Bool.false_eq_true, if_false] at h1
    omega
  have hsplit : splitFields (cstr (formatLine [] b f r d)) = none :=
    splitFields_of_few_tokens (lt_of_le_of_lt (tokenCount_cstr _) hcount)
  simp only [lineInsert, hsplit]
  split <;> rfl

theorem splitFields_key {s k b f r d : List Nat} (h : splitFields s = some (k, b, f, r, d)) :
    ∃ rest, strtok s = some (k, rest) := by
  unfold splitFields at h
  cases h1 : strtok s with
  | none => simp [h1] at h
  | some p1 =>
    obtain ⟨k1, r1⟩ := p1
    simp only [h1] at h
    cases h2 : strtok r1 with
    | none => simp [h2] at h
    | some p2 =>
      obtain ⟨b1, r2⟩ := p2
      simp only [h2] at h
      cases h3 : strtok r2 with
      | none => simp [h3] at h
      | some p3 =>
        obtain ⟨f1, r3⟩ := p3
        simp only [h3] at h
        cases h4 : strtok r3 with
        | none => simp [h4] at h
        | some p4 =>
          obtain ⟨rm1, r4⟩ := p4
          simp only [h4] at h
          cases h5 : strtok r4 with
          | none => simp [h5] at h
          | some p5 =>
            obtain ⟨d1, r5⟩ := p5
            simp only [h5, Option.some.injEq, Prod.mk.injEq] at h
            exact ⟨r1, by rw [h.1]⟩

theorem lineInsert_first_field {K tail : List Nat} (hne : K ≠ []) (hK : CleanText K)
    (htrim : NoTrailingSpace K) (htail : ∀ c ∈ tail, c ≠ 0) :
    lineInsert (K ++ 59 :: tail) = none ∨
      ∃ b f r d, lineInsert (K ++ 59 :: tail) = some (TableOp.insert K b f r d) := by
  have hcstr : cstr (K ++ 59 :: tail) = K ++ 59 :: tail := by
    apply cstr_of_no_nul
    intro c hc
    rcases List.mem_append.1 hc with h | h
    · exact (hK c h).2.2
    · rcases List.mem_cons.1 h with h | h
      · rw [h]; decide
      · exact htail c h
  have hs : strtok (K ++ 59 :: tail) = some (K, tail) :=
    strtok_field K tail hne (fun c hc => (hK c hc).1)
  simp only [lineInsert, hcstr]
  split
  · left; rfl
  · cases hsplit : splitFields (K ++ 59 :: tail) with
    | none => left; rfl
    | some p =>
      obtain ⟨k, b, f, r, d⟩ := p
      obtain ⟨rest, hrest⟩ := splitFields_key hsplit
      rw [hs] at hrest
      simp only [Option.some.injEq, Prod.mk.injEq] at hrest
      right
      refine ⟨normalizeString b, normalizeString f, normalizeString r, normalizeString d, ?_⟩
      rw [← hrest.1]
      simp only [normalizeString_of_noTrailingSpace htrim]

theorem goodNode_stored {k b f r d : List Nat} (hk : CleanText k) (hb : CleanText b)
    (hf : CleanText f) (hr : CleanText r) (hd : CleanText d) (htrim : NoTrailingSpace k)
    (hlen : k.length < MAX_ID_LENGTH) :
    GoodNode { key := strncpyField MAX_ID_LENGTH k
               building := strncpyField MAX_NAME_LENGTH b
               floor := strncpyField MAX_ID_LENGTH f
               room := strncpyField MAX_ID_LENGTH r
               description := strncpyField MAX_NAME_LENGTH d } := by
  refine ⟨⟨?_, ?_, ?_, ?_, ?_⟩, ⟨?_, ?_, ?_, ?_, ?_⟩, ?_⟩
  · exact strncpyField_length_lt _ _ (by decide)
  · exact strncpyField_length_lt _ _ (by decide)
  · exact strncpyField_length_lt _ _ (by decide)
  · exact strncpyField_length_lt _ _ (by decide)
  · exact strncpyField_length_lt _ _ (by decide)
  · exact cleanText_strncpyField _ hk
  · exact cleanText_strncpyField _ hb
  · exact cleanText_strncpyField _ hf
  · exact cleanText_strncpyField _ hr
  · exact cleanText_strncpyField _ hd
  · show NoTrailingSpace (strncpyField MAX_ID_LENGTH k)
    rw [strncpyField_of_lt hlen]
    exact htrim

theorem goodTable_emptyTable : GoodTable emptyTable := by
  refine ⟨wellSized_emptyTable, placed_emptyTable, ?_, ?_⟩
  · intro n hn
    rw [allEntries_emptyTable] at hn
    cases hn
  · unfold DistinctKeys
    rw [allEntries_emptyTable]
    exact List.nodup_nil

theorem placed_valid {t : HashTable} (hw : WellSized t) (hp : Placed t) :
    ∀ n ∈ allEntries t, validIndex (hashFunction n.key) := by
  intro n hn
  obtain ⟨chain, hchain, hmem⟩ := List.mem_flatten.1 hn
  obtain ⟨i, hi⟩ := List.getElem?_of_mem hchain
  have hlt : i < t.length := (List.getElem?_eq_some.1 hi).1
  rw [hp i chain hi n hmem]
  rw [hw] at hlt
  constructor
  · exact Int.natCast_nonneg i
  · exact_mod_cast hlt

/-- One buffer read by the loader, when it can only insert under the key `K`, which is
short, trimmed and not yet in the table, keeps the table good. -/
theorem processLine_good {line K : List Nat} {t t1 : HashTable} (ht : GoodTable t)
    (hline : NewlineLast line)
    (hins : lineInsert line = none ∨
      ∃ b f r d, lineInsert line = some (TableOp.insert K b f r d))
    (hlen : K.length < MAX_ID_LENGTH)
    (hnew : ∀ n ∈ allEntries t, n.key ≠ K)
    (h : processLine line t = some t1) :
    GoodTable t1 ∧
      ∀ n ∈ allEntries t1, n.key = K ∨ n.key ∈ (allEntries t).map LocationNode.key := by
  rw [processLine_eq_lineInsert] at h
  rcases hins with hnone | ⟨b, f, r, d, hsome⟩
  · rw [hnone] at h
    simp only [Option.some.injEq] at h
    subst h
    exact ⟨ht, fun n hn => Or.inr (List.mem_map_of_mem _ hn)⟩
  · obtain ⟨hclean, htrim, -⟩ := lineInsert_clean hline hsome
    rw [hsome] at h
    simp only at h
    obtain ⟨hw, hp, hnodes, hkeys⟩ := ht
    have hperm := insertLocation_allEntries_perm h
    have hcut : strncpyField MAX_ID_LENGTH K = K := strncpyField_of_lt hlen
    obtain ⟨hk, hb, hf, hr, hd⟩ := hclean
    have hnode := goodNode_stored hk hb hf hr hd htrim hlen
    refine ⟨⟨wellSized_applyOp hw h, placed_applyOp hp (show ShortKey (TableOp.insert K b f r d) from hlen) h, ?_, ?_⟩, ?_⟩
    · exact insertLocation_allEntries h hnodes hnode
    · unfold DistinctKeys
      refine (List.Perm.nodup_iff (hperm.map LocationNode.key)).2 ?_
      rw [List.map_cons, List.nodup_cons]
      refine ⟨?_, hkeys⟩
      intro hmem
      obtain ⟨m, hm, hmk⟩ := List.mem_map.1 hmem
      exact hnew m hm (hmk.trans hcut)
    · intro n hn
      have := hperm.subset hn
      rcases List.mem_cons.1 this with rfl | hold
      · left; exact hcut
      · right; exact List.mem_map_of_mem _ hold

theorem processLine_total {line K : List Nat} {t : HashTable} (hw : WellSized t)
    (hins : lineInsert line = none ∨
      ∃ b f r d, lineInsert line = some (TableOp.insert K b f r d))
    (hv : validIndex (hashFunction K)) : ∃ t1, processLine line t = some t1 := by
  rw [processLine_eq_lineInsert]
  rcases hins with hnone | ⟨b, f, r, d, hsome⟩
  · rw [hnone]; exact ⟨t, rfl⟩
  · rw [hsome]
    obtain ⟨chain, -, hins⟩ := insertLocation_of_valid hw K b f r d hv
    exact ⟨_, hins⟩

theorem formatLine_body (k b f r d : List Nat) :
    formatLine k b f r d = (k ++ [59] ++ b ++ [59] ++ f ++ [59] ++ r ++ [59] ++ d) ++ [10] := rfl

theorem formatLine_body_newlineFree {k b f r d : List Nat} (hk : NewlineFree k)
    (hb : NewlineFree b) (hf : NewlineFree f) (hr : NewlineFree r) (hd : NewlineFree d) :
    ∀ c ∈ k ++ [59] ++ b ++ [59] ++ f ++ [59] ++ r ++ [59] ++ d, c ≠ 10 := by
  intro c hc
  simp only [List.mem_append, List.mem_singleton] at hc
  rcases hc with ((((((((h | h) | h) | h) | h) | h) | h) | h) | h)
  · exact hk c h
  · rw [h]; decide
  · exact hb c h
  · rw [h]; decide
  · exact hf c h
  · rw [h]; decide
  · exact hr c h
  · rw [h]; decide
  · exact hd c h

theorem newlineLast_line {body : List Nat} (hbody : ∀ c ∈ body, c ≠ 10) :
    NewlineLast (body ++ [10]) := by
  have h := newlineLast_fgetsRead (body.length + 1) (body ++ [10])
  have hread := fgetsRead_line [] (body.length + 1) body hbody (Nat.lt_succ_self _)
  rw [show body ++ [10] = body ++ 10 :: [] from rfl, hread] at h
  exact h

/-- A line printed by `fprintf(fp, "%s;%s;%s;%s;%s\n", ...)` from fields without newline
that is shorter than the read buffer is read by the loader in one piece. -/
theorem loadLines_formatLine {k b f r d : List Nat} (t : HashTable) (hk : NewlineFree k)
    (hb : NewlineFree b) (hf : NewlineFree f) (hr : NewlineFree r) (hd : NewlineFree d)
    (hlen : (formatLine k b f r d).length < MAX_LINE_LENGTH) :
    loadLines (formatLine k b f r d) t = processLine (formatLine k b f r d) t ∧
      NewlineLast (formatLine k b f r d) := by
  rw [formatLine_body] at hlen ⊢
  exact ⟨loadLines_one_line _ t (formatLine_body_newlineFree hk hb hf hr hd) hlen,
    newlineLast_line (formatLine_body_newlineFree hk hb hf hr hd)⟩

theorem formatLine_first_field (k b f r d : List Nat) :
    formatLine k b f r d = k ++ 59 :: (b ++ [59] ++ f ++ [59] ++ r ++ [59] ++ d ++ [10]) := by
  simp [formatLine]

/-- What the loader can do with the line of `fprintf` for a key without `;`, newline, NUL
and trailing whitespace, when the other fields hold no NUL: nothing, or an insert under
that key (the key must not be empty unless the other fields hold no `;`). -/
theorem lineInsert_formatLine {k b f r d : List Nat} (hk : CleanText k)
    (htrim : NoTrailingSpace k) (hb : ∀ c ∈ b, c ≠ 0) (hf : ∀ c ∈ f, c ≠ 0)
    (hr : ∀ c ∈ r, c ≠ 0) (hd : ∀ c ∈ d, c ≠ 0)
    (hempty : k = [] → CleanText b ∧ CleanText f ∧ CleanText r ∧ CleanText d) :
    lineInsert (formatLine k b f r d) = none ∨
      ∃ b1 f1 r1 d1, lineInsert (formatLine k b f r d) = some (TableOp.insert k b1 f1 r1 d1) := by
  by_cases hne : k = []
  · obtain ⟨cb, cf, cr, cd⟩ := hempty hne
    subst hne
    exact Or.inl (lineInsert_empty_key cb cf cr cd)
  · rw [formatLine_first_field]
    refine lineInsert_first_field hne hk htrim ?_
    intro c hc h0
    subst h0
    simp only [List.mem_append, List.mem_singleton] at hc
    have e1 : ¬ (0 : Nat) = 59 := by decide
    have e2 : ¬ (0 : Nat) = 10 := by decide
    simp only [e1, e2, or_false] at hc
    rcases hc with ((h | h) | h) | h
    · exact hb 0 h rfl
    · exact hf 0 h rfl
    · exact hr 0 h rfl
    · exact hd 0 h rfl

theorem goodNode_line {n : LocationNode} (hn : GoodNode n) :
    NewlineFree n.key ∧ NewlineFree n.building ∧ NewlineFree n.floor ∧ NewlineFree n.room ∧
      NewlineFree n.description ∧ (formatNode n).length < MAX_LINE_LENGTH := by
  obtain ⟨⟨l1, l2, l3, l4, l5⟩, ⟨hk, hb, hf, hr, hd⟩, -⟩ := hn
  refine ⟨newlineFree_of_clean hk, newlineFree_of_clean hb, newlineFree_of_clean hf,
    newlineFree_of_clean hr, newlineFree_of_clean hd, ?_⟩
  unfold formatNode
  rw [formatLine_length]
  simp only [MAX_ID_LENGTH, MAX_NAME_LENGTH, MAX_LINE_LENGTH] at *
  omega

/-- Reading back the lines `rewriteLocationFile` prints for good nodes with distinct keys,
into a good table that has none of these keys, gives a good table whose keys are keys of
these nodes or of the table. -/
theorem loadLines_goodNodes : ∀ (es : List LocationNode) (t : HashTable), GoodTable t →
    (∀ n ∈ es, GoodNode n ∧ validIndex (hashFunction n.key)) →
    (es.map LocationNode.key ++ (allEntries t).map LocationNode.key).Nodup →
    ∃ t1, loadLines (es.flatMap formatNode) t = some t1 ∧ GoodTable t1 ∧
      ∀ n ∈ allEntries t1, n.key ∈ es.map LocationNode.key ∨
        n.key ∈ (allEntries t).map LocationNode.key := by
  intro es
  induction es with
  | nil =>
    intro t ht _ _
    exact ⟨t, loadLines_nil t, ht, fun n hn => Or.inr (List.mem_map_of_mem _ hn)⟩
  | cons e es ih =>
    intro t ht hes hnodup
    obtain ⟨hgood, hvalid⟩ := hes e (by simp)
    obtain ⟨nk, nb, nf, nr, nd, hlen⟩ := goodNode_line hgood
    obtain ⟨hone, hlast⟩ := loadLines_formatLine t nk nb nf nr nd hlen
    have hins : lineInsert (formatNode e) = none ∨
        ∃ b1 f1 r1 d1, lineInsert (formatNode e) = some (TableOp.insert e.key b1 f1 r1 d1) := by
      obtain ⟨-, ⟨hk, hb, hf, hr, hd⟩, htrim⟩ := hgood
      exact lineInsert_formatLine hk htrim (fun c hc => (hb c hc).2.2)
        (fun c hc => (hf c hc).2.2) (fun c hc => (hr c hc).2.2) (fun c hc => (hd c hc).2.2)
        (fun _ => ⟨hb, hf, hr, hd⟩)
    obtain ⟨t1, ht1⟩ := processLine_total ht.1 hins hvalid
    rw [List.map_cons, List.cons_append, List.nodup_cons] at hnodup
    have hnew : ∀ n ∈ allEntries t, n.key ≠ e.key := by
      intro n hn hkey
      exact hnodup.1 (List.mem_append_right _ (hkey ▸ List.mem_map_of_mem _ hn))
    obtain ⟨hgood1, hkeys1⟩ := processLine_good ht hlast hins hgood.1.1 hnew ht1
    have hnodup1 : (es.map LocationNode.key ++ (allEntries t1).map LocationNode.key).Nodup := by
      rw [List.nodup_append] at hnodup ⊢
      obtain ⟨⟨hn1, hn2, hdisj⟩, hnot⟩ := And.intro hnodup.2 hnodup.1
      refine ⟨hn1, hgood1.2.2.2, ?_⟩
      intro a ha1 ha2
      obtain ⟨m, hm, rfl⟩ := List.mem_map.1 ha2
      rcases hkeys1 m hm with hk | hk
      · exact hnot (List.mem_append_left _ (hk ▸ ha1))
      · exact hdisj ha1 hk
    obtain ⟨t2, ht2, hgood2, hkeys2⟩ := ih t1 hgood1 (fun n hn => hes n (by simp [hn])) hnodup1
    refine ⟨t2, ?_, hgood2, ?_⟩
    · rw [List.flatMap_cons,
        loadLines_append (es.flatMap formatNode) (formatNode e).length (formatNode e) t
          (le_refl _) (lineAligned_formatLine _ _ _ _ _)]
      have : loadLines (formatNode e) t = some t1 := by
        unfold formatNode at ht1 ⊢
        rw [hone]
        exact ht1
      rw [this]
      exact ht2
    · intro n hn
      rcases hkeys2 n hn with hk | hk
      · left; simp [hk]
      · obtain ⟨m, hm, hmk⟩ := List.mem_map.1 hk
        rcases hkeys1 m hm with h1 | h1
        · left; rw [← hmk, h1]; simp
        · right; rw [← hmk]; exact h1

theorem goodTable_loaded {text : List Nat} {t : HashTable}
    (h : loadLines text emptyTable = some t) (hshort : ∀ op ∈ insertsOfFile text, ShortKey op)
    (hkeys : DistinctKeys t) : GoodTable t := by
  rw [loadLines_eq_applyOps] at h
  obtain ⟨hw, hp⟩ :=
    invariants_applyOps _ _ _ wellSized_emptyTable placed_emptyTable hshort h
  refine ⟨hw, hp, ?_, hkeys⟩
  refine applyOps_allEntries (P := GoodNode) _ _ _ ?_ ?_ h
  · intro n hn
    rw [allEntries_emptyTable] at hn
    cases hn
  · intro k b f r d hmem
    obtain ⟨⟨hk, hb, hf, hr, hd⟩, htrim, -⟩ := fileInserts_clean _ _ _ hmem
    exact goodNode_stored hk hb hf hr hd htrim (hshort _ hmem)

theorem fileTracks_congr {s s1 : State} (ht : s1.hashTable = s.hashTable)
    (hf : s1.file = s.file) (h : FileTracks s) : FileTracks s1 := by
  unfold FileTracks at h ⊢
  rw [ht, hf]
  exact h

/-- The step of `saveLocationToFile` keeps the file and the table in step, when the key has
passed the duplicate check, is not empty, fits `key_buffer`, holds no `;`, newline, NUL or
trailing whitespace, the other fields hold no newline or NUL and the line is shorter than
the read buffer. -/
theorem fileTracks_save {s s1 : State} {K B F R D : List Nat} (hs : FileTracks s)
    (hsearch : searchByKey K s.hashTable = some SearchResult.notFound)
    (hlen : K.length < MAX_ID_LENGTH) (hK : CleanText K)
    (htrim : NoTrailingSpace K) (hB : ∀ c ∈ B, c ≠ 10 ∧ c ≠ 0) (hF : ∀ c ∈ F, c ≠ 10 ∧ c ≠ 0)
    (hR : ∀ c ∈ R, c ≠ 10 ∧ c ≠ 0) (hD : ∀ c ∈ D, c ≠ 10 ∧ c ≠ 0) (hne : K ≠ [])
    (hline : (formatLine K B F R D).length < MAX_LINE_LENGTH)
    (h : saveLocationToFile K B F R D s = some s1) : FileTracks s1 := by
  obtain ⟨hr, hw, hgood, text, t, hcontent, haligned, hload, hgoodt, hsub⟩ := hs
  obtain ⟨hone, hlast⟩ := loadLines_formatLine t (k := K) (b := B) (f := F) (r := R) (d := D)
    (fun c hc => (hK c hc).2.1) (fun c hc => (hB c hc).1) (fun c hc => (hF c hc).1)
    (fun c hc => (hR c hc).1) (fun c hc => (hD c hc).1) hline
  have hall : loadLines (text ++ formatLine K B F R D) emptyTable =
      processLine (formatLine K B F R D) t := by
    rw [loadLines_append _ text.length text emptyTable (le_refl _) haligned, hload]
    exact hone
  have hins := lineInsert_formatLine (k := K) (b := B) (f := F) (r := R) (d := D) hK htrim
    (fun c hc => (hB c hc).2) (fun c hc => (hF c hc).2) (fun c hc => (hR c hc).2)
    (fun c hc => (hD c hc).2) (fun h0 => absurd h0 hne)
  have hnew : ∀ n ∈ allEntries t, n.key ≠ K := by
    intro n hn hkey
    obtain ⟨m, hm, hmk⟩ := List.mem_map.1 (hsub n hn)
    obtain ⟨e, he⟩ := (search_iff_mem hgood.1 hgood.2.1 K).2 ⟨m, hm, hmk.trans hkey⟩
    rw [hsearch] at he
    cases he
  simp only [saveLocationToFile, hw, if_true, loadLocationData, hr, hcontent, Option.getD_some,
    hall] at h
  cases hp : processLine (formatLine K B F R D) t with
  | none => simp [hp] at h
  | some t1 =>
    simp only [hp, Option.some.injEq] at h
    obtain ⟨hgood1, -⟩ := processLine_good hgoodt hlast hins hlen hnew hp
    subst h
    refine ⟨rfl, rfl, hgood1, text ++ formatLine K B F R D, t1, rfl,
      lineAligned_append haligned (lineAligned_formatLine _ _ _ _ _), ?_, hgood1, ?_⟩
    · rw [hall]; exact hp
    · intro n hn
      exact List.mem_map_of_mem _ hn

theorem goodTable_deleteNode {K : List Nat} {t t1 : HashTable} {found : Bool}
    (ht : GoodTable t) (h : deleteNode K t = some (found, t1)) : GoodTable t1 := by
  obtain ⟨hw, hp, hnodes, hkeys⟩ := ht
  have hsub := deleteNode_sublist h
  have hop : applyOp (TableOp.delete K) t = some t1 := by simp [applyOp, h]
  refine ⟨wellSized_applyOp hw hop, placed_applyOp hp (show ShortKey (TableOp.delete K) from trivial) hop,
    fun n hn => hnodes n (hsub.subset hn), ?_⟩
  exact List.Nodup.sublist (hsub.map LocationNode.key) hkeys

/-- The step of `deleteLocationMenu` after the key is read keeps the file and the table in
step. -/
theorem fileTracks_delete {s s1 : State} {K : List Nat} (hs : FileTracks s)
    (h : deleteLocationFor K s = some s1) : FileTracks s1 := by
  unfold deleteLocationFor at h
  cases hdel : deleteNode K s.hashTable with
  | none => simp [hdel] at h
  | some p =>
    obtain ⟨found, t1⟩ := p
    cases found with
    | false =>
      simp only [hdel, Option.some.injEq] at h
      subst h
      exact fileTracks_congr rfl rfl hs
    | true =>
      simp only [hdel, Option.some.injEq] at h
      obtain ⟨hr, hw, hgood, -⟩ := hs
      have hgood1 := goodTable_deleteNode hgood hdel
      obtain ⟨t2, hload, hgood2, hkeys2⟩ := loadLines_goodNodes (allEntries t1) emptyTable
        goodTable_emptyTable
        (fun n hn => ⟨hgood1.2.2.1 n hn, placed_valid hgood1.1 hgood1.2.1 n hn⟩)
        (by rw [allEntries_emptyTable]; simpa [DistinctKeys] using hgood1.2.2.2)
      subst h
      refine ⟨?_, ?_, ?_, fileHeader ++ (allEntries t1).flatMap formatNode, t2, ?_, ?_, ?_,
        hgood2, ?_⟩
      · simpa [rewriteLocationFile, State.print, hw] using hr
      · simp [rewriteLocationFile, State.print, hw]
      · simpa [rewriteLocationFile, State.print, hw] using hgood1
      · simp [rewriteLocationFile, State.print, hw]
      · exact lineAligned_append lineAligned_fileHeader (lineAligned_formatNodes _)
      · rw [loadLines_fileHeader]; exact hload
      · intro n hn
        have hk := hkeys2 n hn
        rw [allEntries_emptyTable] at hk
        have hk1 : n.key ∈ (allEntries t1).map LocationNode.key := by simpa using hk
        simpa [rewriteLocationFile, State.print, hw] using hk1

theorem inputText_normalizeString {text : List Nat} (hs : BufferText text) :
    ∀ c ∈ normalizeString text, c ≠ 10 ∧ c ≠ 0 := by
  obtain ⟨hnl, hz⟩ := hs
  obtain ⟨tail, htail⟩ := normalizeString_front text
  intro c hc
  have hmem : c ∈ text := by rw [htail]; exact List.mem_append_left _ hc
  refine ⟨?_, hz c hmem⟩
  intro h10
  subst h10
  obtain ⟨front, back, hsplit⟩ := List.append_of_mem hc
  have hback : back ++ tail = [] := by
    apply hnl front (back ++ tail)
    rw [htail, hsplit]
    simp
  have hb : back = [] := (List.append_eq_nil.1 hback).1
  subst hb
  have htrim := noTrailingSpace_normalizeString text
  rw [hsplit] at htrim
  have := htrim 10 (by simp)
  revert this
  decide

theorem getInput_buffer (s : State) :
    ((getInput s).1 = InputPtr.emptyLiteral ∧ (getInput s).2 = s) ∨
      ((getInput s).1 = InputPtr.staticBuffer ∧
        (∀ c ∈ (getInput s).2.buffer, c ≠ 10 ∧ c ≠ 0) ∧
        NoTrailingSpace (getInput s).2.buffer) := by
  cases hin : fgets MAX_NAME_LENGTH s.stdin with
  | none => left; simp [getInput, hin]
  | some p =>
    obtain ⟨chunk, rest⟩ := p
    have hchunk : chunk = (fgetsRead (MAX_NAME_LENGTH - 1) s.stdin).1 := by
      unfold fgets at hin
      split at hin
      · cases hin
      · injection hin with h
        rw [h]
    right
    simp only [getInput, hin]
    refine ⟨trivial, ?_, noTrailingSpace_normalizeString _⟩
    rw [hchunk]
    exact inputText_normalizeString (bufferText_cstr (newlineLast_fgetsRead _ _))

theorem getInput_inputText (s : State) (h : ∀ c ∈ s.buffer, c ≠ 10 ∧ c ≠ 0) :
    ∀ c ∈ (getInput s).2.buffer, c ≠ 10 ∧ c ≠ 0 := by
  rcases getInput_buffer s with ⟨-, hsame⟩ | ⟨-, htext, -⟩
  · rw [hsame]; exact h
  · exact htext

theorem deref_inputText (s : State) (p : InputPtr) (h : ∀ c ∈ s.buffer, c ≠ 10 ∧ c ≠ 0) :
    ∀ c ∈ deref s p, c ≠ 10 ∧ c ≠ 0 := by
  cases p with
  | staticBuffer => exact h
  | emptyLiteral => intro c hc; cases hc

/-- What the key loop of `addLocationMenu` guarantees when it ends: the table, the file and
the role are untouched, and the key is not empty, fits `key_buffer`, has passed the
duplicate check, holds no newline or NUL and no trailing whitespace. -/
theorem askKey_spec : ∀ (fuel : Nat) (s s1 : State) (K : List Nat),
    askKey fuel s = some (K, s1) →
      s1.hashTable = s.hashTable ∧ s1.file = s.file ∧
      s1.currentUserRole = s.currentUserRole ∧ K ≠ [] ∧ K.length < MAX_ID_LENGTH ∧
      searchByKey K s.hashTable = some SearchResult.notFound ∧
      (∀ c ∈ K, c ≠ 10 ∧ c ≠ 0) ∧ NoTrailingSpace K ∧ (∀ c ∈ s1.buffer, c ≠ 10 ∧ c ≠ 0) := by
  intro fuel
  induction fuel with
  | zero => intro s s1 K h; simp [askKey] at h
  | succ fuel ih =>
    intro s s1 K h
    obtain ⟨ht, hf, -, hrole⟩ := getInput_keeps_table s
    simp only [askKey] at h
    by_cases hkey : deref (getInput s).2 (getInput s).1 = []
    · simp only [hkey, if_true] at h
      obtain ⟨h1, h2, h3, h4⟩ := ih _ _ _ h
      exact ⟨h1.trans ht, h2.trans hf, h3.trans hrole, by rw [← ht]; exact h4⟩
    · simp only [hkey, if_false] at h
      cases hsearch : searchByKey (deref (getInput s).2 (getInput s).1) (getInput s).2.hashTable with
      | none => simp [hsearch] at h
      | some res =>
        cases res with
        | found e =>
          simp only [hsearch] at h
          obtain ⟨h1, h2, h3, h4⟩ := ih _ _ _ h
          exact ⟨h1.trans ht, h2.trans hf, h3.trans hrole, by rw [← ht]; exact h4⟩
        | notFound =>
          simp only [hsearch] at h
          by_cases hlen : (deref (getInput s).2 (getInput s).1).length < MAX_ID_LENGTH
          · simp only [hlen, if_true, Option.some.injEq, Prod.mk.injEq] at h
            obtain ⟨hK, hs1⟩ := h
            rcases getInput_buffer s with ⟨hptr, -⟩ | ⟨hptr, htext, htrim⟩
            · rw [hptr] at hkey
              exact absurd rfl hkey
            · have hbuf : K = (getInput s).2.buffer := by rw [← hK, hptr]; rfl
              subst hs1
              refine ⟨ht, hf, hrole, ?_, ?_, ?_, ?_, ?_, htext⟩
              · rw [← hK]; exact hkey
              · rw [← hK]; exact hlen
              · rw [← ht, ← hK]; exact hsearch
              · rw [hbuf]; exact htext
              · rw [hbuf]; exact htrim
          · simp [hlen] at h

theorem fileTracks_addLocationMenu {s s2 : State} (hs : FileTracks s)
    (htyped : ∀ key s1, askKey (s.stdin.length + 1) s = some (key, s1) →
      (∀ c ∈ key, c ≠ 59) ∧ (addedLine key s1).length < MAX_LINE_LENGTH)
    (hadd : addLocationMenu s = some s2) : FileTracks s2 := by
  unfold addLocationMenu at hadd
  by_cases hrole : s.currentUserRole ≠ UserRole.ROLE_ADMIN
  · rw [if_pos hrole] at hadd
    simp only [Option.some.injEq] at hadd
    subst hadd
    exact fileTracks_congr rfl rfl hs
  · rw [if_neg hrole] at hadd
    cases hask : askKey (s.stdin.length + 1) s with
    | none => simp [hask] at hadd
    | some p =>
      obtain ⟨K, s1⟩ := p
      obtain ⟨hK, hline⟩ := htyped K s1 hask
      simp only [hask] at hadd
      obtain ⟨ht, hf, -, hne, hlen, hsearch, htext, htrim, hbuf⟩ := askKey_spec _ _ _ _ hask
      obtain ⟨t1, f1, -, -⟩ := getInput_keeps_table s1
      obtain ⟨t2, f2, -, -⟩ := getInput_keeps_table (getInput s1).2
      obtain ⟨t3, f3, -, -⟩ := getInput_keeps_table (getInput (getInput s1).2).2
      obtain ⟨t4, f4, -, -⟩ := getInput_keeps_table (getInput (getInput (getInput s1).2).2).2
      have hbuf5 := getInput_inputText _ (getInput_inputText _ (getInput_inputText _
        (getInput_inputText _ hbuf)))
      have hs5 : FileTracks (getInput (getInput (getInput (getInput s1).2).2).2).2 :=
        fileTracks_congr (t4.trans (t3.trans (t2.trans (t1.trans ht))))
          (f4.trans (f3.trans (f2.trans (f1.trans hf)))) hs
      have hsearch5 : searchByKey K (getInput (getInput (getInput (getInput s1).2).2).2).2.hashTable =
          some SearchResult.notFound := by
        rw [t4, t3, t2, t1, ht]; exact hsearch
      cases hsave : saveLocationToFile K
          (deref (getInput (getInput (getInput (getInput s1).2).2).2).2 (getInput s1).1)
          (deref (getInput (getInput (getInput (getInput s1).2).2).2).2 (getInput (getInput s1).2).1)
          (deref (getInput (getInput (getInput (getInput s1).2).2).2).2
            (getInput (getInput (getInput s1).2).2).1)
          (deref (getInput (getInput (getInput (getInput s1).2).2).2).2
            (getInput (getInput (getInput (getInput s1).2).2).2).1)
          (getInput (getInput (getInput (getInput s1).2).2).2).2 with
      | none => simp [hsave] at hadd
      | some s6 =>
        simp only [hsave, Option.some.injEq] at hadd
        subst hadd
        have h6 := fileTracks_save hs5 hsearch5 hlen
          (fun c hc => ⟨hK c hc, (htext c hc).1, (htext c hc).2⟩) htrim
          (deref_inputText _ _ hbuf5) (deref_inputText _ _ hbuf5) (deref_inputText _ _ hbuf5)
          (deref_inputText _ _ hbuf5) hne hline hsave
        exact fileTracks_congr rfl rfl h6

theorem fileTracks_deleteLocationMenu {s s2 : State} (hs : FileTracks s)
    (h : deleteLocationMenu s = some s2) : FileTracks s2 := by
  unfold deleteLocationMenu at h
  by_cases hrole : s.currentUserRole ≠ UserRole.ROLE_ADMIN
  · rw [if_pos hrole] at h
    simp only [Option.some.injEq] at h
    subst h
    exact fileTracks_congr rfl rfl hs
  · rw [if_neg hrole] at h
    obtain ⟨t1, f1, -, -⟩ := getInput_keeps_table s
    exact fileTracks_delete (fileTracks_congr t1 f1 hs) h

theorem saveLocationToFile_returns {s : State} {K B F R D : List Nat} (hs : FileTracks s)
    (hsearch : searchByKey K s.hashTable = some SearchResult.notFound) (hK : CleanText K)
    (htrim : NoTrailingSpace K) (hB : ∀ c ∈ B, c ≠ 10 ∧ c ≠ 0) (hF : ∀ c ∈ F, c ≠ 10 ∧ c ≠ 0)
    (hR : ∀ c ∈ R, c ≠ 10 ∧ c ≠ 0) (hD : ∀ c ∈ D, c ≠ 10 ∧ c ≠ 0) (hne : K ≠ [])
    (hline : (formatLine K B F R D).length < MAX_LINE_LENGTH) :
    ∃ s1, saveLocationToFile K B F R D s = some s1 := by
  obtain ⟨hr, hw, hgood, text, t, hcontent, haligned, hload, hgoodt, hsub⟩ := hs
  obtain ⟨hone, -⟩ := loadLines_formatLine t (k := K) (b := B) (f := F) (r := R) (d := D)
    (fun c hc => (hK c hc).2.1) (fun c hc => (hB c hc).1) (fun c hc => (hF c hc).1)
    (fun c hc => (hR c hc).1) (fun c hc => (hD c hc).1) hline
  have hall : loadLines (text ++ formatLine K B F R D) emptyTable =
      processLine (formatLine K B F R D) t := by
    rw [loadLines_append _ text.length text emptyTable (le_refl _) haligned, hload]
    exact hone
  have hins := lineInsert_formatLine (k := K) (b := B) (f := F) (r := R) (d := D) hK htrim
    (fun c hc => (hB c hc).2) (fun c hc => (hF c hc).2) (fun c hc => (hR c hc).2)
    (fun c hc => (hD c hc).2) (fun h0 => absurd h0 hne)
  have hv : validIndex (hashFunction K) := by
    cases hb : bucketAt s.hashTable (hashFunction K) with
    | none => simp [searchByKey, hb] at hsearch
    | some chain => exact (bucketAt_eq_some hb).1
  obtain ⟨t1, hp⟩ := processLine_total hgoodt.1 hins hv
  cases hsv : saveLocationToFile K B F R D s with
  | some s1 => exact ⟨s1, rfl⟩
  | none =>
    simp only [saveLocationToFile, hw, if_true, loadLocationData, hr, hcontent,
      Option.getD_some, hall, hp] at hsv
    cases hsv

/-- Once its key loop has ended with a key without `;`, and when the line to append is
shorter than the read buffer, `addLocationMenu` returns: the reload cannot fail. -/
theorem addLocationMenu_returns {s s1 : State} {K : List Nat} (hs : FileTracks s)
    (hask : askKey (s.stdin.length + 1) s = some (K, s1)) (hK : ∀ c ∈ K, c ≠ 59)
    (hline : (addedLine K s1).length < MAX_LINE_LENGTH) :
    ∃ s2, addLocationMenu s = some s2 := by
  unfold addLocationMenu
  by_cases hrole : s.currentUserRole ≠ UserRole.ROLE_ADMIN
  · rw [if_pos hrole]
    exact ⟨_, rfl⟩
  · rw [if_neg hrole]
    obtain ⟨ht, hf, -, hne, hlen, hsearch, htext, htrim, hbuf⟩ := askKey_spec _ _ _ _ hask
    obtain ⟨t1, f1, -, -⟩ := getInput_keeps_table s1
    obtain ⟨t2, f2, -, -⟩ := getInput_keeps_table (getInput s1).2
    obtain ⟨t3, f3, -, -⟩ := getInput_keeps_table (getInput (getInput s1).2).2
    obtain ⟨t4, f4, -, -⟩ := getInput_keeps_table (getInput (getInput (getInput s1).2).2).2
    have hbuf5 := getInput_inputText _ (getInput_inputText _ (getInput_inputText _
      (getInput_inputText _ hbuf)))
    have hs5 : FileTracks (getInput (getInput (getInput (getInput s1).2).2).2).2 :=
      fileTracks_congr (t4.trans (t3.trans (t2.trans (t1.trans ht))))
        (f4.trans (f3.trans (f2.trans (f1.trans hf)))) hs
    have hsearch5 : searchByKey K (getInput (getInput (getInput (getInput s1).2).2).2).2.hashTable =
        some SearchResult.notFound := by
      rw [t4, t3, t2, t1, ht]; exact hsearch
    obtain ⟨s6, hsave⟩ := saveLocationToFile_returns hs5 hsearch5
      (fun c hc => ⟨hK c hc, (htext c hc).1, (htext c hc).2⟩) htrim
      (deref_inputText _ (getInput s1).1 hbuf5)
      (deref_inputText _ (getInput (getInput s1).2).1 hbuf5)
      (deref_inputText _ (getInput (getInput (getInput s1).2).2).1 hbuf5)
      (deref_inputText _ (getInput (getInput (getInput (getInput s1).2).2).2).1 hbuf5)
      hne hline
    exact ⟨s6.print (Msg.addSuccess K), by simp only [hask, hsave]⟩

/-- When the key it reads hashes to a slot of the table, `deleteLocationMenu` returns. -/
theorem deleteLocationMenu_returns {s : State} (hs : FileTracks s)
    (hv : validIndex (hashFunction (typedKey s))) : ∃ s2, deleteLocationMenu s = some s2 := by
  unfold deleteLocationMenu
  by_cases hrole : s.currentUserRole ≠ UserRole.ROLE_ADMIN
  · rw [if_pos hrole]
    exact ⟨_, rfl⟩
  · rw [if_neg hrole]
    obtain ⟨t1, -, -, -⟩ := getInput_keeps_table s
    have hw : WellSized (getInput s).2.hashTable := by rw [t1]; exact hs.2.2.1.1
    obtain ⟨chain, hb, -⟩ := bucketAt_of_valid hw hv
    have hb1 : bucketAt (getInput s).2.hashTable
        (hashFunction (deref (getInput s).2 (getInput s).1)) = some chain := hb
    cases hdel : deleteLocationFor (deref (getInput s).2 (getInput s).1) (getInput s).2 with
    | some s2 => exact ⟨s2, rfl⟩
    | none =>
      cases hu : unlinkFirst (deref (getInput s).2 (getInput s).1) chain with
      | none =>
        simp only [deleteLocationFor, deleteNode, hb1, hu] at hdel
        cases hdel
      | some chain1 =>
        simp only [deleteLocationFor, deleteNode, hb1, hu] at hdel
        cases hdel

/-- C27 (amended): start from a state whose file can be read and written, ends where a line
ends and loads into the table of the state, every key the load inserts being at most 14
bytes long and the stored keys pairwise distinct.  Then after every sequence of calls of
`addLocationMenu` and `deleteLocationMenu` that return without indexing the table outside
its bounds or writing past `key_buffer`, in which each key accepted by the duplicate check
is at most 14 bytes long, hashes to a slot and holds no `;`, each appended line is shorter
than `MAX_LINE_LENGTH` bytes and each key typed for a delete hashes to a slot, the stored
keys of the table are pairwise distinct.  In every state so reached a further
`addLocationMenu` returns once its key loop has ended with a key without `;` and a line
shorter than `MAX_LINE_LENGTH`, and a further `deleteLocationMenu` returns when the key it
reads hashes to a slot. -/
theorem facade_keeps_keys_distinct (text : List Nat) (s0 s : State)
    (hcontent : s0.file.content = some text) (hread : s0.file.canRead = true)
    (hwrite : s0.file.canWrite = true)
    (hload : loadLines text emptyTable = some s0.hashTable) (haligned : LineAligned text)
    (hshort : ∀ op ∈ insertsOfFile text, ShortKey op) (hdistinct : DistinctKeys s0.hashTable)
    (hrun : FacadeRun s0 s) :
    DistinctKeys s.hashTable ∧
    (∀ key s1, askKey (s.stdin.length + 1) s = some (key, s1) → (∀ c ∈ key, c ≠ 59) →
      (addedLine key s1).length < MAX_LINE_LENGTH → ∃ s2, addLocationMenu s = some s2) ∧
    (validIndex (hashFunction (typedKey s)) → ∃ s2, deleteLocationMenu s = some s2) := by
  have hgood : GoodTable s0.hashTable := goodTable_loaded hload hshort hdistinct
  have h0 : FileTracks s0 :=
    ⟨hread, hwrite, hgood, text, s0.hashTable, hcontent, haligned, hload, hgood,
      fun n hn => List.mem_map_of_mem _ hn⟩
  have hall : FileTracks s := by
    induction hrun with
    | start => exact h0
    | add s s1 s2 key _ _ hask _ _ hkey hline hadd ih =>
      refine fileTracks_addLocationMenu ih ?_ hadd
      intro key1 s3 h
      rw [hask] at h
      simp only [Option.some.injEq, Prod.mk.injEq] at h
      obtain ⟨h1, h2⟩ := h
      subst h1
      subst h2
      exact ⟨hkey, hline⟩
    | addRefused s s2 _ hrole hadd ih =>
      unfold addLocationMenu at hadd
      rw [if_pos hrole] at hadd
      simp only [Option.some.injEq] at hadd
      subst hadd
      exact fileTracks_congr rfl rfl ih
    | delete s s2 _ _ _ hdel ih => exact fileTracks_deleteLocationMenu ih hdel
    | deleteRefused s s2 _ _ hdel ih => exact fileTracks_deleteLocationMenu ih hdel
  exact ⟨hall.2.2.1.2.2.2,
    fun key s1 hask hkey hline => addLocationMenu_returns hall hask hkey hline,
    fun hv => deleteLocationMenu_returns hall hv⟩

/-- C27 (amended, witness): in the example session the administrator adds the key `gym`
and then deletes the key `c_lab`; the table then holds the key `gym` only. -/
theorem facade_keeps_keys_distinct_witness :
    (allEntries facadeExampleDeleted.hashTable).map LocationNode.key = [ascii "gym"] ∧
      DistinctKeys facadeExampleDeleted.hashTable :=
  ⟨by decide,
    (facade_keeps_keys_distinct (ascii "c_lab;Engineering Hall;2nd;204;Computer Lab\n")
      facadeExample facadeExampleDeleted rfl rfl rfl (by decide) (by decide) (by decide)
      (by decide)
      (FacadeRun.delete facadeExampleAdded facadeExampleDeleted
        (FacadeRun.add facadeExample (getInput facadeExample).2 facadeExampleAdded (ascii "gym")
          FacadeRun.start (by decide) (by decide) (by decide) (by decide) (by decide)
          (by decide) (by decide))
        (by decide) (by decide) (by decide))).1⟩

/-- C27 (counterexample): the file holds the line of the computer lab, key `c_lab`, and
the table is the one loaded from it, with that one key; the administrator types the key
`c_lab;x`, which the duplicate check of `addLocationMenu` does not find, and four more
lines; the line appended to the file is read back under the key `c_lab`, so the table then
holds the key `c_lab` twice. -/
theorem addLocationMenu_stores_key_twice :
    loadLines (ascii "c_lab;Engineering Hall;2nd;204;Computer Lab\n") emptyTable =
        some (emptyTable.set 17 [computerLab]) ∧
      DistinctKeys (emptyTable.set 17 [computerLab]) ∧
      (addLocationMenu (adminSession (emptyTable.set 17 [computerLab])
          (some (ascii "c_lab;Engineering Hall;2nd;204;Computer Lab\n"))
          (ascii "c_lab;x\nAnnex\n1st\n101\nLab\n"))).map
        (fun s => (s.file.content, (allEntries s.hashTable).map LocationNode.key,
          decide (DistinctKeys s.hashTable))) =
      some (some (ascii "c_lab;Engineering Hall;2nd;204;Computer Lab\n" ++
          ascii "c_lab;x;Lab;Lab;Lab;Lab\n"),
        [ascii "c_lab", ascii "c_lab"], false) := by
  decide

end UniversityGuide
